import Mathlib

/-!
Verification of the unistore coprocessor executor pipeline
(`tikv/executor.go`): table/index scans over sorted key ranges backed by an
MVCC snapshot, row/index decoding, selection filtering, and bounded top-N.

Keys and values are byte strings, modelled as `List Nat` with entries `< 256`.
External collaborators (the DB reader, the TiDB codec helpers, expression
evaluation) are modelled from the spec or taken as parameters, as noted on
each definition.  Everything else is a direct translation of the Go source.
-/

namespace Unistore

abbrev Key := List Nat
abbrev Val := List Nat

/-! ### Byte-lexicographic order on keys -/

/-- Byte-lexicographic strict comparison of byte strings
(`bytes.Compare(a, b) < 0` in Go). -/
def keyLt : Key → Key → Bool
  | [], [] => false
  | [], _ :: _ => true
  | _ :: _, [] => false
  | a :: as, b :: bs => if a < b then true else if b < a then false else keyLt as bs

/-- `bytes.Compare(a, b) <= 0`. -/
def keyLe (a b : Key) : Bool := !(keyLt b a)

/-- Big-endian numeric value of a byte string (base 256). -/
def keyVal (k : Key) : Nat := k.foldl (fun acc b => acc * 256 + b) 0

/-! ### prefixPrev and PrefixNext -/

/-- Helper for `prefixPrev`, operating on the reversed byte list: decrement a
byte (with byte wrap-around); on underflow (result 255) borrow and continue
left; `none` when the borrow walks past the first byte. -/
def prefixPrevAux : List Nat → Option (List Nat)
  | [] => none
  | b :: rest =>
    let b' := (b + 255) % 256
    if b' = 255 then (prefixPrevAux rest).map (fun r => b' :: r)
    else some (b' :: rest)

/-- `prefixPrev` (executor.go): copy the key and, scanning right to left,
decrement a byte; if it underflows, borrow and continue left; return the
buffer at the first non-underflow, and `none` (Go `nil`) when every byte
underflowed. -/
def prefixPrev (k : Key) : Option Key :=
  (prefixPrevAux k.reverse).map List.reverse

/-- Helper for `prefixNext`, operating on the reversed byte list: increment a
byte (with byte wrap-around); on overflow (result 0) carry and continue left;
`none` when the carry walks past the first byte. -/
def prefixNextAux : List Nat → Option (List Nat)
  | [] => none
  | b :: rest =>
    let b' := (b + 1) % 256
    if b' = 0 then (prefixNextAux rest).map (fun r => b' :: r)
    else some (b' :: rest)

/-- Modelled from the spec: `kv.Key.PrefixNext` of the TiDB kv package (not
part of this repository) — the lexicographic successor used for forward seek
advancement and for the point-range test: increment the trailing byte,
carrying left on overflow; when every byte overflows, append a zero byte to
the original key. -/
def prefixNext (k : Key) : Key :=
  match prefixNextAux k.reverse with
  | some r => r.reverse
  | none => k ++ [0]

/-- Modelled from the spec: `kv.KeyRange.IsPoint` — a range is a point when
its end equals `PrefixNext` of its start. -/
structure KeyRange where
  startKey : Key
  endKey : Key
deriving DecidableEq, Repr

def KeyRange.isPoint (r : KeyRange) : Bool := r.endKey = prefixNext r.startKey

/-! ### Datums and handle decoding -/

/-- The datums the executor constructs itself (`types.NewIntDatum`,
`types.NewUintDatum`) plus opaque datums produced by external expression
evaluation (`dnull` for the SQL NULL datum, `dother` for anything else). -/
inductive Datum
  | dint (i : Int)
  | duint (n : Nat)
  | dnull
  | dother (tag : Nat)
deriving DecidableEq, Repr

def Datum.isNull : Datum → Bool
  | .dnull => true
  | _ => false

/-- Interpretation of a `Nat` below `2 ^ 64` as a signed two's-complement
64-bit integer. -/
def signed64 (v : Nat) : Int := if v < 2 ^ 63 then (v : Int) else (v : Int) - 2 ^ 64

/-- Go's `uint64(h)` conversion of an `int64`. -/
def uint64OfInt (h : Int) : Nat := (h % (2 ^ 64 : Int)).toNat

/-- `decodeHandle` (executor.go): `binary.Read` of a big-endian `int64` from
the buffer over `data` — i.e. the leading 8 bytes; fails when fewer than 8
bytes are available. -/
def decodeHandle (data : List Nat) : Except String Int :=
  if data.length < 8 then .error "decodeHandle: unexpected EOF"
  else .ok (signed64 (keyVal (data.take 8)))

/-- The handle fallback as the C8 claim words it: a big-endian 64-bit integer
read from the stored value's TRAILING 8 bytes (for comparison with
`decodeHandle`, which reads the leading 8). -/
def decodeHandleTrailingSpec (data : List Nat) : Except String Int :=
  if data.length < 8 then .error "decodeHandle: unexpected EOF"
  else .ok (signed64 (keyVal (data.drop (data.length - 8))))

/-! ### Index key-value decoding -/

/-- The `pkStatus` enumeration (executor.go): `pkColNotExists`,
`pkColIsSigned`, `pkColIsUnsigned`. -/
inductive PkStatus
  | notExists
  | isSigned
  | isUnsigned
deriving DecidableEq, Repr

/-- `indexScanExec.decodeIndexKV` (executor.go): cut the key into `colsLen`
column segments plus a remainder (`cutIndexKeyNew`, an external codec helper,
passed as the `cut` parameter); if the remainder is non-empty and a pk column
exists, append the remainder; otherwise, when a pk column exists, decode the
handle from the stored value and append it as an encoded datum, unsigned iff
`pkStatus` is unsigned.  `encode` stands for the external
`codec.EncodeValue`. -/
def decodeIndexKV (cut : Key → Nat → Except String (List Val × List Nat))
    (encode : Datum → Except String (List Nat)) (colsLen : Nat) (pkStatus : PkStatus)
    (key : Key) (value : Val) : Except String (List Val) :=
  match cut key colsLen with
  | .error e => .error e
  | .ok (values, b) =>
    if b.length > 0 then
      if pkStatus ≠ .notExists then .ok (values ++ [b]) else .ok values
    else if pkStatus ≠ .notExists then
      match decodeHandle value with
      | .error e => .error e
      | .ok handle =>
        let handleDatum : Datum :=
          if pkStatus = .isUnsigned then .duint (uint64OfInt handle) else .dint handle
        match encode handleDatum with
        | .error e => .error e
        | .ok handleBytes => .ok (values ++ [handleBytes])
    else .ok values

/-! ### Row data reconstruction (`getRowData`) -/

/-- The fields of the tipb `ColumnInfo` metadata that `getRowData` consults:
column id, the pk-handle marker, the unsigned and not-null flag bits
(`mysql.HasUnsignedFlag` / `mysql.HasNotNullFlag`), and the default-value
bytes. -/
structure ColumnInfo where
  columnId : Int
  pkHandle : Bool
  flagUnsigned : Bool
  flagNotNull : Bool
  defaultVal : List Nat
deriving DecidableEq, Repr

/-- `model.ExtraHandleID` (external constant; `-1` in tidb). -/
def extraHandleID : Int := -1

/-- `codec.NilFlag`, the single NULL marker byte (external constant). -/
def nilFlag : Nat := 0

inductive RowError
  | codecErr (msg : String)
  | missingColumn (id : Int)
deriving DecidableEq, Repr

/-- A decoded row: one entry per output offset, `none` standing for a Go nil
byte slice. -/
abbrev Row := List (Option Val)

/-- Lookup in the `colIDs` map (`map[int64]int` in Go). -/
def lookupColID (colIDs : List (Int × Nat)) (id : Int) : Option Nat :=
  (colIDs.find? (fun p => p.1 == id)).map (fun p => p.2)

/-- `hasColVal` (executor.go): the map has an offset for `id` and the row
value at that offset is non-nil. -/
def hasColVal (data : Row) (colIDs : List (Int × Nat)) (id : Int) : Bool :=
  match lookupColID colIDs id with
  | some offset => (data.getD offset none).isSome
  | none => false

/-- One iteration of the `getRowData` column-fill loop (executor.go): the
pk-handle (or `ExtraHandleID`) column always receives the encoded handle;
otherwise a present value is kept; otherwise a non-empty default is used;
otherwise a NOT NULL column is an error; otherwise the NULL marker byte.
Note the Go map read `colIDs[id]` yields offset 0 when `id` is absent. -/
def fillColumn (encode : Datum → Except String (List Nat)) (colIDs : List (Int × Nat))
    (handle : Int) (values : Row) (col : ColumnInfo) : Except RowError Row :=
  let id := col.columnId
  let offset := (lookupColID colIDs id).getD 0
  if col.pkHandle || id == extraHandleID then
    let handleDatum : Datum :=
      if col.flagUnsigned then .duint (uint64OfInt handle) else .dint handle
    match encode handleDatum with
    | .error e => .error (.codecErr e)
    | .ok handleData => .ok (values.set offset (some handleData))
  else if hasColVal values colIDs id then .ok values
  else if col.defaultVal.length > 0 then .ok (values.set offset (some col.defaultVal))
  else if col.flagNotNull then .error (.missingColumn id)
  else .ok (values.set offset (some [nilFlag]))

/-- The `getRowData` fill loop over the declared columns. -/
def fillColumns (encode : Datum → Except String (List Nat)) (colIDs : List (Int × Nat))
    (handle : Int) : List ColumnInfo → Row → Except RowError Row
  | [], values => .ok values
  | col :: cols, values =>
    match fillColumn encode colIDs handle values col with
    | .error e => .error e
    | .ok values' => fillColumns encode colIDs handle cols values'

/-- `getRowData` (executor.go): convert the stored row bytes to per-column
slices (`rowcodec.RowToOldRow` composed with `cutRowNew`, external codec,
combined in the `cutRow` parameter; `.ok none` models the codec handing back
a nil slice, replaced by an all-nil row of `len(colIDs)` entries), then fill
handle, default and null columns. -/
def getRowData (cutRow : Val → Except String (Option Row))
    (encode : Datum → Except String (List Nat)) (columns : List ColumnInfo)
    (colIDs : List (Int × Nat)) (handle : Int) (value : Val) : Except RowError Row :=
  match cutRow value with
  | .error e => .error (.codecErr e)
  | .ok ov =>
    let values := match ov with
      | some vs => vs
      | none => List.replicate colIDs.length none
    fillColumns encode colIDs handle columns values

/-- The per-column value the C3 claim's precedence assigns, given the stored
(cut) entry at the column's offset: pk-handle/ExtraHandleID columns always get
the encoded handle; else a present stored value is kept; else a non-empty
default; else the NULL marker byte.  (Second definition following the claim's
words, compared against the `getRowData` fold.) -/
def specColVal (encodeF : Datum → List Nat) (handle : Int) (stored : Option Val)
    (col : ColumnInfo) : Option Val :=
  if col.pkHandle || col.columnId == extraHandleID then
    some (encodeF (if col.flagUnsigned then .duint (uint64OfInt handle)
      else .dint handle))
  else if stored.isSome then stored
  else if col.defaultVal.length > 0 then some col.defaultVal
  else some [nilFlag]

/-- The C3 claim's failure condition for a column: not a handle column, no
stored value, no default, and NOT NULL. -/
def specColMissing (stored : Option Val) (col : ColumnInfo) : Bool :=
  !(col.pkHandle || col.columnId == extraHandleID) && stored.isNone &&
    (col.defaultVal.length == 0) && col.flagNotNull

/-- Concrete column list for the C3 witness: a pk-handle column, a stored
column, a defaulted column and a nullable column. -/
def c3WitCols : List ColumnInfo :=
  [⟨1, true, false, false, []⟩, ⟨2, false, false, false, []⟩,
   ⟨3, false, false, false, [7]⟩, ⟨4, false, false, false, []⟩]

def c3WitColIDs : List (Int × Nat) := [(1, 0), (2, 1), (3, 2), (4, 3)]

def c3WitV0 : Row := [none, some [9], none, none]

def c3WitOff (col : ColumnInfo) : Nat := (col.columnId - 1).toNat

/-! ### Selection -/

/-- A decoded datum row (the reusable `e.row` buffer bound to the evaluation
context). -/
abbrev DRow := List Datum

/-- The selection executor's environment: `decodeRelated` models the external
`evalCtx.decodeRelatedColumnVals`, each entry of `conditions` models the
external `Eval` of one condition expression on the decoded row, and `toBool`
models the external `Datum.ToBool` coercion.  `ρ` is the upstream row type. -/
structure SelEnv (ρ : Type) where
  decodeRelated : ρ → Except String DRow
  conditions : List (DRow → Except String Datum)
  toBool : Datum → Except String Int

/-- `selectionExec.evalBool` (executor.go): evaluate the conditions left to
right; a NULL result or a zero boolean coercion yields `false`; `true` only
when every condition passes. -/
def evalBoolConds (toBool : Datum → Except String Int) :
    List (DRow → Except String Datum) → DRow → Except String Bool
  | [], _ => .ok true
  | cond :: rest, drow =>
    match cond drow with
    | .error e => .error e
    | .ok d =>
      if d.isNull then .ok false
      else
        match toBool d with
        | .error e => .error e
        | .ok b => if b = 0 then .ok false else evalBoolConds toBool rest drow

/-- `selectionExec.Next` (executor.go): pull source rows until one passes the
conjunction, and emit it unchanged.  The upstream executor is modelled by the
list of rows it will yield before end-of-stream. -/
def selNext {ρ : Type} (env : SelEnv ρ) : List ρ → Except String (Option ρ) × List ρ
  | [] => (.ok none, [])
  | r :: rest =>
    match env.decodeRelated r with
    | .error e => (.error e, rest)
    | .ok drow =>
      match evalBoolConds env.toBool env.conditions drow with
      | .error e => (.error e, rest)
      | .ok true => (.ok (some r), rest)
      | .ok false => selNext env rest

/-- Repeatedly call `selNext` until end-of-stream or error, collecting the
emitted rows; the boolean records whether end-of-stream was reached within
the fuel. -/
def selDrain {ρ : Type} (env : SelEnv ρ) : Nat → List ρ → Except String (List ρ × Bool)
  | 0, _ => .ok ([], false)
  | fuel + 1, rows =>
    match selNext env rows with
    | (.error e, _) => .error e
    | (.ok none, _) => .ok ([], true)
    | (.ok (some r), rest) =>
      match selDrain env fuel rest with
      | .error e => .error e
      | .ok (rs, fin) => .ok (r :: rs, fin)

/-- Whether the selection predicate accepts a row (decode succeeds and the
conjunction evaluates to true). -/
def selAccepts {ρ : Type} (env : SelEnv ρ) (r : ρ) : Bool :=
  match env.decodeRelated r with
  | .error _ => false
  | .ok drow =>
    match evalBoolConds env.toBool env.conditions drow with
    | .ok true => true
    | _ => false

/-! ### Top-N -/

/-- Modelled from the spec: `sortRow` of the top-N heap (the heap lives in a
file that is not part of the excerpted source) — the evaluated ordering-key
tuple plus the attached original row.  `κ` is the abstract ordering-key type,
`ρ` the row type. -/
structure SortRow (κ : Type) (ρ : Type) where
  key : κ
  data : ρ
deriving DecidableEq

/-- Modelled from the spec: the root of the bounded max-heap — a maximal
element w.r.t. the ordering, i.e. the current worst candidate (`none` for an
empty heap). -/
def heapRoot {κ ρ : Type} (le : κ → κ → Bool) :
    List (SortRow κ ρ) → Option (SortRow κ ρ)
  | [] => none
  | r :: rs => some (rs.foldl (fun m x => if le m.key x.key then x else m) r)

/-- Modelled from the spec: `topNHeap.tryToAddRow` — insert while fewer than
`limit` rows are held; once full, a new row replaces the root iff it is
strictly better (strictly less in the ordering) than the root, and is
rejected otherwise. -/
def tryToAddRow {κ ρ : Type} [DecidableEq κ] [DecidableEq ρ] (le : κ → κ → Bool)
    (limit : Nat) (heap : List (SortRow κ ρ)) (new : SortRow κ ρ) :
    Bool × List (SortRow κ ρ) :=
  if heap.length < limit then (true, new :: heap)
  else
    match heapRoot le heap with
    | none => (false, heap)
    | some root =>
      if !(le root.key new.key) then (true, new :: heap.erase root)
      else (false, heap)

/-- `topNExec` state (executor.go): the upstream executor is modelled by the
list of rows it will still yield, `heapRows` is the heap's row slice (sorted
in place once `executed` is set), and `cursor` is the output cursor. -/
structure TopNState (κ ρ : Type) where
  srcRows : List ρ
  heapRows : List (SortRow κ ρ)
  executed : Bool
  cursor : Nat

/-- `topNExec.evalTopN` (executor.go): evaluate the ordering expressions on
the row (`evalKeys` combines the external `decodeRelatedColumnVals` and
`Eval` capabilities), then offer the keyed row to the heap; the row data is
attached exactly when the heap accepts. -/
def evalTopN {κ ρ : Type} [DecidableEq κ] [DecidableEq ρ]
    (evalKeys : ρ → Except String κ) (le : κ → κ → Bool) (limit : Nat)
    (heap : List (SortRow κ ρ)) (value : ρ) : Except String (List (SortRow κ ρ)) :=
  match evalKeys value with
  | .error e => .error e
  | .ok k => .ok (tryToAddRow le limit heap ⟨k, value⟩).2

/-- The drain loop of `topNExec.Next` (executor.go): `innerNext` until the
source is exhausted, feeding every source row to the heap; on an evaluation
error the remaining source and current heap are surfaced. -/
def topNDrainSrc {κ ρ : Type} [DecidableEq κ] [DecidableEq ρ]
    (evalKeys : ρ → Except String κ) (le : κ → κ → Bool) (limit : Nat) :
    List ρ → List (SortRow κ ρ) →
      Except String Unit × List ρ × List (SortRow κ ρ)
  | [], heap => (.ok (), [], heap)
  | r :: rest, heap =>
    match evalTopN evalKeys le limit heap r with
    | .error e => (.error e, rest, heap)
    | .ok heap' => topNDrainSrc evalKeys le limit rest heap'

/-- `topNExec.Next` (executor.go): on the first call, fully drain the source,
then sort the heap rows ascending (`sort.Sort(&e.heap.topNSorter)`, modelled
as a merge sort by the heap ordering) and set `executed`; afterwards stream
the sorted rows by cursor, `none` at the end. -/
def topNNext {κ ρ : Type} [DecidableEq κ] [DecidableEq ρ]
    (evalKeys : ρ → Except String κ) (le : κ → κ → Bool) (limit : Nat)
    (s : TopNState κ ρ) : Except String (Option ρ) × TopNState κ ρ :=
  if s.executed then
    if h : s.cursor < s.heapRows.length then
      (.ok (some (s.heapRows.get ⟨s.cursor, h⟩).data), { s with cursor := s.cursor + 1 })
    else (.ok none, s)
  else
    match topNDrainSrc evalKeys le limit s.srcRows s.heapRows with
    | (.error e, rest, heap') =>
      (.error e, { s with srcRows := rest, heapRows := heap' })
    | (.ok _, _, heap') =>
      let s' : TopNState κ ρ :=
        { srcRows := [], executed := true, cursor := s.cursor,
          heapRows := heap'.mergeSort (fun a b => le a.key b.key) }
      if h : s'.cursor < s'.heapRows.length then
        (.ok (some (s'.heapRows.get ⟨s'.cursor, h⟩).data), { s' with cursor := s'.cursor + 1 })
      else (.ok none, s')

/-- Repeatedly call `topNNext`, collecting the emitted rows; the boolean
records whether end-of-stream was reached within the fuel. -/
def topNRun {κ ρ : Type} [DecidableEq κ] [DecidableEq ρ]
    (evalKeys : ρ → Except String κ) (le : κ → κ → Bool) (limit : Nat) :
    Nat → TopNState κ ρ → Except String (List ρ × Bool)
  | 0, _ => .ok ([], false)
  | fuel + 1, s =>
    match topNNext evalKeys le limit s with
    | (.error e, _) => .error e
    | (.ok none, _) => .ok ([], true)
    | (.ok (some r), s') =>
      match topNRun evalKeys le limit fuel s' with
      | .error e => .error e
      | .ok (rs, fin) => .ok (r :: rs, fin)

/-- The pure heap fold over the source rows with a total key function (the
drain loop's effect when no evaluation errors occur). -/
def feedAll {κ ρ : Type} [DecidableEq κ] [DecidableEq ρ] (le : κ → κ → Bool)
    (limit : Nat) (f : ρ → κ) : List ρ → List (SortRow κ ρ) → List (SortRow κ ρ)
  | [], heap => heap
  | r :: rest, heap => feedAll le limit f rest (tryToAddRow le limit heap ⟨f r, r⟩).2

/-! ### MVCC store, DB reader and scan executors -/

/-- The MVCC snapshot visible at the scan's start timestamp: an association
list of key-value pairs (assumed sorted strictly ascending by key where a
claim needs it).  Modelled from the spec: the MVCC engine is an external
collaborator consumed through Get/Scan/ReverseScan/CheckRangeLock. -/
abbrev Store := List (Key × Val)

/-- `scanLimit` (executor.go). -/
def scanLimit : Nat := 128

/-- Modelled from the spec: `Scan(start, end, limit, ts, fn)` — the pairs
with `start ≤ key < end` in ascending order, capped at `limit`. -/
def scanPairs (db : Store) (start stop : Key) (limit : Nat) : List (Key × Val) :=
  (db.filter (fun p => keyLe start p.1 && keyLt p.1 stop)).take limit

/-- Modelled from the spec: `ReverseScan(start, end, limit, ts, fn)` — the
pairs with `start ≤ key < end` in descending order, capped at `limit`. -/
def reverseScanPairs (db : Store) (start stop : Key) (limit : Nat) :
    List (Key × Val) :=
  ((db.filter (fun p => keyLe start p.1 && keyLt p.1 stop)).reverse).take limit

/-- Modelled from the spec: a successful `Get(key, ts)` — empty bytes mean
"not present at ts". -/
def storeGet (db : Store) (k : Key) : Val :=
  match db.find? (fun p => p.1 == k) with
  | some p => p.2
  | none => []

/-- The store operations a scan issues, recorded as a trace for the
invariant claims. -/
inductive StoreOp
  | getOp (key : Key)
  | scanOp (start stop : Key) (limit : Nat)
  | revScanOp (start stop : Key) (limit : Nat)
  | checkLockOp (start stop : Key)
deriving DecidableEq, Repr

def StoreOp.isLockOp : StoreOp → Bool
  | .checkLockOp _ _ => true
  | _ => false

/-- The CheckRangeLock calls recorded in a trace. -/
def lockOps (tr : List StoreOp) : List StoreOp := tr.filter StoreOp.isLockOp

/-- The error kinds a scan surfaces: a lock conflict (`Locked`, carrying the
lock's ts), a storage error from the reader, a key/index decode error, or a
row reconstruction error. -/
inductive ScanErr
  | locked (ts : Nat)
  | storageErr (msg : String)
  | decodeErr (msg : String)
  | rowErr (e : RowError)
deriving DecidableEq, Repr

/-- The loop of `checkRangeLock` (executor.go, shared shape between both
scans): call `CheckRangeLock` on each range in order, stopping at the first
conflict; the trace records one call per range visited.  `lockOf` models the
external `MVCCStore.CheckRangeLock` at the scan's ts (`some ts` means a
conflicting lock). -/
def checkRangesLock (lockOf : Key → Key → Option Nat) :
    List KeyRange → Option Nat × List StoreOp
  | [] => (none, [])
  | r :: rs =>
    match lockOf r.startKey r.endKey with
    | some l => (some l, [StoreOp.checkLockOp r.startKey r.endKey])
    | none =>
      match checkRangesLock lockOf rs with
      | (res, tr) => (res, StoreOp.checkLockOp r.startKey r.endKey :: tr)

/-- The environment of a `tableScanExec` (executor.go): ranges, descending
flag, the MVCC snapshot, and the external capabilities (point reads, lock
checks, `decodeRowKey`, the row codec and `codec.EncodeValue`), plus the
declared columns and the column-id map. -/
structure TSEnv where
  kvRanges : List KeyRange
  desc : Bool
  db : Store
  pointGet : Key → Except String Val
  lockOf : Key → Key → Option Nat
  decodeRowKey : Key → Except String Int
  cutRow : Val → Except String (Option Row)
  encode : Datum → Except String (List Nat)
  columns : List ColumnInfo
  colIDs : List (Int × Nat)

/-- The mutable state of a `tableScanExec` (executor.go). -/
structure TSState where
  rangeCursor : Nat
  rowCursor : Nat
  rows : List Row
  seekKey : Option Key
  start : Nat
  counts : Option (List Int)
  ignoreLock : Bool
  lockChecked : Bool

/-- `tableScanExec.ResetCounts` (executor.go). -/
def tsResetCounts (s : TSState) : TSState :=
  match s.counts with
  | none => s
  | some cs =>
    { s with start := s.rangeCursor, counts := some (cs.set s.rangeCursor 0) }

/-- `tableScanExec.Counts` (executor.go): nil counts yield nil; otherwise the
slice `counts[start:rangeCursor]`, extended by one entry when a mid-range
seek position is held. -/
def tsCounts (s : TSState) : List Int :=
  match s.counts with
  | none => []
  | some cs =>
    if s.seekKey = none then (cs.drop s.start).take (s.rangeCursor - s.start)
    else (cs.drop s.start).take (s.rangeCursor + 1 - s.start)

/-- `tableScanExec.checkRangeLock` (executor.go). -/
def tsCheckRangeLock (env : TSEnv) (s : TSState) :
    Option ScanErr × TSState × List StoreOp :=
  if !s.ignoreLock && !s.lockChecked then
    match checkRangesLock env.lockOf env.kvRanges with
    | (some l, tr) => (some (.locked l), s, tr)
    | (none, tr) => (none, { s with lockChecked := true }, tr)
  else (none, s, [])

/-- The per-pair row decoding of the table scan: `decodeRowKey` (external)
then `getRowData` (executor.go, fillRowsFromPoint and the scan callback). -/
def tsDecodeRow (env : TSEnv) (key : Key) (value : Val) : Except ScanErr Row :=
  match env.decodeRowKey key with
  | .error e => .error (.decodeErr e)
  | .ok handle =>
    match getRowData env.cutRow env.encode env.columns env.colIDs handle value with
    | .error e => .error (.rowErr e)
    | .ok row => .ok row

/-- `tableScanExec.fillRowsFromPoint` (executor.go): one Get; an empty value
is skipped; otherwise decode handle and row and append. -/
def tsFillRowsFromPoint (env : TSEnv) (s : TSState) (ran : KeyRange) :
    Option ScanErr × TSState × List StoreOp :=
  let tr := [StoreOp.getOp ran.startKey]
  match env.pointGet ran.startKey with
  | .error e => (some (.storageErr e), s, tr)
  | .ok val =>
    if val.length = 0 then (none, s, tr)
    else
      match tsDecodeRow env ran.startKey val with
      | .error e => (some e, s, tr)
      | .ok row => (none, { s with rows := s.rows ++ [row] }, tr)

/-- The scan callback loop (`scanFunc` in executor.go): record the last key
seen, decode each pair, append the row; a decode error stops the scan with
the rows so far retained. -/
def tsFeedPairs (env : TSEnv) : List (Key × Val) → List Row → Option Key →
    List Row × Option Key × Option ScanErr
  | [], rows, lastKey => (rows, lastKey, none)
  | (k, v) :: rest, rows, _ =>
    match tsDecodeRow env k v with
    | .error e => (rows, some k, some e)
    | .ok row => tsFeedPairs env rest (rows ++ [row]) (some k)

/-- `tableScanExec.fillRowsFromRange` (executor.go): initialise the seek key
if unset (EndKey when descending, StartKey otherwise), scan up to `scanLimit`
pairs (ReverseScan when descending), append the decoded rows, and advance the
seek key past the last key seen (`PrefixNext` forward, `prefixPrev`
backward); the seek key is not advanced when the callback failed or nothing
was scanned. -/
def tsFillRowsFromRange (env : TSEnv) (s : TSState) (ran : KeyRange) :
    Option ScanErr × TSState × List StoreOp :=
  let seek := match s.seekKey with
    | some k => k
    | none => if env.desc then ran.endKey else ran.startKey
  let s0 := { s with seekKey := some seek }
  let pairs := if env.desc then reverseScanPairs env.db ran.startKey seek scanLimit
    else scanPairs env.db seek ran.endKey scanLimit
  let tr := [if env.desc then StoreOp.revScanOp ran.startKey seek scanLimit
    else StoreOp.scanOp seek ran.endKey scanLimit]
  match tsFeedPairs env pairs s0.rows none with
  | (rows', lastKey, err) =>
    let s1 := { s0 with rows := rows' }
    match err with
    | some e => (some e, s1, tr)
    | none =>
      match lastKey with
      | none => (none, s1, tr)
      | some lk =>
        if env.desc then (none, { s1 with seekKey := prefixPrev lk }, tr)
        else (none, { s1 with seekKey := some (prefixNext lk) }, tr)

/-- `tableScanExec.fillRows` (executor.go): process ranges from the cursor.
A point range is read via Get with the cursor advanced unconditionally
(`nextRange` runs before the error check); a non-point range is scanned with
the cursor advancing only when the scan found nothing.  Stop on error, when
rows were produced, or when the ranges are exhausted.  `fuel` bounds the
loop; each iteration either stops or advances the cursor, so
`kvRanges.length + 1` fuel is always enough. -/
def tsFillRows (env : TSEnv) : Nat → TSState → Option ScanErr × TSState × List StoreOp
  | 0, s => (none, s, [])
  | fuel + 1, s =>
    if s.rangeCursor < env.kvRanges.length then
      let ran := env.kvRanges.getD s.rangeCursor ⟨[], []⟩
      if ran.isPoint then
        match tsFillRowsFromPoint env s ran with
        | (err, s1, tr) =>
          let s2 := { s1 with rangeCursor := s1.rangeCursor + 1, seekKey := none }
          match err with
          | some e => (some e, s2, tr)
          | none =>
            if s2.rows.length > 0 then (none, s2, tr)
            else
              match tsFillRows env fuel s2 with
              | (err', s3, tr') => (err', s3, tr ++ tr')
      else
        match tsFillRowsFromRange env s ran with
        | (err, s1, tr) =>
          let s2 := if s1.rows.length = 0
            then { s1 with rangeCursor := s1.rangeCursor + 1, seekKey := none }
            else s1
          match err with
          | some e => (some e, s2, tr)
          | none =>
            if s2.rows.length > 0 then (none, s2, tr)
            else
              match tsFillRows env fuel s2 with
              | (err', s3, tr') => (err', s3, tr ++ tr')
    else (none, s, [])

/-- `tableScanExec.getOneRow` (executor.go). -/
def tsGetOneRow (s : TSState) : Option Row × TSState :=
  if h : s.rowCursor < s.rows.length then
    (some (s.rows.get ⟨s.rowCursor, h⟩), { s with rowCursor := s.rowCursor + 1 })
  else (none, s)

/-- `tableScanExec.Next` (executor.go): check range locks once, then return a
buffered row, or refill (resetting the row buffer) and return the first new
row; end-of-stream when a refill produces nothing. -/
def tsNext (env : TSEnv) (s : TSState) :
    Except ScanErr (Option Row) × TSState × List StoreOp :=
  match tsCheckRangeLock env s with
  | (some e, s1, tr) => (.error e, s1, tr)
  | (none, s1, tr) =>
    match tsGetOneRow s1 with
    | (some row, s2) => (.ok (some row), s2, tr)
    | (none, s2) =>
      let s3 := { s2 with rowCursor := 0, rows := [] }
      match tsFillRows env (env.kvRanges.length + 1) s3 with
      | (some e, s4, tr2) => (.error e, s4, tr ++ tr2)
      | (none, s4, tr2) =>
        if h : 0 < s4.rows.length then
          (.ok (some (s4.rows.get ⟨0, h⟩)), { s4 with rowCursor := 1 }, tr ++ tr2)
        else (.ok none, s4, tr ++ tr2)

/-- Repeatedly call `tsNext`, collecting emitted rows, the final state and
the accumulated trace; the boolean records whether end-of-stream was reached
within the fuel. -/
def tsDrain (env : TSEnv) : Nat → TSState →
    Except ScanErr (List Row × Bool) × TSState × List StoreOp
  | 0, s => (.ok ([], false), s, [])
  | fuel + 1, s =>
    match tsNext env s with
    | (.error e, s1, tr) => (.error e, s1, tr)
    | (.ok none, s1, tr) => (.ok ([], true), s1, tr)
    | (.ok (some row), s1, tr) =>
      match tsDrain env fuel s1 with
      | (.error e, s2, tr2) => (.error e, s2, tr ++ tr2)
      | (.ok (rows, fin), s2, tr2) => (.ok (row :: rows, fin), s2, tr ++ tr2)

/-- The environment of an `indexScanExec` (executor.go): as the table scan,
plus the unique flag (a nullable protobuf field), `colsLen`, `pkStatus`, and
the external `cutIndexKeyNew` / `codec.EncodeValue`. -/
structure ISEnv where
  kvRanges : List KeyRange
  desc : Bool
  db : Store
  pointGet : Key → Except String Val
  lockOf : Key → Key → Option Nat
  unique : Option Bool
  colsLen : Nat
  pkStatus : PkStatus
  cutIndex : Key → Nat → Except String (List Val × List Nat)
  encode : Datum → Except String (List Nat)

/-- `indexScanExec.isUnique` (executor.go): `e.Unique != nil && *e.Unique`. -/
def ISEnv.isUnique (env : ISEnv) : Bool :=
  match env.unique with
  | some b => b
  | none => false

/-- The mutable state of an `indexScanExec` (executor.go). -/
structure ISState where
  ranCursor : Nat
  rowCursor : Nat
  rows : List (List Val)
  seekKey : Option Key
  start : Nat
  counts : Option (List Int)
  ignoreLock : Bool
  lockChecked : Bool

/-- `indexScanExec.checkRangeLock` (executor.go). -/
def isCheckRangeLock (env : ISEnv) (s : ISState) :
    Option ScanErr × ISState × List StoreOp :=
  if !s.ignoreLock && !s.lockChecked then
    match checkRangesLock env.lockOf env.kvRanges with
    | (some l, tr) => (some (.locked l), s, tr)
    | (none, tr) => (none, { s with lockChecked := true }, tr)
  else (none, s, [])

/-- The per-pair decoding of the index scan (`decodeIndexKV`, lifted to the
scan's error type). -/
def isDecodeRow (env : ISEnv) (key : Key) (value : Val) :
    Except ScanErr (List Val) :=
  match decodeIndexKV env.cutIndex env.encode env.colsLen env.pkStatus key value with
  | .error e => .error (.decodeErr e)
  | .ok row => .ok row

/-- `indexScanExec.fillRowsFromPoint` (executor.go); only used for unique
indexes. -/
def isFillRowsFromPoint (env : ISEnv) (s : ISState) (ran : KeyRange) :
    Option ScanErr × ISState × List StoreOp :=
  let tr := [StoreOp.getOp ran.startKey]
  match env.pointGet ran.startKey with
  | .error e => (some (.storageErr e), s, tr)
  | .ok val =>
    if val.length = 0 then (none, s, tr)
    else
      match isDecodeRow env ran.startKey val with
      | .error e => (some e, s, tr)
      | .ok row => (none, { s with rows := s.rows ++ [row] }, tr)

/-- The index scan callback loop (`scanFunc` in executor.go). -/
def isFeedPairs (env : ISEnv) : List (Key × Val) → List (List Val) → Option Key →
    List (List Val) × Option Key × Option ScanErr
  | [], rows, lastKey => (rows, lastKey, none)
  | (k, v) :: rest, rows, _ =>
    match isDecodeRow env k v with
    | .error e => (rows, some k, some e)
    | .ok row => isFeedPairs env rest (rows ++ [row]) (some k)

/-- `indexScanExec.fillRowsFromRange` (executor.go). -/
def isFillRowsFromRange (env : ISEnv) (s : ISState) (ran : KeyRange) :
    Option ScanErr × ISState × List StoreOp :=
  let seek := match s.seekKey with
    | some k => k
    | none => if env.desc then ran.endKey else ran.startKey
  let s0 := { s with seekKey := some seek }
  let pairs := if env.desc then reverseScanPairs env.db ran.startKey seek scanLimit
    else scanPairs env.db seek ran.endKey scanLimit
  let tr := [if env.desc then StoreOp.revScanOp ran.startKey seek scanLimit
    else StoreOp.scanOp seek ran.endKey scanLimit]
  match isFeedPairs env pairs s0.rows none with
  | (rows', lastKey, err) =>
    let s1 := { s0 with rows := rows' }
    match err with
    | some e => (some e, s1, tr)
    | none =>
      match lastKey with
      | none => (none, s1, tr)
      | some lk =>
        if env.desc then (none, { s1 with seekKey := prefixPrev lk }, tr)
        else (none, { s1 with seekKey := some (prefixNext lk) }, tr)

/-- `indexScanExec.fillRows` (executor.go): as the table scan, except the
point fast path requires the index to be unique as well. -/
def isFillRows (env : ISEnv) : Nat → ISState →
    Option ScanErr × ISState × List StoreOp
  | 0, s => (none, s, [])
  | fuel + 1, s =>
    if s.ranCursor < env.kvRanges.length then
      let ran := env.kvRanges.getD s.ranCursor ⟨[], []⟩
      if env.isUnique && ran.isPoint then
        match isFillRowsFromPoint env s ran with
        | (err, s1, tr) =>
          let s2 := { s1 with ranCursor := s1.ranCursor + 1, seekKey := none }
          match err with
          | some e => (some e, s2, tr)
          | none =>
            if s2.rows.length > 0 then (none, s2, tr)
            else
              match isFillRows env fuel s2 with
              | (err', s3, tr') => (err', s3, tr ++ tr')
      else
        match isFillRowsFromRange env s ran with
        | (err, s1, tr) =>
          let s2 := if s1.rows.length = 0
            then { s1 with ranCursor := s1.ranCursor + 1, seekKey := none }
            else s1
          match err with
          | some e => (some e, s2, tr)
          | none =>
            if s2.rows.length > 0 then (none, s2, tr)
            else
              match isFillRows env fuel s2 with
              | (err', s3, tr') => (err', s3, tr ++ tr')
    else (none, s, [])

/-- `indexScanExec.Next` (executor.go): the row-cursor loop is inlined in the
source; same semantics as the table scan's Next. -/
def isNext (env : ISEnv) (s : ISState) :
    Except ScanErr (Option (List Val)) × ISState × List StoreOp :=
  match isCheckRangeLock env s with
  | (some e, s1, tr) => (.error e, s1, tr)
  | (none, s1, tr) =>
    if h : s1.rowCursor < s1.rows.length then
      (.ok (some (s1.rows.get ⟨s1.rowCursor, h⟩)),
        { s1 with rowCursor := s1.rowCursor + 1 }, tr)
    else
      let s3 := { s1 with rowCursor := 0, rows := [] }
      match isFillRows env (env.kvRanges.length + 1) s3 with
      | (some e, s4, tr2) => (.error e, s4, tr ++ tr2)
      | (none, s4, tr2) =>
        if h : 0 < s4.rows.length then
          (.ok (some (s4.rows.get ⟨0, h⟩)), { s4 with rowCursor := 1 }, tr ++ tr2)
        else (.ok none, s4, tr ++ tr2)

/-- Repeatedly call `isNext`. -/
def isDrain (env : ISEnv) : Nat → ISState →
    Except ScanErr (List (List Val) × Bool) × ISState × List StoreOp
  | 0, s => (.ok ([], false), s, [])
  | fuel + 1, s =>
    match isNext env s with
    | (.error e, s1, tr) => (.error e, s1, tr)
    | (.ok none, s1, tr) => (.ok ([], true), s1, tr)
    | (.ok (some row), s1, tr) =>
      match isDrain env fuel s1 with
      | (.error e, s2, tr2) => (.error e, s2, tr ++ tr2)
      | (.ok (rows, fin), s2, tr2) => (.ok (row :: rows, fin), s2, tr ++ tr2)

/-- Concrete table scan for C6: one point range over a store holding that
row, with an allocated counts vector. -/
def c6Env : TSEnv where
  kvRanges := [⟨[1, 1], [1, 2]⟩]
  desc := false
  db := [([1, 1], [5])]
  pointGet := fun k => .ok (storeGet [([1, 1], [5])] k)
  lockOf := fun _ _ => none
  decodeRowKey := fun _ => .ok 7
  cutRow := fun _ => .ok (some [some [5]])
  encode := fun _ => .ok [0]
  columns := []
  colIDs := []

def c6State : TSState where
  rangeCursor := 0
  rowCursor := 0
  rows := []
  seekKey := none
  start := 0
  counts := some [0]
  ignoreLock := false
  lockChecked := false

/-- Concrete table scan for the C5 counterexample: a single range guarded by
a conflicting lock at ts 99. -/
def c5Env : TSEnv where
  kvRanges := [⟨[1], [2]⟩]
  desc := false
  db := []
  pointGet := fun _ => .ok []
  lockOf := fun _ _ => some 99
  decodeRowKey := fun _ => .ok 0
  cutRow := fun _ => .ok none
  encode := fun _ => .ok []
  columns := []
  colIDs := []

def c5State : TSState where
  rangeCursor := 0
  rowCursor := 0
  rows := []
  seekKey := none
  start := 0
  counts := none
  ignoreLock := false
  lockChecked := false

/-- Concrete index scan for C7: a NON-unique index and a point range whose
prefix is shared by two index entries. -/
def c7Env : ISEnv where
  kvRanges := [⟨[5], [6]⟩]
  desc := false
  db := [([5, 1], [0]), ([5, 2], [0])]
  pointGet := fun k => .ok (storeGet [([5, 1], [0]), ([5, 2], [0])] k)
  lockOf := fun _ _ => none
  unique := some false
  colsLen := 1
  pkStatus := .isSigned
  cutIndex := fun k n => .ok ([k.take n], k.drop n)
  encode := fun _ => .ok []

def c7InitState : ISState where
  ranCursor := 0
  rowCursor := 0
  rows := []
  seekKey := none
  start := 0
  counts := none
  ignoreLock := true
  lockChecked := false

/-- Concrete index scan for C5: a single range guarded by a conflicting lock
at ts 99. -/
def c5IsEnv : ISEnv where
  kvRanges := [⟨[1], [2]⟩]
  desc := false
  db := []
  pointGet := fun _ => .ok []
  lockOf := fun _ _ => some 99
  unique := some true
  colsLen := 1
  pkStatus := .isSigned
  cutIndex := fun k n => .ok ([k.take n], k.drop n)
  encode := fun _ => .ok []

def c5IsState : ISState where
  ranCursor := 0
  rowCursor := 0
  rows := []
  seekKey := none
  start := 0
  counts := none
  ignoreLock := false
  lockChecked := false

/-- Concrete table scan for C10: a single point range whose Get fails. -/
def c10Env : TSEnv where
  kvRanges := [⟨[3], [4]⟩]
  desc := false
  db := []
  pointGet := fun _ => .error "boom"
  lockOf := fun _ _ => none
  decodeRowKey := fun _ => .ok 0
  cutRow := fun _ => .ok none
  encode := fun _ => .ok []
  columns := []
  colIDs := []

def c10State : TSState where
  rangeCursor := 0
  rowCursor := 0
  rows := []
  seekKey := none
  start := 0
  counts := none
  ignoreLock := true
  lockChecked := false

/-- Concrete index scan for C10: a unique index with a single point range
whose Get fails. -/
def c10IsEnv : ISEnv where
  kvRanges := [⟨[3], [4]⟩]
  desc := false
  db := []
  pointGet := fun _ => .error "boom"
  lockOf := fun _ _ => none
  unique := some true
  colsLen := 1
  pkStatus := .isSigned
  cutIndex := fun k n => .ok ([k.take n], k.drop n)
  encode := fun _ => .ok []

def c10IsState : ISState where
  ranCursor := 0
  rowCursor := 0
  rows := []
  seekKey := none
  start := 0
  counts := none
  ignoreLock := true
  lockChecked := false

/-- The invariant maintained while the top-N heap drains the source: the heap
plus the multiset `rest` of discarded rows is a permutation of the keyed
processed rows, every held key is at most every discarded key, and the heap
holds `min limit |processed|` rows. -/
def heapInv {κ ρ : Type} (le : κ → κ → Bool) (limit : Nat) (f : ρ → κ)
    (processed : List ρ) (heap rest : List (SortRow κ ρ)) : Prop :=
  (heap ++ rest).Perm (processed.map (fun r => ⟨f r, r⟩)) ∧
  (∀ h ∈ heap, ∀ x ∈ rest, le h.key x.key = true) ∧
  heap.length = min limit processed.length

/-- A concrete selection environment for the C4 witness: the decoded row is
the single integer datum of the upstream row, the one condition reads it, and
boolean coercion is the integer itself. -/
def selWitnessEnv : SelEnv Nat where
  decodeRelated := fun n => .ok [Datum.dint (Int.ofNat n)]
  conditions := [fun drow => .ok (drow.headD Datum.dnull)]
  toBool := fun d => match d with
    | .dint i => .ok i
    | _ => .error "not an int"

/-! ### Range coverage machinery (C1) -/

/-- Membership of a key in the union of a list of half-open ranges. -/
def inRanges (rs : List KeyRange) (k : Key) : Bool :=
  rs.any (fun r => keyLe r.startKey k && keyLt k r.endKey)

/-- The store pairs falling in one range, in store (ascending) order. -/
def rangePairs (db : Store) (r : KeyRange) : List (Key × Val) :=
  db.filter (fun kv => keyLe r.startKey kv.1 && keyLt kv.1 r.endKey)

/-- The pairs a scan of range `r` still has to deliver, given the current
seek key: the whole range when the seek key is unset, otherwise the
remaining half of the range on the seek side; reversed when descending. -/
def windowPairs (db : Store) (r : KeyRange) (desc : Bool) :
    Option Key → List (Key × Val)
  | none => if desc then (rangePairs db r).reverse else rangePairs db r
  | some sk =>
    if desc then
      (db.filter (fun kv => keyLe r.startKey kv.1 && keyLt kv.1 sk)).reverse
    else db.filter (fun kv => keyLe sk kv.1 && keyLt kv.1 r.endKey)

/-- The pairs of a list of whole ranges, concatenated in list order. -/
def tailPairs (db : Store) (desc : Bool) : List KeyRange → List (Key × Val)
  | [] => []
  | r :: rs =>
    (if desc then (rangePairs db r).reverse else rangePairs db r) ++
      tailPairs db desc rs

/-- The pairs a table scan still has to deliver from range cursor `c` with
the given seek key. -/
def pendingPairs (env : TSEnv) (c : Nat) (seek : Option Key) :
    List (Key × Val) :=
  match env.kvRanges.drop c with
  | [] => []
  | r :: rs => windowPairs env.db r env.desc seek ++ tailPairs env.db env.desc rs

/-- The little-endian (reversed big-endian) numeric value of a byte list. -/
def valLE : List Nat → Nat
  | [] => 0
  | b :: rest => b + 256 * valLE rest

/-- The invariant tying a table-scan state to the list `P` of store pairs it
still has to emit: locks are ignored, the unread part of the row buffer is
the decoding of a store-pair block `B`, `P` is `B` followed by the pending
pairs of the cursor/seek position, a set seek key belongs to a non-point
range, and (descending only) a set seek key's window was already drained. -/
def tsInv (env : TSEnv) (rowOf : Key → Val → Row) (s : TSState)
    (P : List (Key × Val)) : Prop :=
  s.ignoreLock = true ∧
  (∃ B, (∀ kv ∈ B, kv ∈ env.db) ∧
    s.rows.drop s.rowCursor = B.map (fun kv => rowOf kv.1 kv.2) ∧
    P = B ++ pendingPairs env s.rangeCursor s.seekKey) ∧
  (∀ sk, s.seekKey = some sk →
    (env.kvRanges.getD s.rangeCursor ⟨[], []⟩).isPoint = false ∧
    (env.desc = true →
      windowPairs env.db (env.kvRanges.getD s.rangeCursor ⟨[], []⟩) true
        (some sk) = []))

/-- Concrete descending table scan for the C1 counterexample: 130 one-byte
keys in a single range, so the reverse scan needs two batches. -/
def c1Db : Store := (List.range 130).map (fun i => ([i + 1], [i + 1]))

def c1Env : TSEnv where
  kvRanges := [⟨[1], [131]⟩]
  desc := true
  db := c1Db
  pointGet := fun k => .ok (storeGet c1Db k)
  lockOf := fun _ _ => none
  decodeRowKey := fun _ => .ok 0
  cutRow := fun v => .ok (some [some v])
  encode := fun _ => .ok []
  columns := []
  colIDs := []

def c1State : TSState where
  rangeCursor := 0
  rowCursor := 0
  rows := []
  seekKey := none
  start := 0
  counts := none
  ignoreLock := true
  lockChecked := false

/-- The rows the C1 counterexample scan actually emits. -/
def c1Rows : List Row :=
  match (tsDrain c1Env 132 c1State).1 with
  | .ok (rows, _) => rows
  | .error _ => []

/-- Concrete ascending table scan for the C1 witness. -/
def c1wDb : Store := [([1], [7]), ([2], [8])]

def c1wEnv : TSEnv where
  kvRanges := [⟨[1], [3]⟩]
  desc := false
  db := c1wDb
  pointGet := fun k => .ok (storeGet c1wDb k)
  lockOf := fun _ _ => none
  decodeRowKey := fun _ => .ok 0
  cutRow := fun v => .ok (some [some v])
  encode := fun _ => .ok []
  columns := []
  colIDs := []

def c1wState : TSState where
  rangeCursor := 0
  rowCursor := 0
  rows := []
  seekKey := none
  start := 0
  counts := none
  ignoreLock := true
  lockChecked := false

end Unistore

namespace Unistore

/-! ### Order lemmas for keys -/

theorem keyLt_irrefl (k : Key) : keyLt k k = false := by
  induction k with
  | nil => rfl
  | cons a as ih => simp [keyLt, ih]

theorem keyLe_refl (k : Key) : keyLe k k = true := by
  simp [keyLe, keyLt_irrefl]

/-- C9: for every non-empty byte key whose last byte is positive,
`PrefixNext (prefixPrev k)` is at most `k` (indeed equal to it), and
`prefixPrev` of any all-zero key is absent (`nil`). -/
theorem prefixNext_prefixPrev_le (k : Key) (hne : k ≠ []) (hbytes : ∀ b ∈ k, b < 256)
    (hlast : 0 < k.getLast hne) :
    (∃ k', prefixPrev k = some k' ∧ keyLe (prefixNext k') k = true) ∧
      (∀ j : Key, (∀ b ∈ j, b = 0) → prefixPrev j = none) := by
  constructor
  · -- decompose `k` as `t.reverse ++ [h]` via its reverse
    rcases hr : k.reverse with _ | ⟨h, t⟩
    · exact absurd (by simpa using congrArg List.reverse hr) hne
    · have hk : k = t.reverse ++ [h] := by
        have := congrArg List.reverse hr
        simpa using this
      have hmem : h ∈ k := by rw [hk]; simp
      have hlt : h < 256 := hbytes h hmem
      have hhl : k.getLast hne = h := by
        subst hk; exact List.getLast_append _
      have hpos : 0 < h := by rw [hhl] at hlast; exact hlast
      -- prefixPrev k = some (t.reverse ++ [h-1])
      have haux : prefixPrevAux (h :: t) = some ((h - 1) :: t) := by
        have hmod : (h + 255) % 256 = h - 1 := by omega
        have hne255 : ¬ (h - 1 = 255) := by omega
        simp [prefixPrevAux, hmod, hne255]
      refine ⟨((h - 1) :: t).reverse, ?_, ?_⟩
      · simp [prefixPrev, hr, haux]
      · -- prefixNext of the predecessor is exactly k
        have haux2 : prefixNextAux ((h - 1) :: t) = some (h :: t) := by
          have hmod : (h - 1 + 1) % 256 = h := by omega
          have hne0 : ¬ (h = 0) := by omega
          simp [prefixNextAux, hmod, hne0]
        have hpn : prefixNext (((h - 1) :: t).reverse) = k := by
          have hrev : (((h - 1) :: t).reverse).reverse = (h - 1) :: t := by simp
          rw [prefixNext, hrev, haux2]
          have := congrArg List.reverse hr
          simpa using this.symm
        rw [hpn]; exact keyLe_refl k
  · intro j hz
    have haux : ∀ l : List Nat, (∀ b ∈ l, b = 0) → prefixPrevAux l = none := by
      intro l
      induction l with
      | nil => intro _; rfl
      | cons b rest ih =>
        intro hall
        have hb : b = 0 := hall b (by simp)
        have hrest : prefixPrevAux rest = none := ih (fun x hx => hall x (by simp [hx]))
        subst hb
        simp [prefixPrevAux, hrest]
    have : prefixPrevAux j.reverse = none :=
      haux j.reverse (fun b hb => hz b (by simpa using hb))
    simp [prefixPrev, this]

/-- Witness for C9 at the concrete key `[1, 2]`. -/
theorem prefixNext_prefixPrev_le_witness :
    (∃ k', prefixPrev [1, 2] = some k' ∧ keyLe (prefixNext k') [1, 2] = true) ∧
      (∀ j : Key, (∀ b ∈ j, b = 0) → prefixPrev j = none) :=
  prefixNext_prefixPrev_le [1, 2] (by decide) (by decide) (by decide)

/-! ### C8: decodeIndexKV -/

/-- C8 (amended): `decodeIndexKV` slices the key into `colsLen` segments;
when the remainder is empty and `pkStatus` is not `NotExists`, the handle is
read as a big-endian signed 64-bit integer from the stored value's LEADING
8 bytes and appended as an encoded datum, unsigned iff `pkStatus` is
unsigned, so the output width is `colsLen + 1`; when `pkStatus` is
`NotExists` the output width is `colsLen`. -/
theorem decodeIndexKV_handle_fallback
    (cut : Key → Nat → Except String (List Val × List Nat))
    (encodeF : Datum → List Nat) (colsLen : Nat) (pkStatus : PkStatus)
    (key : Key) (value : Val) (segs : List Val)
    (hcut : cut key colsLen = .ok (segs, []))
    (hlen : segs.length = colsLen)
    (hval : 8 ≤ value.length) :
    (pkStatus ≠ .notExists →
      decodeIndexKV cut (fun d => .ok (encodeF d)) colsLen pkStatus key value =
        .ok (segs ++ [encodeF (if pkStatus = .isUnsigned
          then .duint (uint64OfInt (signed64 (keyVal (value.take 8))))
          else .dint (signed64 (keyVal (value.take 8))))]) ∧
      (segs ++ [encodeF (if pkStatus = .isUnsigned
          then .duint (uint64OfInt (signed64 (keyVal (value.take 8))))
          else .dint (signed64 (keyVal (value.take 8))))]).length = colsLen + 1) ∧
    (pkStatus = .notExists →
      decodeIndexKV cut (fun d => .ok (encodeF d)) colsLen pkStatus key value = .ok segs ∧
      segs.length = colsLen) := by
  have hdh : decodeHandle value = .ok (signed64 (keyVal (value.take 8))) := by
    have : ¬ value.length < 8 := by omega
    simp [decodeHandle, this]
  constructor
  · intro hpk
    constructor
    · simp [decodeIndexKV, hcut, hdh, hpk]
    · simp [hlen]
  · intro hpk
    subst hpk
    exact ⟨by simp [decodeIndexKV, hcut], hlen⟩

/-- Witness for C8's amended theorem at a concrete 8-byte value. -/
theorem decodeIndexKV_handle_fallback_witness :
    decodeIndexKV (fun _ _ => .ok ([], []))
        (fun d => .ok ((fun x => match x with
          | Datum.dint i => [i.toNat]
          | Datum.duint n => [n]
          | _ => []) d)) 0 .isSigned [] [0, 0, 0, 0, 0, 0, 0, 2] = .ok [[2]] := by
  have h := (decodeIndexKV_handle_fallback (fun _ _ => .ok ([], []))
    (fun x => match x with
      | Datum.dint i => [i.toNat]
      | Datum.duint n => [n]
      | _ => []) 0 .isSigned [] [0, 0, 0, 0, 0, 0, 0, 2] [] rfl rfl (by decide)).1
    (by decide)
  exact h.1.trans (by rfl)

/-- C8 counterexample: at a 9-byte stored value, `decodeIndexKV` reads the
handle from the LEADING 8 bytes (handle 1 here), while the claim's reading of
the trailing 8 bytes would give handle 355. -/
theorem decodeIndexKV_trailing_counterexample :
    decodeIndexKV (fun _ _ => .ok ([], []))
        (fun d => .ok ((fun x => match x with
          | Datum.dint i => [i.toNat]
          | Datum.duint n => [n]
          | _ => []) d)) 0 .isSigned [] [0, 0, 0, 0, 0, 0, 0, 1, 99] = .ok [[1]] ∧
      decodeHandleTrailingSpec [0, 0, 0, 0, 0, 0, 0, 1, 99] = .ok 355 ∧
      (1 : Int) ≠ 355 :=
  ⟨rfl, rfl, by decide⟩

/-! ### C3: getRowData -/

theorem rowGetD_set_self (l : Row) (i : Nat) (a : Option Val) (h : i < l.length) :
    (l.set i a).getD i none = a := by
  simp [List.getD_eq_getElem?_getD, List.getElem?_set_self h]

theorem rowGetD_set_ne (l : Row) (i j : Nat) (a : Option Val) (h : i ≠ j) :
    (l.set i a).getD j none = l.getD j none := by
  simp [List.getD_eq_getElem?_getD, List.getElem?_set_ne h]

theorem fillColumn_ok (encodeF : Datum → List Nat) (colIDs : List (Int × Nat))
    (handle : Int) (v : Row) (col : ColumnInfo) (o : Nat)
    (hoff : lookupColID colIDs col.columnId = some o)
    (hb : o < v.length)
    (hnm : specColMissing (v.getD o none) col = false) :
    ∃ v', fillColumn (fun d => .ok (encodeF d)) colIDs handle v col = .ok v' ∧
      v'.length = v.length ∧
      v'.getD o none = specColVal encodeF handle (v.getD o none) col ∧
      ∀ j, j ≠ o → v'.getD j none = v.getD j none := by
  cases hpk : (col.pkHandle || col.columnId == extraHandleID) with
  | true =>
    refine ⟨v.set o (some (encodeF (if col.flagUnsigned
      then .duint (uint64OfInt handle) else .dint handle))), ?_, ?_, ?_, ?_⟩
    · simp [fillColumn, hoff, hpk]
    · simp [List.length_set]
    · rw [rowGetD_set_self _ _ _ hb]; simp [specColVal, hpk]
    · intro j hj; exact rowGetD_set_ne v o j _ (fun h => hj h.symm)
  | false =>
    have hhas : hasColVal v colIDs col.columnId = (v.getD o none).isSome := by
      simp [hasColVal, hoff]
    cases hv : (v.getD o none).isSome with
    | true =>
      have hv2 : (v[o]?.getD none).isSome = true := by
        simpa [List.getD_eq_getElem?_getD] using hv
      refine ⟨v, ?_, rfl, ?_, fun j _ => rfl⟩
      · simp [fillColumn, hoff, hpk, hhas, hv2]
      · simp [specColVal, hpk, hv2]
    | false =>
      have hv2 : (v[o]?.getD none).isSome = false := by
        simpa [List.getD_eq_getElem?_getD] using hv
      cases hd : decide (col.defaultVal.length > 0) with
      | true =>
        have hd' : col.defaultVal.length > 0 := of_decide_eq_true hd
        refine ⟨v.set o (some col.defaultVal), ?_, ?_, ?_, ?_⟩
        · simp [fillColumn, hoff, hpk, hhas, hv2, hd']
        · simp [List.length_set]
        · rw [rowGetD_set_self _ _ _ hb]
          simp [specColVal, hpk, hv2, hd']
        · intro j hj; exact rowGetD_set_ne v o j _ (fun h => hj h.symm)
      | false =>
        have hd' : ¬ col.defaultVal.length > 0 := of_decide_eq_false hd
        have hnn : col.flagNotNull = false := by
          have h1 : (v[o]?.getD none).isNone = true := by
            rcases hs : (v[o]?.getD none) with _ | s
            · rfl
            · rw [hs] at hv2; simp at hv2
          have h2 : col.defaultVal.length = 0 := by omega
          simp [specColMissing, hpk, h1, h2] at hnm
          exact hnm
        refine ⟨v.set o (some [nilFlag]), ?_, ?_, ?_, ?_⟩
        · simp [fillColumn, hoff, hpk, hhas, hv2, hd', hnn]
        · simp [List.length_set]
        · rw [rowGetD_set_self _ _ _ hb]
          simp [specColVal, hpk, hv2, hd']
        · intro j hj; exact rowGetD_set_ne v o j _ (fun h => hj h.symm)

theorem fillColumn_missing (encodeF : Datum → List Nat) (colIDs : List (Int × Nat))
    (handle : Int) (v : Row) (col : ColumnInfo) (o : Nat)
    (hoff : lookupColID colIDs col.columnId = some o)
    (hm : specColMissing (v.getD o none) col = true) :
    fillColumn (fun d => .ok (encodeF d)) colIDs handle v col =
      .error (.missingColumn col.columnId) := by
  simp only [specColMissing, Bool.and_eq_true, Bool.not_eq_true'] at hm
  obtain ⟨⟨⟨hpk, hnone⟩, hlen⟩, hnn⟩ := hm
  have hv2 : (v[o]?.getD none).isSome = false := by
    rcases hs : (v[o]?.getD none) with _ | s
    · rfl
    · rw [List.getD_eq_getElem?_getD, hs] at hnone; simp at hnone
  have hlen' : col.defaultVal.length = 0 := by simpa using hlen
  have hd' : ¬ col.defaultVal.length > 0 := by omega
  simp [fillColumn, hoff, hpk, hasColVal, hv2, hd', hnn]

theorem fillColumns_spec (encodeF : Datum → List Nat) (colIDs : List (Int × Nat))
    (handle : Int) (off : ColumnInfo → Nat) :
    ∀ (cols : List ColumnInfo) (v : Row),
      (∀ col ∈ cols, lookupColID colIDs col.columnId = some (off col)) →
      (∀ col ∈ cols, off col < v.length) →
      cols.Pairwise (fun c c' => off c ≠ off c') →
      ((∀ col ∈ cols, specColMissing (v.getD (off col) none) col = false) →
        ∃ out, fillColumns (fun d => .ok (encodeF d)) colIDs handle cols v = .ok out ∧
          out.length = v.length ∧
          (∀ col ∈ cols, out.getD (off col) none =
            specColVal encodeF handle (v.getD (off col) none) col) ∧
          (∀ o, (∀ col ∈ cols, off col ≠ o) → out.getD o none = v.getD o none)) ∧
      ((∃ col ∈ cols, specColMissing (v.getD (off col) none) col = true) →
        ∃ col ∈ cols, specColMissing (v.getD (off col) none) col = true ∧
          fillColumns (fun d => .ok (encodeF d)) colIDs handle cols v =
            .error (.missingColumn col.columnId)) := by
  intro cols
  induction cols with
  | nil =>
    intro v _ _ _
    refine ⟨fun _ => ⟨v, rfl, rfl, by simp, fun o _ => rfl⟩, fun h => ?_⟩
    obtain ⟨c, hc, _⟩ := h
    simp at hc
  | cons c cs ih =>
    intro v hoff hb hpw
    have hoffc := hoff c (by simp)
    have hbc := hb c (by simp)
    have hpwhead := (List.pairwise_cons.mp hpw).1
    have hpwtail := (List.pairwise_cons.mp hpw).2
    cases hmc : specColMissing (v.getD (off c) none) c with
    | true =>
      have herr := fillColumn_missing encodeF colIDs handle v c (off c) hoffc hmc
      constructor
      · intro hall
        have := hall c (by simp)
        rw [hmc] at this
        exact absurd this (by simp)
      · intro _
        refine ⟨c, by simp, hmc, ?_⟩
        simp only [fillColumns, herr]
    | false =>
      obtain ⟨v', hfc, hlen, hself, hframe⟩ :=
        fillColumn_ok encodeF colIDs handle v c (off c) hoffc hbc hmc
      have htail : ∀ col ∈ cs, v'.getD (off col) none = v.getD (off col) none :=
        fun col hcol => hframe (off col) (Ne.symm (hpwhead col hcol))
      have ihv := ih v' (fun col hcol => hoff col (by simp [hcol]))
        (fun col hcol => by rw [hlen]; exact hb col (by simp [hcol])) hpwtail
      constructor
      · intro hall
        have hallcs : ∀ col ∈ cs, specColMissing (v'.getD (off col) none) col = false := by
          intro col hcol
          rw [htail col hcol]
          exact hall col (by simp [hcol])
        obtain ⟨out, hout, holen, hoself, hoframe⟩ := ihv.1 hallcs
        refine ⟨out, ?_, by rw [holen, hlen], ?_, ?_⟩
        · simp only [fillColumns, hfc]; exact hout
        · intro col hcol
          rcases List.mem_cons.mp hcol with rfl | hcol'
          · rw [hoframe (off col) (fun c' hc' => Ne.symm (hpwhead c' hc')), hself]
          · rw [hoself col hcol', htail col hcol']
        · intro o ho
          rw [hoframe o (fun col hcol => ho col (by simp [hcol]))]
          exact hframe o (Ne.symm (ho c (by simp)))
      · intro hex
        obtain ⟨col, hcol, hcm⟩ := hex
        rcases List.mem_cons.mp hcol with rfl | hcol'
        · rw [hmc] at hcm
          exact absurd hcm (by simp)
        · have hcm' : specColMissing (v'.getD (off col) none) col = true := by
            rw [htail col hcol']; exact hcm
          obtain ⟨col2, hcol2, hcm2, herr2⟩ := ihv.2 ⟨col, hcol', hcm'⟩
          refine ⟨col2, by simp [hcol2], ?_, ?_⟩
          · rw [← htail col2 hcol2]; exact hcm2
          · simp only [fillColumns, hfc]; exact herr2

/-- C3: `getRowData` fills each output offset by the claim's exact
precedence: a pk-handle (or ExtraHandleID) column always receives the encoded
handle (unsigned iff the unsigned flag is set), even when the stored value
contains bytes for that column; otherwise a non-null stored value is kept;
otherwise a non-empty DefaultVal; otherwise a NOT NULL column fails the call
with MissingColumn(id); otherwise the single NULL-marker byte. -/
theorem getRowData_precedence (cutRow : Val → Except String (Option Row))
    (encodeF : Datum → List Nat) (columns : List ColumnInfo)
    (colIDs : List (Int × Nat)) (handle : Int) (value : Val) (v0 : Row)
    (off : ColumnInfo → Nat)
    (hcut : cutRow value = .ok (some v0))
    (hoff : ∀ col ∈ columns, lookupColID colIDs col.columnId = some (off col))
    (hbound : ∀ col ∈ columns, off col < v0.length)
    (hinj : columns.Pairwise (fun c c' => off c ≠ off c')) :
    ((∀ col ∈ columns, specColMissing (v0.getD (off col) none) col = false) →
      ∃ out, getRowData cutRow (fun d => .ok (encodeF d)) columns colIDs handle value =
          .ok out ∧
        out.length = v0.length ∧
        (∀ col ∈ columns, out.getD (off col) none =
          specColVal encodeF handle (v0.getD (off col) none) col) ∧
        (∀ o, (∀ col ∈ columns, off col ≠ o) → out.getD o none = v0.getD o none)) ∧
    ((∃ col ∈ columns, specColMissing (v0.getD (off col) none) col = true) →
      ∃ col ∈ columns, specColMissing (v0.getD (off col) none) col = true ∧
        getRowData cutRow (fun d => .ok (encodeF d)) columns colIDs handle value =
          .error (.missingColumn col.columnId)) := by
  have hgs : getRowData cutRow (fun d => .ok (encodeF d)) columns colIDs handle value =
      fillColumns (fun d => .ok (encodeF d)) colIDs handle columns v0 := by
    simp [getRowData, hcut]
  rw [hgs]
  exact fillColumns_spec encodeF colIDs handle off columns v0 hoff hbound hinj

/-- Witness for C3 at a concrete four-column row (pk handle, stored value,
default, NULL marker). -/
theorem getRowData_precedence_witness :
    ((∀ col ∈ c3WitCols, specColMissing (c3WitV0.getD (c3WitOff col) none) col = false) →
      ∃ out, getRowData (fun _ => .ok (some c3WitV0)) (fun d => .ok ((fun _ => [0]) d))
          c3WitCols c3WitColIDs 5 [0] = .ok out ∧
        out.length = c3WitV0.length ∧
        (∀ col ∈ c3WitCols, out.getD (c3WitOff col) none =
          specColVal (fun _ => [0]) 5 (c3WitV0.getD (c3WitOff col) none) col) ∧
        (∀ o, (∀ col ∈ c3WitCols, c3WitOff col ≠ o) →
          out.getD o none = c3WitV0.getD o none)) ∧
    ((∃ col ∈ c3WitCols, specColMissing (c3WitV0.getD (c3WitOff col) none) col = true) →
      ∃ col ∈ c3WitCols, specColMissing (c3WitV0.getD (c3WitOff col) none) col = true ∧
        getRowData (fun _ => .ok (some c3WitV0)) (fun d => .ok ((fun _ => [0]) d))
          c3WitCols c3WitColIDs 5 [0] = .error (.missingColumn col.columnId)) :=
  getRowData_precedence (fun _ => .ok (some c3WitV0)) (fun _ => [0]) c3WitCols
    c3WitColIDs 5 [0] c3WitV0 c3WitOff rfl (by decide) (by decide) (by decide)

/-! ### C4: selection -/

theorem evalBoolConds_eq_true_iff (toBool : Datum → Except String Int)
    (conds : List (DRow → Except String Datum)) (drow : DRow) :
    evalBoolConds toBool conds drow = .ok true ↔
      ∀ cond ∈ conds, ∃ d n, cond drow = .ok d ∧ d.isNull = false ∧
        toBool d = .ok n ∧ n ≠ 0 := by
  induction conds with
  | nil => simp [evalBoolConds]
  | cons c rest ih =>
    constructor
    · intro h cond hmem
      rcases hc : c drow with e | d
      · simp [evalBoolConds, hc] at h
      · simp only [evalBoolConds, hc] at h
        by_cases hnull : d.isNull
        · rw [if_pos hnull] at h; exact absurd h (by simp)
        · rw [if_neg hnull] at h
          rcases hb : toBool d with e | n
          · simp [hb] at h
          · simp only [hb] at h
            by_cases hz : n = 0
            · rw [if_pos hz] at h; exact absurd h (by simp)
            · rw [if_neg hz] at h
              rcases List.mem_cons.mp hmem with hmem | hmem
              · exact hmem ▸ ⟨d, n, hc, by simpa using hnull, hb, hz⟩
              · exact (ih.mp h) cond hmem
    · intro h
      obtain ⟨d, n, hc, hnull, hb, hz⟩ := h c (by simp)
      simp only [evalBoolConds, hc]
      rw [if_neg (by simp [hnull])]
      simp only [hb]
      rw [if_neg hz]
      exact ih.mpr (fun cond hmem => h cond (by simp [hmem]))

theorem selAccepts_eq_true_iff {ρ : Type} (env : SelEnv ρ) (r : ρ) (drow : DRow)
    (hdec : env.decodeRelated r = .ok drow) :
    selAccepts env r = true ↔
      evalBoolConds env.toBool env.conditions drow = .ok true := by
  simp only [selAccepts, hdec]
  rcases h : evalBoolConds env.toBool env.conditions drow with e | b
  · simp [h]
  · cases b <;> simp [h]

theorem selDrain_filter {ρ : Type} (env : SelEnv ρ) :
    ∀ (rows : List ρ) (fuel : Nat), rows.length < fuel →
      (∀ r ∈ rows, ∃ drow b, env.decodeRelated r = .ok drow ∧
        evalBoolConds env.toBool env.conditions drow = .ok b) →
      selDrain env fuel rows = .ok (rows.filter (selAccepts env), true) := by
  intro rows
  induction rows with
  | nil =>
    intro fuel hf _
    cases fuel with
    | zero => simp at hf
    | succ f => simp [selDrain, selNext]
  | cons r rest ih =>
    intro fuel hf hall
    obtain ⟨drow, b, hdec, heval⟩ := hall r (by simp)
    have hrest : ∀ x ∈ rest, ∃ drow b, env.decodeRelated x = .ok drow ∧
        evalBoolConds env.toBool env.conditions drow = .ok b :=
      fun x hx => hall x (by simp [hx])
    cases fuel with
    | zero => simp at hf
    | succ fuel =>
      cases b with
      | true =>
        have hacc : selAccepts env r = true := by
          simp [selAccepts, hdec, heval]
        have hlen : rest.length < fuel := by
          have := hf; simp only [List.length_cons] at this; omega
        have hsel : selNext env (r :: rest) = (.ok (some r), rest) := by
          simp [selNext, hdec, heval]
        simp only [selDrain, hsel]
        rw [ih fuel hlen hrest]
        simp [List.filter_cons, hacc]
      | false =>
        have hacc : selAccepts env r = false := by
          simp [selAccepts, hdec, heval]
        have hstep : selNext env (r :: rest) = selNext env rest := by
          simp [selNext, hdec, heval]
        have hlen : rest.length < fuel + 1 := by
          have := hf; simp only [List.length_cons] at this; omega
        have hdrain : selDrain env (fuel + 1) (r :: rest) =
            selDrain env (fuel + 1) rest := by
          simp only [selDrain, hstep]
        rw [hdrain, ih (fuel + 1) hlen hrest]
        simp [List.filter_cons, hacc]

/-- C4: `selectionExec.Next` emits exactly the upstream rows (unchanged, in
order) on which every condition evaluates to a non-NULL value coercing to a
nonzero boolean; a row for which some condition yields NULL, errors, or
coerces to zero is never emitted. -/
theorem selection_filters {ρ : Type} (env : SelEnv ρ) (rows : List ρ)
    (h : ∀ r ∈ rows, ∃ drow b, env.decodeRelated r = .ok drow ∧
      evalBoolConds env.toBool env.conditions drow = .ok b) :
    selDrain env (rows.length + 1) rows = .ok (rows.filter (selAccepts env), true) ∧
      ∀ r drow, env.decodeRelated r = .ok drow →
        (selAccepts env r = true ↔
          ∀ cond ∈ env.conditions, ∃ d n, cond drow = .ok d ∧ d.isNull = false ∧
            env.toBool d = .ok n ∧ n ≠ 0) := by
  refine ⟨selDrain_filter env rows _ (Nat.lt_succ_self _) h, ?_⟩
  intro r drow hdec
  exact (selAccepts_eq_true_iff env r drow hdec).trans
    (evalBoolConds_eq_true_iff env.toBool env.conditions drow)

/-- Witness for C4 on a two-row source where the first condition rejects the
row decoding to datum 0 and accepts the row decoding to datum 5. -/
theorem selection_filters_witness :
    selDrain selWitnessEnv ([0, 5].length + 1) [0, 5] =
        .ok ([0, 5].filter (selAccepts selWitnessEnv), true) ∧
      ∀ r drow, selWitnessEnv.decodeRelated r = .ok drow →
        (selAccepts selWitnessEnv r = true ↔
          ∀ cond ∈ selWitnessEnv.conditions, ∃ d n, cond drow = .ok d ∧
            d.isNull = false ∧ selWitnessEnv.toBool d = .ok n ∧ n ≠ 0) :=
  selection_filters selWitnessEnv [0, 5] (by
    intro r hr
    simp only [List.mem_cons, List.not_mem_nil, or_false] at hr
    rcases hr with rfl | rfl
    · exact ⟨[Datum.dint 0], false, rfl, rfl⟩
    · exact ⟨[Datum.dint 5], true, rfl, rfl⟩)

/-! ### C2: top-N -/

theorem heapRoot_foldl_spec {κ ρ : Type} (le : κ → κ → Bool)
    (htrans : ∀ a b c, le a b = true → le b c = true → le a c = true)
    (htot : ∀ a b, le a b = true ∨ le b a = true) :
    ∀ (rs : List (SortRow κ ρ)) (r : SortRow κ ρ),
      (rs.foldl (fun m x => if le m.key x.key then x else m) r ∈ r :: rs) ∧
      le r.key (rs.foldl (fun m x => if le m.key x.key then x else m) r).key = true ∧
      ∀ h ∈ rs, le h.key (rs.foldl (fun m x => if le m.key x.key then x else m) r).key
        = true := by
  have hrefl : ∀ a, le a a = true := fun a => (htot a a).elim id id
  intro rs
  induction rs with
  | nil => intro r; exact ⟨by simp, hrefl _, by simp⟩
  | cons x rs ih =>
    intro r
    by_cases h : le r.key x.key = true
    · have hfold : (x :: rs).foldl (fun m y => if le m.key y.key then y else m) r =
          rs.foldl (fun m y => if le m.key y.key then y else m) x := by
        simp [List.foldl_cons, h]
      obtain ⟨hmem, hle, hall⟩ := ih x
      rw [hfold]
      refine ⟨List.mem_cons_of_mem _ hmem, htrans _ _ _ h hle, ?_⟩
      · intro h' hh'
        rcases List.mem_cons.mp hh' with rfl | hh''
        · exact hle
        · exact hall h' hh''
    · have h2 : le x.key r.key = true := (htot r.key x.key).resolve_left h
      have hfold : (x :: rs).foldl (fun m y => if le m.key y.key then y else m) r =
          rs.foldl (fun m y => if le m.key y.key then y else m) r := by
        simp [List.foldl_cons, h]
      obtain ⟨hmem, hle, hall⟩ := ih r
      rw [hfold]
      refine ⟨?_, hle, ?_⟩
      · rcases List.mem_cons.mp hmem with heq | hmem'
        · exact List.mem_cons.mpr (Or.inl heq)
        · exact List.mem_cons_of_mem _ (List.mem_cons_of_mem _ hmem')
      · intro h' hh'
        rcases List.mem_cons.mp hh' with rfl | hh''
        · exact htrans _ _ _ h2 hle
        · exact hall h' hh''

theorem heapRoot_spec {κ ρ : Type} (le : κ → κ → Bool)
    (htrans : ∀ a b c, le a b = true → le b c = true → le a c = true)
    (htot : ∀ a b, le a b = true ∨ le b a = true)
    (heap : List (SortRow κ ρ)) (root : SortRow κ ρ)
    (hr : heapRoot le heap = some root) :
    root ∈ heap ∧ ∀ h ∈ heap, le h.key root.key = true := by
  cases heap with
  | nil => simp [heapRoot] at hr
  | cons r rs =>
    obtain ⟨hmem, hle, hall⟩ := heapRoot_foldl_spec le htrans htot rs r
    have hroot : rs.foldl (fun m x => if le m.key x.key then x else m) r = root := by
      simpa [heapRoot] using hr
    rw [hroot] at hmem hle hall
    refine ⟨hmem, ?_⟩
    intro h hh
    rcases List.mem_cons.mp hh with rfl | hh'
    · exact hle
    · exact hall h hh'

theorem tryToAddRow_inv {κ ρ : Type} [DecidableEq κ] [DecidableEq ρ]
    (le : κ → κ → Bool) (limit : Nat) (f : ρ → κ)
    (htrans : ∀ a b c, le a b = true → le b c = true → le a c = true)
    (htot : ∀ a b, le a b = true ∨ le b a = true)
    (processed : List ρ) (heap rest : List (SortRow κ ρ)) (r : ρ)
    (hinv : heapInv le limit f processed heap rest) :
    ∃ rest', heapInv le limit f (processed ++ [r])
      (tryToAddRow le limit heap ⟨f r, r⟩).2 rest' := by
  obtain ⟨hperm, hcross, hlen⟩ := hinv
  have hmapapp : (processed ++ [r]).map (fun t => (⟨f t, t⟩ : SortRow κ ρ)) =
      processed.map (fun t => ⟨f t, t⟩) ++ [⟨f r, r⟩] := by simp
  have hlensum : heap.length + rest.length = processed.length := by
    have := hperm.length_eq; simpa using this
  by_cases hfull : heap.length < limit
  · -- fill phase: nothing has been discarded yet
    have hplen : processed.length < limit := by omega
    have hrest : rest = [] := by
      have : rest.length = 0 := by omega
      exact List.length_eq_zero.mp this
    subst hrest
    rw [List.append_nil] at hperm
    have ht : (tryToAddRow le limit heap (⟨f r, r⟩ : SortRow κ ρ)).2 =
        ⟨f r, r⟩ :: heap := by
      simp [tryToAddRow, hfull]
    refine ⟨[], ?_, ?_, ?_⟩
    · rw [ht, hmapapp]
      have h0 : (((⟨f r, r⟩ : SortRow κ ρ) :: heap) ++ []).Perm (⟨f r, r⟩ :: heap) := by
        simp
      exact h0.trans ((hperm.cons _).trans (List.perm_append_singleton _ _).symm)
    · intro h hh x hx
      simp at hx
    · rw [ht]
      simp only [List.length_cons, List.length_append, List.length_nil]
      omega
  · have hheaplen : heap.length = limit := by omega
    have hlimle : limit ≤ processed.length := by omega
    rcases hr : heapRoot le heap with _ | root
    · -- empty heap, limit 0: always reject
      have hnil : heap = [] := by
        cases heap with
        | nil => rfl
        | cons a as => simp [heapRoot] at hr
      subst hnil
      have hlim0 : limit = 0 := by simpa using hheaplen.symm
      have ht : (tryToAddRow le limit ([] : List (SortRow κ ρ)) ⟨f r, r⟩).2 = [] := by
        simp [tryToAddRow, hlim0, heapRoot]
      refine ⟨⟨f r, r⟩ :: rest, ?_, ?_, ?_⟩
      · rw [ht, hmapapp]
        have hperm' : rest.Perm (processed.map fun t => (⟨f t, t⟩ : SortRow κ ρ)) :=
          hperm
        exact (hperm'.cons _).trans (List.perm_append_singleton _ _).symm
      · intro h hh; rw [ht] at hh; simp at hh
      · rw [ht]; simp [hlim0]
    · obtain ⟨hrmem, hrmax⟩ := heapRoot_spec le htrans htot heap root hr
      by_cases hbetter : le root.key (f r) = true
      · -- reject: the new row is not strictly better than the root
        have ht : (tryToAddRow le limit heap (⟨f r, r⟩ : SortRow κ ρ)).2 = heap := by
          simp [tryToAddRow, hfull, hr, hbetter]
        refine ⟨⟨f r, r⟩ :: rest, ?_, ?_, ?_⟩
        · rw [ht, hmapapp]
          exact List.perm_middle.trans
            ((hperm.cons _).trans (List.perm_append_singleton _ _).symm)
        · rw [ht]
          intro h hh x hx
          rcases List.mem_cons.mp hx with rfl | hx'
          · exact htrans _ _ _ (hrmax h hh) hbetter
          · exact hcross h hh x hx'
        · rw [ht]
          simp only [List.length_append, List.length_cons, List.length_nil]
          omega
      · -- accept: replace the root
        have hnew : le (f r) root.key = true := (htot root.key (f r)).resolve_left hbetter
        have ht : (tryToAddRow le limit heap (⟨f r, r⟩ : SortRow κ ρ)).2 =
            ⟨f r, r⟩ :: heap.erase root := by
          simp [tryToAddRow, hfull, hr, hbetter]
        refine ⟨root :: rest, ?_, ?_, ?_⟩
        · rw [ht, hmapapp]
          have h1 : ((⟨f r, r⟩ : SortRow κ ρ) :: heap.erase root) ++ (root :: rest) =
              ⟨f r, r⟩ :: (heap.erase root ++ root :: rest) := by simp
          rw [h1]
          have h2 : (heap.erase root ++ root :: rest).Perm (heap ++ rest) := by
            refine List.perm_middle.trans ?_
            have h3 : ((root :: heap.erase root) ++ rest).Perm (heap ++ rest) :=
              (List.perm_cons_erase hrmem).symm.append_right rest
            simpa using h3
          exact ((h2.cons _).trans (hperm.cons _)).trans
            (List.perm_append_singleton _ _).symm
        · rw [ht]
          intro h hh x hx
          rcases List.mem_cons.mp hh with rfl | hh'
          · rcases List.mem_cons.mp hx with rfl | hx'
            · exact hnew
            · exact htrans _ _ _ hnew (hcross root hrmem x hx')
          · have hhheap : h ∈ heap := List.mem_of_mem_erase hh'
            rcases List.mem_cons.mp hx with rfl | hx'
            · exact hrmax h hhheap
            · exact hcross h hhheap x hx'
        · rw [ht]
          have he : (heap.erase root).length = heap.length - 1 :=
            List.length_erase_of_mem hrmem
          have hpos : 0 < heap.length := List.length_pos_of_mem hrmem
          simp only [List.length_cons, he, List.length_append, List.length_nil]
          omega

theorem feedAll_inv {κ ρ : Type} [DecidableEq κ] [DecidableEq ρ]
    (le : κ → κ → Bool) (limit : Nat) (f : ρ → κ)
    (htrans : ∀ a b c, le a b = true → le b c = true → le a c = true)
    (htot : ∀ a b, le a b = true ∨ le b a = true) :
    ∀ (src processed : List ρ) (heap rest : List (SortRow κ ρ)),
      heapInv le limit f processed heap rest →
      ∃ rest', heapInv le limit f (processed ++ src)
        (feedAll le limit f src heap) rest' := by
  intro src
  induction src with
  | nil =>
    intro processed heap rest h
    exact ⟨rest, by simpa using h⟩
  | cons r src ih =>
    intro processed heap rest h
    obtain ⟨rest1, h1⟩ := tryToAddRow_inv le limit f htrans htot processed heap rest r h
    obtain ⟨rest2, h2⟩ := ih (processed ++ [r]) _ rest1 h1
    refine ⟨rest2, ?_⟩
    have hassoc : (processed ++ [r]) ++ src = processed ++ (r :: src) := by simp
    rw [hassoc] at h2
    simpa [feedAll] using h2

theorem topNDrainSrc_ok {κ ρ : Type} [DecidableEq κ] [DecidableEq ρ]
    (evalKeys : ρ → Except String κ) (le : κ → κ → Bool) (limit : Nat) (f : ρ → κ) :
    ∀ (src : List ρ) (heap : List (SortRow κ ρ)),
      (∀ r ∈ src, evalKeys r = .ok (f r)) →
      topNDrainSrc evalKeys le limit src heap =
        (.ok (), [], feedAll le limit f src heap) := by
  intro src
  induction src with
  | nil => intro heap _; rfl
  | cons r src ih =>
    intro heap hf
    have h1 : evalKeys r = .ok (f r) := hf r (by simp)
    simp only [topNDrainSrc, evalTopN, h1, feedAll]
    exact ih _ (fun x hx => hf x (by simp [hx]))

theorem take_of_sorted_partition {κ : Type} (le : κ → κ → Bool)
    (htrans : ∀ a b c, le a b = true → le b c = true → le a c = true)
    (htot : ∀ a b, le a b = true ∨ le b a = true)
    (hanti : ∀ a b, le a b = true → le b a = true → a = b)
    (K : Nat) (l rest N : List κ)
    (hsor : l.Pairwise (fun a b => le a b = true))
    (hperm : (l ++ rest).Perm N)
    (hcross : ∀ x ∈ l, ∀ y ∈ rest, le x y = true)
    (hlen : l.length = min K N.length) :
    l = (N.mergeSort le).take K := by
  haveI : IsAntisymm κ (fun a b => le a b = true) := ⟨hanti⟩
  have htot' : ∀ a b, (le a b || le b a) = true := by
    intro a b; rcases htot a b with h | h <;> simp [h]
  have hMperm : (N.mergeSort le).Perm N := List.mergeSort_perm N le
  have hMsor : (N.mergeSort le).Pairwise (fun a b => le a b = true) :=
    List.sorted_mergeSort htrans htot' N
  have hsor2 : (l ++ rest.mergeSort le).Pairwise (fun a b => le a b = true) := by
    rw [List.pairwise_append]
    refine ⟨hsor, List.sorted_mergeSort htrans htot' rest, ?_⟩
    intro a ha b hb
    exact hcross a ha b ((List.mergeSort_perm rest le).subset hb)
  have hperm2 : (l ++ rest.mergeSort le).Perm (N.mergeSort le) := by
    have h0 : (l ++ rest.mergeSort le).Perm (l ++ rest) :=
      List.Perm.append_left l (List.mergeSort_perm rest le)
    exact (h0.trans hperm).trans hMperm.symm
  have heq : l ++ rest.mergeSort le = N.mergeSort le :=
    List.eq_of_perm_of_sorted hperm2 hsor2 hMsor
  have hMlen : (N.mergeSort le).length = N.length := hMperm.length_eq
  have h1 : (N.mergeSort le).take l.length = l := by
    rw [← heq]; exact List.take_left l _
  have h2 : (N.mergeSort le).take K = (N.mergeSort le).take (min K N.length) := by
    rcases Nat.le_total K N.length with h | h
    · rw [Nat.min_eq_left h]
    · rw [Nat.min_eq_right h]
      rw [List.take_of_length_le (by omega), List.take_of_length_le (by omega)]
  rw [h2, ← hlen, h1]

theorem topNNext_executed_state {κ ρ : Type} [DecidableEq κ] [DecidableEq ρ]
    (evalKeys : ρ → Except String κ) (le : κ → κ → Bool) (limit : Nat)
    (s : TopNState κ ρ) (hex : s.executed = true) :
    (topNNext evalKeys le limit s).2.srcRows = s.srcRows ∧
    (topNNext evalKeys le limit s).2.executed = true := by
  simp only [topNNext, hex]
  rw [if_pos trivial]
  split
  · exact ⟨rfl, rfl⟩
  · exact ⟨rfl, hex⟩

theorem topNRun_executed {κ ρ : Type} [DecidableEq κ] [DecidableEq ρ]
    (evalKeys : ρ → Except String κ) (le : κ → κ → Bool) (limit : Nat) :
    ∀ (fuel : Nat) (s : TopNState κ ρ), s.executed = true →
      s.heapRows.length - s.cursor < fuel →
      topNRun evalKeys le limit fuel s =
        .ok ((s.heapRows.drop s.cursor).map SortRow.data, true) := by
  intro fuel
  induction fuel with
  | zero => intro s _ h; omega
  | succ fuel ih =>
    intro s hex hfl
    by_cases hc : s.cursor < s.heapRows.length
    · have hnx : topNNext evalKeys le limit s =
          (.ok (some (s.heapRows.get ⟨s.cursor, hc⟩).data),
            { s with cursor := s.cursor + 1 }) := by
        simp [topNNext, hex, hc]
      have hrec := ih { s with cursor := s.cursor + 1 }
        (by exact hex) (by show s.heapRows.length - (s.cursor + 1) < fuel; omega)
      simp only [topNRun, hnx]
      rw [hrec, List.drop_eq_getElem_cons hc]
      simp [List.get_eq_getElem]
      rw [List.drop_eq_getElem_cons
        (show s.cursor < (s.heapRows.map SortRow.data).length by simpa using hc)]
      simp
    · have hnx : topNNext evalKeys le limit s = (.ok none, s) := by
        simp [topNNext, hex, hc]
      simp only [topNRun, hnx]
      rw [List.drop_eq_nil_of_le (by omega)]
      simp

theorem topNNext_first {κ ρ : Type} [DecidableEq κ] [DecidableEq ρ]
    (evalKeys : ρ → Except String κ) (le : κ → κ → Bool) (limit : Nat)
    (f : ρ → κ) (src : List ρ) (c : Nat)
    (hf : ∀ r ∈ src, evalKeys r = .ok (f r)) :
    topNNext evalKeys le limit (⟨src, [], false, c⟩ : TopNState κ ρ) =
      topNNext evalKeys le limit
        ⟨[], (feedAll le limit f src []).mergeSort (fun a b => le a.key b.key),
          true, c⟩ := by
  have hdrain := topNDrainSrc_ok evalKeys le limit f src [] hf
  simp only [topNNext, hdrain]
  simp

/-- C2: `topNExec` fully drains the source on the first call to `Next` before
emitting anything, and the stream it then emits agrees with the reference
definition (collect, sort by the ordering key, take the first K): the emitted
key sequence equals `take K` of the sorted key sequence of the whole source,
and the emitted rows form a sub-multiset of the source rows.  Ties among
equal keys are not contractual, so the statement compares keys (with an
antisymmetric key order). -/
theorem topN_equiv {κ ρ : Type} [DecidableEq κ] [DecidableEq ρ]
    (evalKeys : ρ → Except String κ) (le : κ → κ → Bool) (limit : Nat)
    (f : ρ → κ) (src : List ρ)
    (hf : ∀ r ∈ src, evalKeys r = .ok (f r))
    (htrans : ∀ a b c, le a b = true → le b c = true → le a c = true)
    (htot : ∀ a b, le a b = true ∨ le b a = true)
    (hanti : ∀ a b, le a b = true → le b a = true → a = b) :
    (topNNext evalKeys le limit (⟨src, [], false, 0⟩ : TopNState κ ρ)).2.srcRows = [] ∧
    (topNNext evalKeys le limit (⟨src, [], false, 0⟩ : TopNState κ ρ)).2.executed
      = true ∧
    ∃ out : List ρ,
      topNRun evalKeys le limit (min limit src.length + 1) ⟨src, [], false, 0⟩ =
        .ok (out, true) ∧
      out.map f = ((src.map f).mergeSort le).take limit ∧
      out.Subperm src := by
  have hinv0 : heapInv le limit f [] ([] : List (SortRow κ ρ)) [] :=
    ⟨by simp, by simp, by simp⟩
  obtain ⟨restF, hinvF⟩ := feedAll_inv le limit f htrans htot src [] [] [] hinv0
  obtain ⟨hperm, hcross, hlen⟩ := hinvF
  simp only [List.nil_append] at hperm hlen
  have htot' : ∀ a b : SortRow κ ρ, (le a.key b.key || le b.key a.key) = true := by
    intro a b; rcases htot a.key b.key with h | h <;> simp [h]
  have htrans' : ∀ a b c : SortRow κ ρ, le a.key b.key = true →
      le b.key c.key = true → le a.key c.key = true :=
    fun a b c hab hbc => htrans _ _ _ hab hbc
  have hsp : ((feedAll le limit f src []).mergeSort
      (fun a b => le a.key b.key)).Perm (feedAll le limit f src []) :=
    List.mergeSort_perm _ _
  have hss : ((feedAll le limit f src []).mergeSort
      (fun a b => le a.key b.key)).Pairwise (fun a b => le a.key b.key = true) :=
    List.sorted_mergeSort htrans' htot' _
  have hkey : ∀ sr ∈ feedAll le limit f src [], sr.key = f sr.data := by
    intro sr hsr
    have hmem : sr ∈ src.map (fun r => (⟨f r, r⟩ : SortRow κ ρ)) :=
      hperm.subset (List.mem_append_left _ hsr)
    obtain ⟨r, _, rfl⟩ := List.mem_map.mp hmem
    rfl
  have hdat : ∀ sr ∈ (feedAll le limit f src []).mergeSort
      (fun a b => le a.key b.key), sr.key = f sr.data :=
    fun sr hsr => hkey sr (hsp.subset hsr)
  have hmapeq : (((feedAll le limit f src []).mergeSort
        (fun a b => le a.key b.key)).map SortRow.data).map f =
      ((feedAll le limit f src []).mergeSort
        (fun a b => le a.key b.key)).map (fun sr => sr.key) := by
    rw [List.map_map]
    exact List.map_congr_left (fun sr hsr => (hdat sr hsr).symm)
  have hkeys : ((feedAll le limit f src []).mergeSort
        (fun a b => le a.key b.key)).map (fun sr => sr.key) =
      ((src.map f).mergeSort le).take limit := by
    apply take_of_sorted_partition le htrans htot hanti limit _
      (restF.map (fun sr => sr.key)) _
    · exact (List.pairwise_map).mpr hss
    · rw [← List.map_append]
      have h1 : (((feedAll le limit f src []).mergeSort
          (fun a b => le a.key b.key)) ++ restF).Perm
          (feedAll le limit f src [] ++ restF) := hsp.append_right _
      have h3 := (h1.trans hperm).map (fun sr : SortRow κ ρ => sr.key)
      rw [List.map_map] at h3
      exact h3
    · intro x hx y hy
      obtain ⟨a, ha, rfl⟩ := List.mem_map.mp hx
      obtain ⟨b, hb, rfl⟩ := List.mem_map.mp hy
      exact hcross a (hsp.subset ha) b hb
    · rw [List.length_map, hsp.length_eq, hlen, List.length_map]
  have hfirst := topNNext_first evalKeys le limit f src 0 hf
  have hrun : topNRun evalKeys le limit (min limit src.length + 1)
        (⟨src, [], false, 0⟩ : TopNState κ ρ) =
      topNRun evalKeys le limit (min limit src.length + 1)
        ⟨[], (feedAll le limit f src []).mergeSort (fun a b => le a.key b.key),
          true, 0⟩ := by
    simp only [topNRun, hfirst]
  have hexec := topNRun_executed evalKeys le limit (min limit src.length + 1)
    (⟨[], (feedAll le limit f src []).mergeSort (fun a b => le a.key b.key),
      true, 0⟩ : TopNState κ ρ) rfl
    (by
      show ((feedAll le limit f src []).mergeSort
        (fun a b => le a.key b.key)).length - 0 < min limit src.length + 1
      rw [hsp.length_eq, hlen]
      omega)
  have hstate := topNNext_executed_state evalKeys le limit
    (⟨[], (feedAll le limit f src []).mergeSort (fun a b => le a.key b.key),
      true, 0⟩ : TopNState κ ρ) rfl
  refine ⟨?_, ?_, ((feedAll le limit f src []).mergeSort
    (fun a b => le a.key b.key)).map SortRow.data, ?_, hmapeq.trans hkeys, ?_⟩
  · rw [hfirst]; exact hstate.1
  · rw [hfirst]; exact hstate.2
  · rw [hrun, hexec]; simp
  · have h4 : (src.map (fun r => (⟨f r, r⟩ : SortRow κ ρ))).map SortRow.data = src := by
      rw [List.map_map]
      exact (List.map_congr_left (fun a _ => rfl)).trans (List.map_id src)
    have hsub : ((feedAll le limit f src [] ++ restF).map SortRow.data).Subperm src := by
      have h5 := hperm.map SortRow.data
      rw [List.map_map] at h5
      rw [List.map_map] at h4
      rw [h4] at h5
      exact h5.subperm
    refine ((hsp.map SortRow.data).subperm).trans (List.Subperm.trans ?_ hsub)
    exact ((List.sublist_append_left _ restF).map SortRow.data).subperm

/-- Witness for C2: top-2 over the three-row source `[3, 1, 2]` with identity
keys. -/
theorem topN_equiv_witness :
    (topNNext (fun n => .ok n) (fun a b => Nat.ble a b) 2
      (⟨[3, 1, 2], [], false, 0⟩ : TopNState Nat Nat)).2.srcRows = [] ∧
    (topNNext (fun n => .ok n) (fun a b => Nat.ble a b) 2
      (⟨[3, 1, 2], [], false, 0⟩ : TopNState Nat Nat)).2.executed = true ∧
    ∃ out : List Nat,
      topNRun (fun n => .ok n) (fun a b => Nat.ble a b) 2
          (min 2 [3, 1, 2].length + 1) ⟨[3, 1, 2], [], false, 0⟩ =
        .ok (out, true) ∧
      out.map id = (([3, 1, 2].map id).mergeSort (fun a b => Nat.ble a b)).take 2 ∧
      out.Subperm [3, 1, 2] :=
  topN_equiv (fun n => .ok n) (fun a b => Nat.ble a b) 2 id [3, 1, 2]
    (fun r _ => rfl)
    (fun a b c hab hbc => by
      simp only [Nat.ble_eq] at hab hbc ⊢; omega)
    (fun a b => by
      rcases Nat.le_total a b with h | h
      · exact Or.inl (by simpa [Nat.ble_eq] using h)
      · exact Or.inr (by simpa [Nat.ble_eq] using h))
    (fun a b hab hba => by
      simp only [Nat.ble_eq] at hab hba; omega)

/-! ### C6: counts -/

/-- C6 (code bug): the scan emits one row while the counts vector — which no
code in the executor ever increments — still sums to zero after the drain
(fillRows never touches `counts`). -/
theorem counts_never_incremented :
    (tsDrain c6Env 2 c6State).1 = .ok ([[some [5]]], true) ∧
      (tsCounts (tsDrain c6Env 2 c6State).2.1).sum = 0 :=
  ⟨rfl, rfl⟩

/-! ### C5: lock checking -/

/-- C5 counterexample: with a conflicting lock on the single range, the first
Next returns Locked before any row, but a second Next call invokes
CheckRangeLock on that same range again — two invocations over the scan's
lifetime, refuting "at most once per range over the whole scan lifetime". -/
theorem lock_check_repeats_counterexample :
    ((tsNext c5Env c5State).2.2 ++
        (tsNext c5Env (tsNext c5Env c5State).2.1).2.2).count
      (StoreOp.checkLockOp [1] [2]) = 2 ∧
      (tsNext c5Env c5State).1 = .error (.locked 99) ∧
      (tsNext c5Env (tsNext c5Env c5State).2.1).1 = .error (.locked 99) :=
  ⟨rfl, rfl, rfl⟩

theorem checkRangesLock_trace (lockOf : Key → Key → Option Nat) :
    ∀ rs : List KeyRange, ∃ k, k ≤ rs.length ∧
      (checkRangesLock lockOf rs).2 =
        (rs.take k).map (fun r => StoreOp.checkLockOp r.startKey r.endKey) := by
  intro rs
  induction rs with
  | nil => exact ⟨0, by simp, rfl⟩
  | cons r rs ih =>
    cases hl : lockOf r.startKey r.endKey with
    | some l =>
      refine ⟨1, Nat.succ_le_succ (Nat.zero_le _), ?_⟩
      simp [checkRangesLock, hl]
    | none =>
      obtain ⟨k, hk, htr⟩ := ih
      refine ⟨k + 1, Nat.succ_le_succ hk, ?_⟩
      simp [checkRangesLock, hl, htr]

theorem tsFillRowsFromPoint_trace (env : TSEnv) (s : TSState) (ran : KeyRange) :
    (tsFillRowsFromPoint env s ran).2.2 = [StoreOp.getOp ran.startKey] ∧
    (tsFillRowsFromPoint env s ran).2.1.rangeCursor = s.rangeCursor ∧
    (tsFillRowsFromPoint env s ran).2.1.lockChecked = s.lockChecked := by
  simp only [tsFillRowsFromPoint]
  rcases env.pointGet ran.startKey with e | v
  · exact ⟨rfl, rfl, rfl⟩
  · by_cases hv : v.length = 0
    · simp [hv]
    · simp only [if_neg hv]
      rcases tsDecodeRow env ran.startKey v with e | row
      · exact ⟨rfl, rfl, rfl⟩
      · exact ⟨rfl, rfl, rfl⟩

theorem tsFillRowsFromRange_trace (env : TSEnv) (s : TSState) (ran : KeyRange) :
    (∃ op, (tsFillRowsFromRange env s ran).2.2 = [op] ∧
      op.isLockOp = false ∧ ∀ k, op ≠ StoreOp.getOp k) ∧
    (tsFillRowsFromRange env s ran).2.1.rangeCursor = s.rangeCursor ∧
    (tsFillRowsFromRange env s ran).2.1.lockChecked = s.lockChecked := by
  simp only [tsFillRowsFromRange]
  rcases tsFeedPairs env _ s.rows none with ⟨rows', lastKey, err⟩
  constructor
  · refine ⟨if env.desc then
        StoreOp.revScanOp ran.startKey (match s.seekKey with
          | some k => k
          | none => if env.desc then ran.endKey else ran.startKey) scanLimit
      else StoreOp.scanOp (match s.seekKey with
          | some k => k
          | none => if env.desc then ran.endKey else ran.startKey) ran.endKey
        scanLimit, ?_, ?_, ?_⟩
    · rcases err with _ | e
      · rcases lastKey with _ | lk
        · rfl
        · by_cases hd : env.desc <;> simp [hd]
      · rfl
    · by_cases hd : env.desc <;> simp [hd, StoreOp.isLockOp]
    · intro k
      by_cases hd : env.desc <;> simp [hd]
  · constructor
    · rcases err with _ | e
      · rcases lastKey with _ | lk
        · rfl
        · by_cases hd : env.desc <;> simp [hd]
      · rfl
    · rcases err with _ | e
      · rcases lastKey with _ | lk
        · rfl
        · by_cases hd : env.desc <;> simp [hd]
      · rfl

theorem matchTripleTS_proj (t : Option ScanErr × TSState × List StoreOp)
    (tr : List StoreOp) :
    (match t with | (err', s3, tr') => (err', s3, tr ++ tr')) =
      (t.1, t.2.1, tr ++ t.2.2) := by
  rcases t with ⟨a, b, c⟩; rfl

theorem tsFillRows_trace_facts (env : TSEnv) : ∀ (fuel : Nat) (s : TSState),
    lockOps (tsFillRows env fuel s).2.2 = [] ∧
    (tsFillRows env fuel s).2.1.lockChecked = s.lockChecked ∧
    ∀ k, StoreOp.getOp k ∈ (tsFillRows env fuel s).2.2 →
      ∃ j, s.rangeCursor ≤ j ∧ j < env.kvRanges.length ∧
        (env.kvRanges.getD j ⟨[], []⟩).startKey = k := by
  intro fuel
  induction fuel with
  | zero =>
    intro s
    exact ⟨rfl, rfl, by intro k h; simp [tsFillRows] at h⟩
  | succ fuel ih =>
    intro s
    by_cases hc : s.rangeCursor < env.kvRanges.length
    case neg =>
      refine ⟨?_, ?_, ?_⟩ <;> simp [tsFillRows, hc, lockOps]
    case pos =>
      by_cases hpt : (env.kvRanges.getD s.rangeCursor ⟨[], []⟩).isPoint = true
      · -- point path
        obtain ⟨htr, hcur, hlk⟩ :=
          tsFillRowsFromPoint_trace env s (env.kvRanges.getD s.rangeCursor ⟨[], []⟩)
        rcases hp : tsFillRowsFromPoint env s
            (env.kvRanges.getD s.rangeCursor ⟨[], []⟩) with ⟨err, s1, tr⟩
        rw [hp] at htr hcur hlk
        simp only at htr hcur hlk
        have hsingle : ∀ k, StoreOp.getOp k ∈ tr →
            ∃ j, s.rangeCursor ≤ j ∧ j < env.kvRanges.length ∧
              (env.kvRanges.getD j ⟨[], []⟩).startKey = k := by
          intro k hk
          rw [htr] at hk
          simp only [List.mem_singleton] at hk
          cases hk
          exact ⟨s.rangeCursor, le_refl _, hc, rfl⟩
        have htrl : lockOps tr = [] := by
          rw [htr]; simp [lockOps, StoreOp.isLockOp]
        rcases err with _ | e
        · by_cases hrows : ({ s1 with rangeCursor := s1.rangeCursor + 1, seekKey := none } : TSState).rows.length > 0
          · have hgoal : tsFillRows env (fuel + 1) s =
                (none, { s1 with rangeCursor := s1.rangeCursor + 1, seekKey := none }, tr) := by
              simp only [tsFillRows, if_pos hc, if_pos hpt, hp, if_pos hrows]
            rw [hgoal]
            exact ⟨htrl, by simpa using hlk, hsingle⟩
          · have hgoal : tsFillRows env (fuel + 1) s =
                ((tsFillRows env fuel { s1 with rangeCursor := s1.rangeCursor + 1, seekKey := none }).1,
                  (tsFillRows env fuel { s1 with rangeCursor := s1.rangeCursor + 1, seekKey := none }).2.1,
                  tr ++ (tsFillRows env fuel { s1 with rangeCursor := s1.rangeCursor + 1, seekKey := none }).2.2) := by
              simp only [tsFillRows, if_pos hc, if_pos hpt, hp, if_neg hrows,
                matchTripleTS_proj]
            obtain ⟨ihl, ihk, ihg⟩ := ih { s1 with rangeCursor := s1.rangeCursor + 1, seekKey := none }
            rw [hgoal]
            refine ⟨?_, ?_, ?_⟩
            · simp only [lockOps, List.filter_append] at htrl ihl ⊢
              simp [htrl, ihl]
            · simpa [ihk] using hlk
            · intro k hk
              rcases List.mem_append.mp hk with h1 | h2
              · exact hsingle k h1
              · obtain ⟨j, hj1, hj2, hj3⟩ := ihg k h2
                refine ⟨j, ?_, hj2, hj3⟩
                simp only [hcur] at hj1
                omega
        · have hgoal : tsFillRows env (fuel + 1) s =
              (some e, { s1 with rangeCursor := s1.rangeCursor + 1, seekKey := none }, tr) := by
            simp only [tsFillRows, if_pos hc, if_pos hpt, hp]
          rw [hgoal]
          exact ⟨htrl, by simpa using hlk, hsingle⟩
      · -- scan path
        obtain ⟨⟨op, hop, hopl, hopg⟩, hcur, hlk⟩ :=
          tsFillRowsFromRange_trace env s (env.kvRanges.getD s.rangeCursor ⟨[], []⟩)
        rcases hp : tsFillRowsFromRange env s
            (env.kvRanges.getD s.rangeCursor ⟨[], []⟩) with ⟨err, s1, tr⟩
        rw [hp] at hop hcur hlk
        simp only at hop hcur hlk
        have htrl : lockOps tr = [] := by
          rw [hop]; simp [lockOps, hopl]
        have hnoget : ∀ k, StoreOp.getOp k ∈ tr → False := by
          intro k hk
          rw [hop] at hk
          simp only [List.mem_singleton] at hk
          exact hopg k hk.symm
        by_cases hz : s1.rows.length = 0
        · rcases err with _ | e
          · have hgoal : tsFillRows env (fuel + 1) s =
                ((tsFillRows env fuel { s1 with rangeCursor := s1.rangeCursor + 1, seekKey := none }).1,
                  (tsFillRows env fuel { s1 with rangeCursor := s1.rangeCursor + 1, seekKey := none }).2.1,
                  tr ++ (tsFillRows env fuel { s1 with rangeCursor := s1.rangeCursor + 1, seekKey := none }).2.2) := by
              simp only [tsFillRows, if_pos hc, if_neg hpt, hp, if_pos hz,
                if_neg (by simp [hz] : ¬ ({ s1 with rangeCursor := s1.rangeCursor + 1, seekKey := none } : TSState).rows.length > 0), matchTripleTS_proj]
            obtain ⟨ihl, ihk, ihg⟩ := ih { s1 with rangeCursor := s1.rangeCursor + 1, seekKey := none }
            rw [hgoal]
            refine ⟨?_, ?_, ?_⟩
            · simp only [lockOps, List.filter_append] at htrl ihl ⊢
              simp [htrl, ihl]
            · simpa [ihk] using hlk
            · intro k hk
              rcases List.mem_append.mp hk with h1 | h2
              · exact absurd h1 (fun hh => hnoget k hh)
              · obtain ⟨j, hj1, hj2, hj3⟩ := ihg k h2
                refine ⟨j, ?_, hj2, hj3⟩
                simp only [hcur] at hj1
                omega
          · have hgoal : tsFillRows env (fuel + 1) s =
                (some e, { s1 with rangeCursor := s1.rangeCursor + 1, seekKey := none }, tr) := by
              simp only [tsFillRows, if_pos hc, if_neg hpt, hp, if_pos hz]
            rw [hgoal]
            exact ⟨htrl, by simpa using hlk,
              fun k hk => absurd hk (fun hh => hnoget k hh)⟩
        · rcases err with _ | e
          · have hgoal : tsFillRows env (fuel + 1) s = (none, s1, tr) := by
              simp only [tsFillRows, if_pos hc, if_neg hpt, hp, if_neg hz,
                if_pos (by omega : s1.rows.length > 0)]
            rw [hgoal]
            exact ⟨htrl, hlk, fun k hk => absurd hk (fun hh => hnoget k hh)⟩
          · have hgoal : tsFillRows env (fuel + 1) s = (some e, s1, tr) := by
              simp only [tsFillRows, if_pos hc, if_neg hpt, hp, if_neg hz]
            rw [hgoal]
            exact ⟨htrl, hlk, fun k hk => absurd hk (fun hh => hnoget k hh)⟩

theorem isFillRowsFromPoint_trace (env : ISEnv) (s : ISState) (ran : KeyRange) :
    (isFillRowsFromPoint env s ran).2.2 = [StoreOp.getOp ran.startKey] ∧
    (isFillRowsFromPoint env s ran).2.1.ranCursor = s.ranCursor ∧
    (isFillRowsFromPoint env s ran).2.1.lockChecked = s.lockChecked := by
  simp only [isFillRowsFromPoint]
  rcases env.pointGet ran.startKey with e | v
  · exact ⟨rfl, rfl, rfl⟩
  · by_cases hv : v.length = 0
    · simp [hv]
    · simp only [if_neg hv]
      rcases isDecodeRow env ran.startKey v with e | row
      · exact ⟨rfl, rfl, rfl⟩
      · exact ⟨rfl, rfl, rfl⟩

theorem isFillRowsFromRange_trace (env : ISEnv) (s : ISState) (ran : KeyRange) :
    (∃ op, (isFillRowsFromRange env s ran).2.2 = [op] ∧
      op.isLockOp = false ∧ ∀ k, op ≠ StoreOp.getOp k) ∧
    (isFillRowsFromRange env s ran).2.1.ranCursor = s.ranCursor ∧
    (isFillRowsFromRange env s ran).2.1.lockChecked = s.lockChecked := by
  simp only [isFillRowsFromRange]
  rcases isFeedPairs env _ s.rows none with ⟨rows', lastKey, err⟩
  constructor
  · refine ⟨if env.desc then
        StoreOp.revScanOp ran.startKey (match s.seekKey with
          | some k => k
          | none => if env.desc then ran.endKey else ran.startKey) scanLimit
      else StoreOp.scanOp (match s.seekKey with
          | some k => k
          | none => if env.desc then ran.endKey else ran.startKey) ran.endKey
        scanLimit, ?_, ?_, ?_⟩
    · rcases err with _ | e
      · rcases lastKey with _ | lk
        · rfl
        · by_cases hd : env.desc <;> simp [hd]
      · rfl
    · by_cases hd : env.desc <;> simp [hd, StoreOp.isLockOp]
    · intro k
      by_cases hd : env.desc <;> simp [hd]
  · constructor
    · rcases err with _ | e
      · rcases lastKey with _ | lk
        · rfl
        · by_cases hd : env.desc <;> simp [hd]
      · rfl
    · rcases err with _ | e
      · rcases lastKey with _ | lk
        · rfl
        · by_cases hd : env.desc <;> simp [hd]
      · rfl

theorem lockOps_append (a b : List StoreOp) :
    lockOps (a ++ b) = lockOps a ++ lockOps b := by
  simp [lockOps, List.filter_append]

theorem lockOps_lockmap (rs : List KeyRange) :
    lockOps (rs.map (fun r => StoreOp.checkLockOp r.startKey r.endKey)) =
      rs.map (fun r => StoreOp.checkLockOp r.startKey r.endKey) := by
  rw [lockOps, List.filter_eq_self]
  intro op hop
  obtain ⟨r, _, rfl⟩ := List.mem_map.mp hop
  rfl

theorem tsNext_check_conflict (env : TSEnv) (s : TSState) (e : ScanErr)
    (s1 : TSState) (ltr : List StoreOp)
    (hck : tsCheckRangeLock env s = (some e, s1, ltr)) :
    tsNext env s = (.error e, s1, ltr) := by
  simp [tsNext, hck]

theorem tsNext_after_check (env : TSEnv) (s : TSState) (s1 : TSState)
    (ltr : List StoreOp)
    (hck : tsCheckRangeLock env s = (none, s1, ltr)) :
    ∃ ftr, lockOps ftr = [] ∧ (tsNext env s).2.2 = ltr ++ ftr ∧
      (tsNext env s).2.1.lockChecked = s1.lockChecked := by
  simp only [tsNext, hck]
  rcases hone : tsGetOneRow s1 with ⟨row?, s2⟩
  rcases row? with _ | row
  · -- refill path
    have hs2 : s2 = s1 := by
      simp only [tsGetOneRow] at hone
      by_cases h : s1.rowCursor < s1.rows.length
      · rw [dif_pos h] at hone; cases hone
      · rw [dif_neg h] at hone; cases hone; rfl
    rw [hs2] at hone ⊢
    obtain ⟨hfl, hfk, _⟩ := tsFillRows_trace_facts env (env.kvRanges.length + 1)
      { s1 with rowCursor := 0, rows := [] }
    rcases hf : tsFillRows env (env.kvRanges.length + 1)
        { s1 with rowCursor := 0, rows := [] } with ⟨ferr, s4, ftr⟩
    rw [hf] at hfl hfk
    simp only at hfl hfk
    rcases ferr with _ | fe
    · by_cases hr : 0 < s4.rows.length
      · refine ⟨ftr, hfl, ?_, ?_⟩ <;> simp [hone, hf, dif_pos hr, hfk]
      · refine ⟨ftr, hfl, ?_, ?_⟩ <;> simp [hone, hf, dif_neg hr, hfk]
    · refine ⟨ftr, hfl, ?_, ?_⟩ <;> simp [hone, hf, hfk]
  · -- buffered-row path
    have hs2 : s2.lockChecked = s1.lockChecked := by
      simp only [tsGetOneRow] at hone
      by_cases h : s1.rowCursor < s1.rows.length
      · rw [dif_pos h] at hone
        cases hone
        rfl
      · rw [dif_neg h] at hone; cases hone
    refine ⟨[], rfl, ?_, ?_⟩ <;> simp [hone, hs2]

theorem tsCheckRangeLock_cases (env : TSEnv) (s : TSState) :
    (s.lockChecked = true → tsCheckRangeLock env s = (none, s, [])) ∧
    (s.ignoreLock = true → tsCheckRangeLock env s = (none, s, [])) ∧
    (s.ignoreLock = false → s.lockChecked = false →
      (∀ l, (checkRangesLock env.lockOf env.kvRanges).1 = some l →
        tsCheckRangeLock env s =
          (some (.locked l), s, (checkRangesLock env.lockOf env.kvRanges).2)) ∧
      ((checkRangesLock env.lockOf env.kvRanges).1 = none →
        tsCheckRangeLock env s = (none, { s with lockChecked := true },
          (checkRangesLock env.lockOf env.kvRanges).2))) := by
  refine ⟨?_, ?_, ?_⟩
  · intro h; simp [tsCheckRangeLock, h]
  · intro h; simp [tsCheckRangeLock, h]
  · intro h1 h2
    constructor
    · intro l hl
      simp only [tsCheckRangeLock, h1, h2, Bool.not_false, Bool.and_self, if_true]
      rcases hch : checkRangesLock env.lockOf env.kvRanges with ⟨res, tr⟩
      rw [hch] at hl
      simp only at hl
      subst hl
      simp
    · intro hl
      simp only [tsCheckRangeLock, h1, h2, Bool.not_false, Bool.and_self, if_true]
      rcases hch : checkRangesLock env.lockOf env.kvRanges with ⟨res, tr⟩
      rw [hch] at hl
      simp only at hl
      subst hl
      simp

theorem tsLock_amended (env : TSEnv) (s : TSState) :
    (∃ k, k ≤ env.kvRanges.length ∧
      lockOps (tsNext env s).2.2 =
        (if !s.ignoreLock && !s.lockChecked then
          (env.kvRanges.take k).map (fun r => StoreOp.checkLockOp r.startKey r.endKey)
        else [])) ∧
    (∀ l, s.ignoreLock = false → s.lockChecked = false →
      (checkRangesLock env.lockOf env.kvRanges).1 = some l →
      (tsNext env s).1 = .error (.locked l)) ∧
    (s.ignoreLock = false → s.lockChecked = false →
      (checkRangesLock env.lockOf env.kvRanges).1 = none →
      (tsNext env s).2.1.lockChecked = true) ∧
    (s.lockChecked = true →
      lockOps (tsNext env s).2.2 = [] ∧ (tsNext env s).2.1.lockChecked = true) := by
  obtain ⟨hc1, hc2, hc3⟩ := tsCheckRangeLock_cases env s
  obtain ⟨k0, hk0, htr0⟩ := checkRangesLock_trace env.lockOf env.kvRanges
  refine ⟨?_, ?_, ?_, ?_⟩
  · by_cases hcond : (!s.ignoreLock && !s.lockChecked) = true
    · rw [Bool.and_eq_true, Bool.not_eq_true', Bool.not_eq_true'] at hcond
      obtain ⟨h1, h2⟩ := hcond
      rcases hres : (checkRangesLock env.lockOf env.kvRanges).1 with _ | l
      · have hck := (hc3 h1 h2).2 hres
        rw [htr0] at hck
        obtain ⟨ftr, hfl, htrace, _⟩ := tsNext_after_check env s _ _ hck
        refine ⟨k0, hk0, ?_⟩
        rw [htrace, lockOps_append, lockOps_lockmap, hfl]
        simp [h1, h2]
      · have hck := (hc3 h1 h2).1 l hres
        rw [htr0] at hck
        have hnx := tsNext_check_conflict env s _ _ _ hck
        refine ⟨k0, hk0, ?_⟩
        rw [hnx]
        simp only
        rw [lockOps_lockmap]
        simp [h1, h2]
    · have hor : s.ignoreLock = true ∨ s.lockChecked = true := by
        cases hA : s.ignoreLock with
        | true => exact Or.inl rfl
        | false =>
          cases hB : s.lockChecked with
          | true => exact Or.inr rfl
          | false => exact absurd (by simp [hA, hB]) hcond
      have hck : tsCheckRangeLock env s = (none, s, []) := by
        rcases hor with h | h
        · exact hc2 h
        · exact hc1 h
      obtain ⟨ftr, hfl, htrace, _⟩ := tsNext_after_check env s _ _ hck
      refine ⟨0, Nat.zero_le _, ?_⟩
      rw [htrace, lockOps_append, hfl]
      have hfalse : (!s.ignoreLock && !s.lockChecked) = false := by
        cases hx : (!s.ignoreLock && !s.lockChecked) with
        | false => rfl
        | true => exact absurd hx hcond
      rw [hfalse]
      simp [lockOps]
  · intro l h1 h2 hres
    have hck := (hc3 h1 h2).1 l hres
    rw [tsNext_check_conflict env s _ _ _ hck]
  · intro h1 h2 hres
    have hck := (hc3 h1 h2).2 hres
    obtain ⟨ftr, hfl, htrace, hflag⟩ := tsNext_after_check env s _ _ hck
    rw [hflag]
  · intro h
    have hck := hc1 h
    obtain ⟨ftr, hfl, htrace, hflag⟩ := tsNext_after_check env s _ _ hck
    constructor
    · rw [htrace, lockOps_append, hfl]
      simp [lockOps]
    · rw [hflag, h]

theorem matchTripleIS_proj (t : Option ScanErr × ISState × List StoreOp)
    (tr : List StoreOp) :
    (match t with | (err', s3, tr') => (err', s3, tr ++ tr')) =
      (t.1, t.2.1, tr ++ t.2.2) := by
  rcases t with ⟨a, b, c⟩; rfl

theorem isFillRows_trace_facts (env : ISEnv) : ∀ (fuel : Nat) (s : ISState),
    lockOps (isFillRows env fuel s).2.2 = [] ∧
    (isFillRows env fuel s).2.1.lockChecked = s.lockChecked ∧
    ∀ k, StoreOp.getOp k ∈ (isFillRows env fuel s).2.2 →
      ∃ j, s.ranCursor ≤ j ∧ j < env.kvRanges.length ∧
        (env.kvRanges.getD j ⟨[], []⟩).startKey = k := by
  intro fuel
  induction fuel with
  | zero =>
    intro s
    exact ⟨rfl, rfl, by intro k h; simp [isFillRows] at h⟩
  | succ fuel ih =>
    intro s
    by_cases hc : s.ranCursor < env.kvRanges.length
    case neg =>
      refine ⟨?_, ?_, ?_⟩ <;> simp [isFillRows, hc, lockOps]
    case pos =>
      by_cases hpt : (env.isUnique && (env.kvRanges.getD s.ranCursor ⟨[], []⟩).isPoint) = true
      · -- point path
        obtain ⟨htr, hcur, hlk⟩ :=
          isFillRowsFromPoint_trace env s (env.kvRanges.getD s.ranCursor ⟨[], []⟩)
        rcases hp : isFillRowsFromPoint env s
            (env.kvRanges.getD s.ranCursor ⟨[], []⟩) with ⟨err, s1, tr⟩
        rw [hp] at htr hcur hlk
        simp only at htr hcur hlk
        have hsingle : ∀ k, StoreOp.getOp k ∈ tr →
            ∃ j, s.ranCursor ≤ j ∧ j < env.kvRanges.length ∧
              (env.kvRanges.getD j ⟨[], []⟩).startKey = k := by
          intro k hk
          rw [htr] at hk
          simp only [List.mem_singleton] at hk
          cases hk
          exact ⟨s.ranCursor, le_refl _, hc, rfl⟩
        have htrl : lockOps tr = [] := by
          rw [htr]; simp [lockOps, StoreOp.isLockOp]
        rcases err with _ | e
        · by_cases hrows : ({ s1 with ranCursor := s1.ranCursor + 1, seekKey := none } : ISState).rows.length > 0
          · have hgoal : isFillRows env (fuel + 1) s =
                (none, { s1 with ranCursor := s1.ranCursor + 1, seekKey := none }, tr) := by
              simp only [isFillRows, if_pos hc, if_pos hpt, hp, if_pos hrows]
            rw [hgoal]
            exact ⟨htrl, by simpa using hlk, hsingle⟩
          · have hgoal : isFillRows env (fuel + 1) s =
                ((isFillRows env fuel { s1 with ranCursor := s1.ranCursor + 1, seekKey := none }).1,
                  (isFillRows env fuel { s1 with ranCursor := s1.ranCursor + 1, seekKey := none }).2.1,
                  tr ++ (isFillRows env fuel { s1 with ranCursor := s1.ranCursor + 1, seekKey := none }).2.2) := by
              simp only [isFillRows, if_pos hc, if_pos hpt, hp, if_neg hrows,
                matchTripleIS_proj]
            obtain ⟨ihl, ihk, ihg⟩ := ih { s1 with ranCursor := s1.ranCursor + 1, seekKey := none }
            rw [hgoal]
            refine ⟨?_, ?_, ?_⟩
            · simp only [lockOps, List.filter_append] at htrl ihl ⊢
              simp [htrl, ihl]
            · simpa [ihk] using hlk
            · intro k hk
              rcases List.mem_append.mp hk with h1 | h2
              · exact hsingle k h1
              · obtain ⟨j, hj1, hj2, hj3⟩ := ihg k h2
                refine ⟨j, ?_, hj2, hj3⟩
                simp only [hcur] at hj1
                omega
        · have hgoal : isFillRows env (fuel + 1) s =
              (some e, { s1 with ranCursor := s1.ranCursor + 1, seekKey := none }, tr) := by
            simp only [isFillRows, if_pos hc, if_pos hpt, hp]
          rw [hgoal]
          exact ⟨htrl, by simpa using hlk, hsingle⟩
      · -- scan path
        obtain ⟨⟨op, hop, hopl, hopg⟩, hcur, hlk⟩ :=
          isFillRowsFromRange_trace env s (env.kvRanges.getD s.ranCursor ⟨[], []⟩)
        rcases hp : isFillRowsFromRange env s
            (env.kvRanges.getD s.ranCursor ⟨[], []⟩) with ⟨err, s1, tr⟩
        rw [hp] at hop hcur hlk
        simp only at hop hcur hlk
        have htrl : lockOps tr = [] := by
          rw [hop]; simp [lockOps, hopl]
        have hnoget : ∀ k, StoreOp.getOp k ∈ tr → False := by
          intro k hk
          rw [hop] at hk
          simp only [List.mem_singleton] at hk
          exact hopg k hk.symm
        by_cases hz : s1.rows.length = 0
        · rcases err with _ | e
          · have hgoal : isFillRows env (fuel + 1) s =
                ((isFillRows env fuel { s1 with ranCursor := s1.ranCursor + 1, seekKey := none }).1,
                  (isFillRows env fuel { s1 with ranCursor := s1.ranCursor + 1, seekKey := none }).2.1,
                  tr ++ (isFillRows env fuel { s1 with ranCursor := s1.ranCursor + 1, seekKey := none }).2.2) := by
              simp only [isFillRows, if_pos hc, if_neg hpt, hp, if_pos hz,
                if_neg (by simp [hz] : ¬ ({ s1 with ranCursor := s1.ranCursor + 1, seekKey := none } : ISState).rows.length > 0), matchTripleIS_proj]
            obtain ⟨ihl, ihk, ihg⟩ := ih { s1 with ranCursor := s1.ranCursor + 1, seekKey := none }
            rw [hgoal]
            refine ⟨?_, ?_, ?_⟩
            · simp only [lockOps, List.filter_append] at htrl ihl ⊢
              simp [htrl, ihl]
            · simpa [ihk] using hlk
            · intro k hk
              rcases List.mem_append.mp hk with h1 | h2
              · exact absurd h1 (fun hh => hnoget k hh)
              · obtain ⟨j, hj1, hj2, hj3⟩ := ihg k h2
                refine ⟨j, ?_, hj2, hj3⟩
                simp only [hcur] at hj1
                omega
          · have hgoal : isFillRows env (fuel + 1) s =
                (some e, { s1 with ranCursor := s1.ranCursor + 1, seekKey := none }, tr) := by
              simp only [isFillRows, if_pos hc, if_neg hpt, hp, if_pos hz]
            rw [hgoal]
            exact ⟨htrl, by simpa using hlk,
              fun k hk => absurd hk (fun hh => hnoget k hh)⟩
        · rcases err with _ | e
          · have hgoal : isFillRows env (fuel + 1) s = (none, s1, tr) := by
              simp only [isFillRows, if_pos hc, if_neg hpt, hp, if_neg hz,
                if_pos (by omega : s1.rows.length > 0)]
            rw [hgoal]
            exact ⟨htrl, hlk, fun k hk => absurd hk (fun hh => hnoget k hh)⟩
          · have hgoal : isFillRows env (fuel + 1) s = (some e, s1, tr) := by
              simp only [isFillRows, if_pos hc, if_neg hpt, hp, if_neg hz]
            rw [hgoal]
            exact ⟨htrl, hlk, fun k hk => absurd hk (fun hh => hnoget k hh)⟩

theorem isNext_check_conflict (env : ISEnv) (s : ISState) (e : ScanErr)
    (s1 : ISState) (ltr : List StoreOp)
    (hck : isCheckRangeLock env s = (some e, s1, ltr)) :
    isNext env s = (.error e, s1, ltr) := by
  simp [isNext, hck]

theorem isNext_after_check (env : ISEnv) (s : ISState) (s1 : ISState)
    (ltr : List StoreOp)
    (hck : isCheckRangeLock env s = (none, s1, ltr)) :
    ∃ ftr, lockOps ftr = [] ∧ (isNext env s).2.2 = ltr ++ ftr ∧
      (isNext env s).2.1.lockChecked = s1.lockChecked := by
  simp only [isNext, hck]
  by_cases h : s1.rowCursor < s1.rows.length
  · rw [dif_pos h]
    exact ⟨[], rfl, by simp, rfl⟩
  · rw [dif_neg h]
    obtain ⟨hfl, hfk, _⟩ := isFillRows_trace_facts env (env.kvRanges.length + 1)
      { s1 with rowCursor := 0, rows := [] }
    rcases hf : isFillRows env (env.kvRanges.length + 1)
        { s1 with rowCursor := 0, rows := [] } with ⟨ferr, s4, ftr⟩
    rw [hf] at hfl hfk
    simp only at hfl hfk
    rcases ferr with _ | fe
    · by_cases hr : 0 < s4.rows.length
      · refine ⟨ftr, hfl, ?_, ?_⟩ <;> simp [hf, dif_pos hr, hfk]
      · refine ⟨ftr, hfl, ?_, ?_⟩ <;> simp [hf, dif_neg hr, hfk]
    · refine ⟨ftr, hfl, ?_, ?_⟩ <;> simp [hf, hfk]

theorem isCheckRangeLock_cases (env : ISEnv) (s : ISState) :
    (s.lockChecked = true → isCheckRangeLock env s = (none, s, [])) ∧
    (s.ignoreLock = true → isCheckRangeLock env s = (none, s, [])) ∧
    (s.ignoreLock = false → s.lockChecked = false →
      (∀ l, (checkRangesLock env.lockOf env.kvRanges).1 = some l →
        isCheckRangeLock env s =
          (some (.locked l), s, (checkRangesLock env.lockOf env.kvRanges).2)) ∧
      ((checkRangesLock env.lockOf env.kvRanges).1 = none →
        isCheckRangeLock env s = (none, { s with lockChecked := true },
          (checkRangesLock env.lockOf env.kvRanges).2))) := by
  refine ⟨?_, ?_, ?_⟩
  · intro h; simp [isCheckRangeLock, h]
  · intro h; simp [isCheckRangeLock, h]
  · intro h1 h2
    constructor
    · intro l hl
      simp only [isCheckRangeLock, h1, h2, Bool.not_false, Bool.and_self, if_true]
      rcases hch : checkRangesLock env.lockOf env.kvRanges with ⟨res, tr⟩
      rw [hch] at hl
      simp only at hl
      subst hl
      simp
    · intro hl
      simp only [isCheckRangeLock, h1, h2, Bool.not_false, Bool.and_self, if_true]
      rcases hch : checkRangesLock env.lockOf env.kvRanges with ⟨res, tr⟩
      rw [hch] at hl
      simp only at hl
      subst hl
      simp

theorem isLock_amended (env : ISEnv) (s : ISState) :
    (∃ k, k ≤ env.kvRanges.length ∧
      lockOps (isNext env s).2.2 =
        (if !s.ignoreLock && !s.lockChecked then
          (env.kvRanges.take k).map (fun r => StoreOp.checkLockOp r.startKey r.endKey)
        else [])) ∧
    (∀ l, s.ignoreLock = false → s.lockChecked = false →
      (checkRangesLock env.lockOf env.kvRanges).1 = some l →
      (isNext env s).1 = .error (.locked l)) ∧
    (s.ignoreLock = false → s.lockChecked = false →
      (checkRangesLock env.lockOf env.kvRanges).1 = none →
      (isNext env s).2.1.lockChecked = true) ∧
    (s.lockChecked = true →
      lockOps (isNext env s).2.2 = [] ∧ (isNext env s).2.1.lockChecked = true) := by
  obtain ⟨hc1, hc2, hc3⟩ := isCheckRangeLock_cases env s
  obtain ⟨k0, hk0, htr0⟩ := checkRangesLock_trace env.lockOf env.kvRanges
  refine ⟨?_, ?_, ?_, ?_⟩
  · by_cases hcond : (!s.ignoreLock && !s.lockChecked) = true
    · rw [Bool.and_eq_true, Bool.not_eq_true', Bool.not_eq_true'] at hcond
      obtain ⟨h1, h2⟩ := hcond
      rcases hres : (checkRangesLock env.lockOf env.kvRanges).1 with _ | l
      · have hck := (hc3 h1 h2).2 hres
        rw [htr0] at hck
        obtain ⟨ftr, hfl, htrace, _⟩ := isNext_after_check env s _ _ hck
        refine ⟨k0, hk0, ?_⟩
        rw [htrace, lockOps_append, lockOps_lockmap, hfl]
        simp [h1, h2]
      · have hck := (hc3 h1 h2).1 l hres
        rw [htr0] at hck
        have hnx := isNext_check_conflict env s _ _ _ hck
        refine ⟨k0, hk0, ?_⟩
        rw [hnx]
        simp only
        rw [lockOps_lockmap]
        simp [h1, h2]
    · have hor : s.ignoreLock = true ∨ s.lockChecked = true := by
        cases hA : s.ignoreLock with
        | true => exact Or.inl rfl
        | false =>
          cases hB : s.lockChecked with
          | true => exact Or.inr rfl
          | false => exact absurd (by simp [hA, hB]) hcond
      have hck : isCheckRangeLock env s = (none, s, []) := by
        rcases hor with h | h
        · exact hc2 h
        · exact hc1 h
      obtain ⟨ftr, hfl, htrace, _⟩ := isNext_after_check env s _ _ hck
      refine ⟨0, Nat.zero_le _, ?_⟩
      rw [htrace, lockOps_append, hfl]
      have hfalse : (!s.ignoreLock && !s.lockChecked) = false := by
        cases hx : (!s.ignoreLock && !s.lockChecked) with
        | false => rfl
        | true => exact absurd hx hcond
      rw [hfalse]
      simp [lockOps]
  · intro l h1 h2 hres
    have hck := (hc3 h1 h2).1 l hres
    rw [isNext_check_conflict env s _ _ _ hck]
  · intro h1 h2 hres
    have hck := (hc3 h1 h2).2 hres
    obtain ⟨ftr, hfl, htrace, hflag⟩ := isNext_after_check env s _ _ hck
    rw [hflag]
  · intro h
    have hck := hc1 h
    obtain ⟨ftr, hfl, htrace, hflag⟩ := isNext_after_check env s _ _ hck
    constructor
    · rw [htrace, lockOps_append, hfl]
      simp [lockOps]
    · rw [hflag, h]

/-- C5 (amended): for both the table scan and the index scan, a single call
to Next invokes CheckRangeLock on a prefix of the ranges exactly when the
scan neither ignores locks nor has already completed a successful check;
a reported conflict makes Next return the Locked error (hence before any
row of this call); a fully successful check sets lockChecked, and once
lockChecked holds no later Next performs any lock check.  (The original
claim's "at most once per range over the whole scan lifetime" fails: after
a conflict, lockChecked stays false and the next Next re-checks; see the
counterexample.) -/
theorem scan_lock_check_amended (tenv : TSEnv) (ts : TSState)
    (ienv : ISEnv) (is0 : ISState) :
    ((∃ k, k ≤ tenv.kvRanges.length ∧
      lockOps (tsNext tenv ts).2.2 =
        (if !ts.ignoreLock && !ts.lockChecked then
          (tenv.kvRanges.take k).map
            (fun r => StoreOp.checkLockOp r.startKey r.endKey)
        else [])) ∧
    (∀ l, ts.ignoreLock = false → ts.lockChecked = false →
      (checkRangesLock tenv.lockOf tenv.kvRanges).1 = some l →
      (tsNext tenv ts).1 = .error (.locked l)) ∧
    (ts.ignoreLock = false → ts.lockChecked = false →
      (checkRangesLock tenv.lockOf tenv.kvRanges).1 = none →
      (tsNext tenv ts).2.1.lockChecked = true) ∧
    (ts.lockChecked = true →
      lockOps (tsNext tenv ts).2.2 = [] ∧
        (tsNext tenv ts).2.1.lockChecked = true)) ∧
    ((∃ k, k ≤ ienv.kvRanges.length ∧
      lockOps (isNext ienv is0).2.2 =
        (if !is0.ignoreLock && !is0.lockChecked then
          (ienv.kvRanges.take k).map
            (fun r => StoreOp.checkLockOp r.startKey r.endKey)
        else [])) ∧
    (∀ l, is0.ignoreLock = false → is0.lockChecked = false →
      (checkRangesLock ienv.lockOf ienv.kvRanges).1 = some l →
      (isNext ienv is0).1 = .error (.locked l)) ∧
    (is0.ignoreLock = false → is0.lockChecked = false →
      (checkRangesLock ienv.lockOf ienv.kvRanges).1 = none →
      (isNext ienv is0).2.1.lockChecked = true) ∧
    (is0.lockChecked = true →
      lockOps (isNext ienv is0).2.2 = [] ∧
        (isNext ienv is0).2.1.lockChecked = true)) :=
  ⟨tsLock_amended tenv ts, isLock_amended ienv is0⟩

theorem scan_lock_check_amended_witness :
    (tsNext c5Env c5State).1 = .error (.locked 99) ∧
    (isNext c5IsEnv c5IsState).1 = .error (.locked 99) := by
  obtain ⟨⟨_, ht, _, _⟩, ⟨_, hi, _, _⟩⟩ :=
    scan_lock_check_amended c5Env c5State c5IsEnv c5IsState
  exact ⟨ht 99 rfl rfl rfl, hi 99 rfl rfl rfl⟩

theorem tsCheckRangeLock_state_trace (env : TSEnv) (s : TSState) :
    (tsCheckRangeLock env s).2.1.rangeCursor = s.rangeCursor ∧
    (tsCheckRangeLock env s).2.1.rows = s.rows ∧
    (tsCheckRangeLock env s).2.1.rowCursor = s.rowCursor ∧
    ∀ k, StoreOp.getOp k ∉ (tsCheckRangeLock env s).2.2 := by
  obtain ⟨k0, hk0, htr0⟩ := checkRangesLock_trace env.lockOf env.kvRanges
  simp only [tsCheckRangeLock]
  by_cases h : (!s.ignoreLock && !s.lockChecked) = true
  · rw [if_pos h]
    rcases hch : checkRangesLock env.lockOf env.kvRanges with ⟨res, tr⟩
    rw [hch] at htr0
    simp only at htr0
    subst htr0
    have hno : ∀ k, StoreOp.getOp k ∉
        (env.kvRanges.take k0).map
          (fun r => StoreOp.checkLockOp r.startKey r.endKey) := by
      intro k hk
      obtain ⟨r, _, heq⟩ := List.mem_map.mp hk
      exact StoreOp.noConfusion heq
    rcases res with _ | l
    · exact ⟨rfl, rfl, rfl, hno⟩
    · exact ⟨rfl, rfl, rfl, hno⟩
  · rw [if_neg h]
    exact ⟨rfl, rfl, rfl, fun k hk => by simp at hk⟩

theorem tsNext_getOp_origin (env : TSEnv) (s : TSState) :
    ∀ k, StoreOp.getOp k ∈ (tsNext env s).2.2 →
      ∃ j, s.rangeCursor ≤ j ∧ j < env.kvRanges.length ∧
        (env.kvRanges.getD j ⟨[], []⟩).startKey = k := by
  obtain ⟨hcur, hrows, hrc, hnog⟩ := tsCheckRangeLock_state_trace env s
  rcases hck : tsCheckRangeLock env s with ⟨res, s1, ltr⟩
  rw [hck] at hcur hrows hrc hnog
  simp only at hcur hrows hrc hnog
  rcases res with _ | e
  · simp only [tsNext, hck]
    rcases hone : tsGetOneRow s1 with ⟨row?, s2⟩
    have hs2cur : s2.rangeCursor = s.rangeCursor := by
      simp only [tsGetOneRow] at hone
      by_cases hlt : s1.rowCursor < s1.rows.length
      · rw [dif_pos hlt] at hone
        cases hone
        exact hcur
      · rw [dif_neg hlt] at hone
        cases hone
        exact hcur
    rcases row? with _ | row
    · obtain ⟨_, _, hget⟩ := tsFillRows_trace_facts env (env.kvRanges.length + 1)
        { s2 with rowCursor := 0, rows := [] }
      rcases hf : tsFillRows env (env.kvRanges.length + 1)
          { s2 with rowCursor := 0, rows := [] } with ⟨ferr, s4, ftr⟩
      rw [hf] at hget
      simp only at hget
      have hmain : ∀ k, StoreOp.getOp k ∈ ltr ++ ftr →
          ∃ j, s.rangeCursor ≤ j ∧ j < env.kvRanges.length ∧
            (env.kvRanges.getD j ⟨[], []⟩).startKey = k := by
        intro k hk
        rcases List.mem_append.mp hk with h1 | h2
        · exact absurd h1 (hnog k)
        · obtain ⟨j, hj1, hj2, hj3⟩ := hget k h2
          refine ⟨j, ?_, hj2, hj3⟩
          have hj1' : s2.rangeCursor ≤ j := hj1
          rw [hs2cur] at hj1'
          exact hj1'
      rcases ferr with _ | fe
      · by_cases hr : 0 < s4.rows.length
        · intro k hk
          simp only [hf, dif_pos hr] at hk
          exact hmain k hk
        · intro k hk
          simp only [hf, dif_neg hr] at hk
          exact hmain k hk
      · intro k hk
        simp only [hf] at hk
        exact hmain k hk
    · intro k hk
      exact absurd hk (hnog k)
  · simp only [tsNext, hck]
    intro k hk
    exact absurd hk (hnog k)

theorem isCheckRangeLock_state_trace (env : ISEnv) (s : ISState) :
    (isCheckRangeLock env s).2.1.ranCursor = s.ranCursor ∧
    (isCheckRangeLock env s).2.1.rows = s.rows ∧
    (isCheckRangeLock env s).2.1.rowCursor = s.rowCursor ∧
    ∀ k, StoreOp.getOp k ∉ (isCheckRangeLock env s).2.2 := by
  obtain ⟨k0, hk0, htr0⟩ := checkRangesLock_trace env.lockOf env.kvRanges
  simp only [isCheckRangeLock]
  by_cases h : (!s.ignoreLock && !s.lockChecked) = true
  · rw [if_pos h]
    rcases hch : checkRangesLock env.lockOf env.kvRanges with ⟨res, tr⟩
    rw [hch] at htr0
    simp only at htr0
    subst htr0
    have hno : ∀ k, StoreOp.getOp k ∉
        (env.kvRanges.take k0).map
          (fun r => StoreOp.checkLockOp r.startKey r.endKey) := by
      intro k hk
      obtain ⟨r, _, heq⟩ := List.mem_map.mp hk
      exact StoreOp.noConfusion heq
    rcases res with _ | l
    · exact ⟨rfl, rfl, rfl, hno⟩
    · exact ⟨rfl, rfl, rfl, hno⟩
  · rw [if_neg h]
    exact ⟨rfl, rfl, rfl, fun k hk => by simp at hk⟩

theorem isNext_getOp_origin (env : ISEnv) (s : ISState) :
    ∀ k, StoreOp.getOp k ∈ (isNext env s).2.2 →
      ∃ j, s.ranCursor ≤ j ∧ j < env.kvRanges.length ∧
        (env.kvRanges.getD j ⟨[], []⟩).startKey = k := by
  obtain ⟨hcur, hrows, hrc, hnog⟩ := isCheckRangeLock_state_trace env s
  rcases hck : isCheckRangeLock env s with ⟨res, s1, ltr⟩
  rw [hck] at hcur hrows hrc hnog
  simp only at hcur hrows hrc hnog
  rcases res with _ | e
  · simp only [isNext, hck]
    by_cases hlt : s1.rowCursor < s1.rows.length
    · rw [dif_pos hlt]
      intro k hk
      exact absurd hk (hnog k)
    · rw [dif_neg hlt]
      obtain ⟨_, _, hget⟩ := isFillRows_trace_facts env (env.kvRanges.length + 1)
        { s1 with rowCursor := 0, rows := [] }
      rcases hf : isFillRows env (env.kvRanges.length + 1)
          { s1 with rowCursor := 0, rows := [] } with ⟨ferr, s4, ftr⟩
      rw [hf] at hget
      simp only at hget
      have hmain : ∀ k, StoreOp.getOp k ∈ ltr ++ ftr →
          ∃ j, s.ranCursor ≤ j ∧ j < env.kvRanges.length ∧
            (env.kvRanges.getD j ⟨[], []⟩).startKey = k := by
        intro k hk
        rcases List.mem_append.mp hk with h1 | h2
        · exact absurd h1 (hnog k)
        · obtain ⟨j, hj1, hj2, hj3⟩ := hget k h2
          refine ⟨j, ?_, hj2, hj3⟩
          have hj1' : s1.ranCursor ≤ j := hj1
          rw [hcur] at hj1'
          exact hj1'
      rcases ferr with _ | fe
      · by_cases hr : 0 < s4.rows.length
        · intro k hk
          simp only [hf, dif_pos hr] at hk
          exact hmain k hk
        · intro k hk
          simp only [hf, dif_neg hr] at hk
          exact hmain k hk
      · intro k hk
        simp only [hf] at hk
        exact hmain k hk
  · simp only [isNext, hck]
    intro k hk
    exact absurd hk (hnog k)

/-- C10: in both scan executors a point range's cursor is advanced BEFORE
the Get/decode error is surfaced (nextRange precedes the error check), so
Next returns the error with the cursor already past the failed range, and
every Get issued by a subsequent Next call targets the start key of a range
strictly after the failed one — the failed range is not retried. -/
theorem point_failure_advances_cursor
    (tenv : TSEnv) (ts : TSState) (e : ScanErr)
    (htc : ts.rangeCursor < tenv.kvRanges.length)
    (hpt : (tenv.kvRanges.getD ts.rangeCursor ⟨[], []⟩).isPoint = true)
    (hrows : ts.rows = []) (hrc : ts.rowCursor = 0)
    (hig : ts.ignoreLock = true)
    (hp : (tsFillRowsFromPoint tenv ts
      (tenv.kvRanges.getD ts.rangeCursor ⟨[], []⟩)).1 = some e)
    (ienv : ISEnv) (is0 : ISState) (e2 : ScanErr)
    (hitc : is0.ranCursor < ienv.kvRanges.length)
    (hipt : (ienv.isUnique &&
      (ienv.kvRanges.getD is0.ranCursor ⟨[], []⟩).isPoint) = true)
    (hirows : is0.rows = []) (hirc : is0.rowCursor = 0)
    (hiig : is0.ignoreLock = true)
    (hip : (isFillRowsFromPoint ienv is0
      (ienv.kvRanges.getD is0.ranCursor ⟨[], []⟩)).1 = some e2) :
    ((tsNext tenv ts).1 = .error e ∧
      (tsNext tenv ts).2.1.rangeCursor = ts.rangeCursor + 1 ∧
      (∀ k, StoreOp.getOp k ∈ (tsNext tenv (tsNext tenv ts).2.1).2.2 →
        ∃ j, ts.rangeCursor + 1 ≤ j ∧ j < tenv.kvRanges.length ∧
          (tenv.kvRanges.getD j ⟨[], []⟩).startKey = k)) ∧
    ((isNext ienv is0).1 = .error e2 ∧
      (isNext ienv is0).2.1.ranCursor = is0.ranCursor + 1 ∧
      (∀ k, StoreOp.getOp k ∈ (isNext ienv (isNext ienv is0).2.1).2.2 →
        ∃ j, is0.ranCursor + 1 ≤ j ∧ j < ienv.kvRanges.length ∧
          (ienv.kvRanges.getD j ⟨[], []⟩).startKey = k)) := by
  constructor
  · have hck : tsCheckRangeLock tenv ts = (none, ts, []) := by
      simp [tsCheckRangeLock, hig]
    have hone : tsGetOneRow ts = (none, ts) := by
      simp [tsGetOneRow, hrows]
    have hs3 : ({ ts with rowCursor := 0, rows := [] } : TSState) = ts := by
      rw [← hrc, ← hrows]
    obtain ⟨htr, hcur, hlk⟩ := tsFillRowsFromPoint_trace tenv ts
      (tenv.kvRanges.getD ts.rangeCursor ⟨[], []⟩)
    rcases hpres : tsFillRowsFromPoint tenv ts
        (tenv.kvRanges.getD ts.rangeCursor ⟨[], []⟩) with ⟨err, s1, tr⟩
    rw [hpres] at hp hcur
    simp only at hp hcur
    subst hp
    have hfill : tsFillRows tenv (tenv.kvRanges.length + 1) ts =
        (some e, { s1 with rangeCursor := s1.rangeCursor + 1, seekKey := none },
          tr) := by
      simp only [tsFillRows, if_pos htc, if_pos hpt, hpres]
    have hnx : tsNext tenv ts =
        (.error e, { s1 with rangeCursor := s1.rangeCursor + 1, seekKey := none },
          tr) := by
      simp only [tsNext, hck, hone, hs3, hfill, List.nil_append]
    have h2 : (tsNext tenv ts).2.1.rangeCursor = ts.rangeCursor + 1 := by
      rw [hnx]
      show s1.rangeCursor + 1 = ts.rangeCursor + 1
      rw [hcur]
    refine ⟨by rw [hnx], h2, ?_⟩
    intro k hk
    obtain ⟨j, hj1, hj2, hj3⟩ := tsNext_getOp_origin tenv (tsNext tenv ts).2.1 k hk
    refine ⟨j, ?_, hj2, hj3⟩
    rw [h2] at hj1
    exact hj1
  · have hck : isCheckRangeLock ienv is0 = (none, is0, []) := by
      simp [isCheckRangeLock, hiig]
    have hs3 : ({ is0 with rowCursor := 0, rows := [] } : ISState) = is0 := by
      rw [← hirc, ← hirows]
    obtain ⟨htr, hcur, hlk⟩ := isFillRowsFromPoint_trace ienv is0
      (ienv.kvRanges.getD is0.ranCursor ⟨[], []⟩)
    rcases hpres : isFillRowsFromPoint ienv is0
        (ienv.kvRanges.getD is0.ranCursor ⟨[], []⟩) with ⟨err, s1, tr⟩
    rw [hpres] at hip hcur
    simp only at hip hcur
    subst hip
    have hfill : isFillRows ienv (ienv.kvRanges.length + 1) is0 =
        (some e2, { s1 with ranCursor := s1.ranCursor + 1, seekKey := none },
          tr) := by
      simp only [isFillRows, if_pos hitc, if_pos hipt, hpres]
    have hnx : isNext ienv is0 =
        (.error e2, { s1 with ranCursor := s1.ranCursor + 1, seekKey := none },
          tr) := by
      simp only [isNext, hck]
      rw [dif_neg (by rw [hirows]; simp)]
      rw [hs3, hfill]
      rfl
    have h2 : (isNext ienv is0).2.1.ranCursor = is0.ranCursor + 1 := by
      rw [hnx]
      show s1.ranCursor + 1 = is0.ranCursor + 1
      rw [hcur]
    refine ⟨by rw [hnx], h2, ?_⟩
    intro k hk
    obtain ⟨j, hj1, hj2, hj3⟩ := isNext_getOp_origin ienv (isNext ienv is0).2.1 k hk
    refine ⟨j, ?_, hj2, hj3⟩
    rw [h2] at hj1
    exact hj1

/-- C7: the index scan takes the single-Get point path for the current range
iff the index is unique AND the range is a point: the first store operation
of the refill is a Get of the range's start key exactly in that case, and a
Scan/ReverseScan otherwise; concretely, a point range over a NON-unique
index goes through the scan path and yields two rows. -/
theorem indexScan_point_path_iff (env : ISEnv) (s : ISState) (fuel : Nat)
    (hcur : s.ranCursor < env.kvRanges.length) :
    ((env.isUnique && (env.kvRanges.getD s.ranCursor ⟨[], []⟩).isPoint) = true →
      (isFillRows env (fuel + 1) s).2.2.head? =
        some (StoreOp.getOp (env.kvRanges.getD s.ranCursor ⟨[], []⟩).startKey)) ∧
    ((env.isUnique && (env.kvRanges.getD s.ranCursor ⟨[], []⟩).isPoint) = false →
      ∃ a b n, (isFillRows env (fuel + 1) s).2.2.head? = some (StoreOp.scanOp a b n) ∨
        (isFillRows env (fuel + 1) s).2.2.head? = some (StoreOp.revScanOp a b n)) ∧
    ((∃ k, (isFillRows env (fuel + 1) s).2.2.head? = some (StoreOp.getOp k)) ↔
      env.isUnique = true ∧
        (env.kvRanges.getD s.ranCursor ⟨[], []⟩).isPoint = true) ∧
    (isDrain c7Env 3 c7InitState).1 = .ok ([[[5], [1]], [[5], [2]]], true) := by
  have hpoint : (env.isUnique &&
      (env.kvRanges.getD s.ranCursor ⟨[], []⟩).isPoint) = true →
      (isFillRows env (fuel + 1) s).2.2.head? =
        some (StoreOp.getOp (env.kvRanges.getD s.ranCursor ⟨[], []⟩).startKey) := by
    intro hpt
    obtain ⟨htr, _, _⟩ := isFillRowsFromPoint_trace env s
      (env.kvRanges.getD s.ranCursor ⟨[], []⟩)
    rcases hp : isFillRowsFromPoint env s
        (env.kvRanges.getD s.ranCursor ⟨[], []⟩) with ⟨err, s1, tr⟩
    rw [hp] at htr
    simp only at htr
    subst htr
    rcases err with _ | e
    · by_cases hz : s1.rows.length > 0
      · have hgoal : isFillRows env (fuel + 1) s =
            (none, { s1 with ranCursor := s1.ranCursor + 1, seekKey := none },
              [StoreOp.getOp
                (env.kvRanges.getD s.ranCursor ⟨[], []⟩).startKey]) := by
          simp only [isFillRows, if_pos hcur, if_pos hpt, hp, if_pos hz]
        rw [hgoal]
        rfl
      · rcases hrec : isFillRows env fuel
            { s1 with ranCursor := s1.ranCursor + 1, seekKey := none }
          with ⟨err', s3, tr'⟩
        have hgoal : isFillRows env (fuel + 1) s =
            (err', s3,
              [StoreOp.getOp (env.kvRanges.getD s.ranCursor ⟨[], []⟩).startKey]
                ++ tr') := by
          simp only [isFillRows, if_pos hcur, if_pos hpt, hp, if_neg hz, hrec]
        rw [hgoal]
        rfl
    · have hgoal : isFillRows env (fuel + 1) s =
          (some e, { s1 with ranCursor := s1.ranCursor + 1, seekKey := none },
            [StoreOp.getOp (env.kvRanges.getD s.ranCursor ⟨[], []⟩).startKey]) := by
        simp only [isFillRows, if_pos hcur, if_pos hpt, hp]
      rw [hgoal]
      rfl
  have hscan : (env.isUnique &&
      (env.kvRanges.getD s.ranCursor ⟨[], []⟩).isPoint) = false →
      ∃ a b n, (isFillRows env (fuel + 1) s).2.2.head? = some (StoreOp.scanOp a b n) ∨
        (isFillRows env (fuel + 1) s).2.2.head? = some (StoreOp.revScanOp a b n) := by
    intro hptf
    have hptB : ¬((env.isUnique &&
        (env.kvRanges.getD s.ranCursor ⟨[], []⟩).isPoint) = true) := by
      intro h
      rw [h] at hptf
      exact Bool.noConfusion hptf
    obtain ⟨⟨op, htr, hnl, hng⟩, _, _⟩ := isFillRowsFromRange_trace env s
      (env.kvRanges.getD s.ranCursor ⟨[], []⟩)
    rcases hp : isFillRowsFromRange env s
        (env.kvRanges.getD s.ranCursor ⟨[], []⟩) with ⟨err, s1, tr⟩
    rw [hp] at htr
    simp only at htr
    subst htr
    have hop : (∃ a b n, op = StoreOp.scanOp a b n) ∨
        (∃ a b n, op = StoreOp.revScanOp a b n) := by
      cases op with
      | getOp k => exact absurd rfl (hng k)
      | scanOp a b n => exact Or.inl ⟨a, b, n, rfl⟩
      | revScanOp a b n => exact Or.inr ⟨a, b, n, rfl⟩
      | checkLockOp a b => simp [StoreOp.isLockOp] at hnl
    have hhead : (isFillRows env (fuel + 1) s).2.2.head? = some op := by
      rcases err with _ | e
      · by_cases hz : s1.rows.length = 0
        · rcases hrec : isFillRows env fuel
              { s1 with ranCursor := s1.ranCursor + 1, seekKey := none }
            with ⟨err', s3, tr'⟩
          have hgoal : isFillRows env (fuel + 1) s = (err', s3, [op] ++ tr') := by
            simp only [isFillRows, if_pos hcur, if_neg hptB, hp, if_pos hz,
              if_neg (by simp [hz] : ¬({ s1 with ranCursor := s1.ranCursor + 1, seekKey := none } : ISState).rows.length > 0), hrec]
          rw [hgoal]
          rfl
        · have hgoal : isFillRows env (fuel + 1) s = (none, s1, [op]) := by
            simp only [isFillRows, if_pos hcur, if_neg hptB, hp, if_neg hz,
              if_pos (Nat.pos_of_ne_zero hz)]
          rw [hgoal]
          rfl
      · by_cases hz : s1.rows.length = 0
        · have hgoal : isFillRows env (fuel + 1) s =
              (some e, { s1 with ranCursor := s1.ranCursor + 1, seekKey := none },
                [op]) := by
            simp only [isFillRows, if_pos hcur, if_neg hptB, hp, if_pos hz]
          rw [hgoal]
          rfl
        · have hgoal : isFillRows env (fuel + 1) s = (some e, s1, [op]) := by
            simp only [isFillRows, if_pos hcur, if_neg hptB, hp, if_neg hz]
          rw [hgoal]
          rfl
    rcases hop with ⟨a, b, n, rfl⟩ | ⟨a, b, n, rfl⟩
    · exact ⟨a, b, n, Or.inl hhead⟩
    · exact ⟨a, b, n, Or.inr hhead⟩
  refine ⟨hpoint, hscan, ⟨?_, ?_⟩, rfl⟩
  · rintro ⟨k, hk⟩
    cases hc : (env.isUnique &&
        (env.kvRanges.getD s.ranCursor ⟨[], []⟩).isPoint) with
    | true =>
      rw [Bool.and_eq_true] at hc
      exact hc
    | false =>
      obtain ⟨a, b, n, hor⟩ := hscan hc
      rcases hor with h' | h' <;> rw [hk] at h' <;> simp at h'
  · rintro ⟨hu, hp⟩
    refine ⟨(env.kvRanges.getD s.ranCursor ⟨[], []⟩).startKey, hpoint ?_⟩
    rw [hu, hp]
    rfl

theorem indexScan_point_path_iff_witness :
    (isFillRows c7Env 1 c7InitState).2.2.head? =
      some (StoreOp.scanOp [5] [6] scanLimit) ∧
    (isDrain c7Env 3 c7InitState).1 = .ok ([[[5], [1]], [[5], [2]]], true) := by
  obtain ⟨_, hscan, _, hdrain⟩ :=
    indexScan_point_path_iff c7Env c7InitState 0 (by decide)
  refine ⟨?_, hdrain⟩
  rfl

theorem point_failure_advances_cursor_witness :
    (tsNext c10Env c10State).1 = .error (.storageErr "boom") ∧
    (tsNext c10Env c10State).2.1.rangeCursor = 1 ∧
    (isNext c10IsEnv c10IsState).1 = .error (.storageErr "boom") ∧
    (isNext c10IsEnv c10IsState).2.1.ranCursor = 1 := by
  obtain ⟨⟨h1, h2, _⟩, ⟨h3, h4, _⟩⟩ :=
    point_failure_advances_cursor c10Env c10State (.storageErr "boom")
      (by decide) (by decide) rfl rfl rfl rfl
      c10IsEnv c10IsState (.storageErr "boom")
      (by decide) (by decide) rfl rfl rfl rfl
  exact ⟨h1, h2, h3, h4⟩

/-! ### C1: key-order infrastructure -/

theorem keyLt_trichot : ∀ (a b : Key), keyLt a b = true ∨ a = b ∨ keyLt b a = true := by
  intro a
  induction a with
  | nil =>
    intro b
    cases b with
    | nil => exact Or.inr (Or.inl rfl)
    | cons y ys => exact Or.inl rfl
  | cons x xs ih =>
    intro b
    cases b with
    | nil => exact Or.inr (Or.inr rfl)
    | cons y ys =>
      rcases Nat.lt_trichotomy x y with h | h | h
      · exact Or.inl (by simp [keyLt, h])
      · subst h
        rcases ih ys with h2 | h2 | h2
        · exact Or.inl (by simp [keyLt, h2])
        · exact Or.inr (Or.inl (by rw [h2]))
        · exact Or.inr (Or.inr (by simp [keyLt, h2]))
      · exact Or.inr (Or.inr (by simp [keyLt, h]))

theorem keyLt_trans : ∀ (a b c : Key), keyLt a b = true → keyLt b c = true →
    keyLt a c = true := by
  intro a
  induction a with
  | nil =>
    intro b c hab hbc
    cases c with
    | nil =>
      cases b with
      | nil => exact hbc
      | cons y ys => simp [keyLt] at hbc
    | cons z zs => rfl
  | cons x xs ih =>
    intro b c hab hbc
    cases b with
    | nil => simp [keyLt] at hab
    | cons y ys =>
      cases c with
      | nil => simp [keyLt] at hbc
      | cons z zs =>
        simp only [keyLt] at hab hbc ⊢
        rcases Nat.lt_trichotomy x y with hxy | hxy | hxy
        · rcases Nat.lt_trichotomy y z with hyz | hyz | hyz
          · rw [if_pos (Nat.lt_trans hxy hyz)]
          · subst hyz
            rw [if_pos hxy]
          · rw [if_neg (Nat.lt_asymm hyz), if_pos hyz] at hbc
            cases hbc
        · subst hxy
          rw [if_neg (lt_irrefl x), if_neg (lt_irrefl x)] at hab
          rcases Nat.lt_trichotomy x z with hyz | hyz | hyz
          · rw [if_pos hyz]
          · subst hyz
            rw [if_neg (lt_irrefl x), if_neg (lt_irrefl x)] at hbc ⊢
            exact ih ys zs hab hbc
          · rw [if_neg (Nat.lt_asymm hyz), if_pos hyz] at hbc
            cases hbc
        · rw [if_neg (Nat.lt_asymm hxy), if_pos hxy] at hab
          cases hab

theorem keyLt_asymm (a b : Key) (h : keyLt a b = true) : keyLt b a = false := by
  cases hba : keyLt b a with
  | false => rfl
  | true => exact absurd (keyLt_trans a b a h hba) (by simp [keyLt_irrefl])

theorem keyLt_connex (a b : Key) (hab : keyLt a b = false)
    (hba : keyLt b a = false) : a = b := by
  rcases keyLt_trichot a b with h | h | h
  · rw [h] at hab; cases hab
  · exact h
  · rw [h] at hba; cases hba

theorem keyLt_of_lt_of_le (a b c : Key) (h1 : keyLt a b = true)
    (h2 : keyLe b c = true) : keyLt a c = true := by
  have h2' : keyLt c b = false := by
    simpa [keyLe, Bool.not_eq_true'] using h2
  rcases keyLt_trichot b c with h | h | h
  · exact keyLt_trans a b c h1 h
  · rw [← h]; exact h1
  · rw [h] at h2'; cases h2'

theorem keyLt_of_le_of_lt (a b c : Key) (h1 : keyLe a b = true)
    (h2 : keyLt b c = true) : keyLt a c = true := by
  have h1' : keyLt b a = false := by
    simpa [keyLe, Bool.not_eq_true'] using h1
  rcases keyLt_trichot a b with h | h | h
  · exact keyLt_trans a b c h h2
  · rw [h]; exact h2
  · rw [h] at h1'; cases h1'

theorem keyLe_of_lt (a b : Key) (h : keyLt a b = true) : keyLe a b = true := by
  simp [keyLe, Bool.not_eq_true', keyLt_asymm a b h]

theorem keyLe_trans (a b c : Key) (h1 : keyLe a b = true)
    (h2 : keyLe b c = true) : keyLe a c = true := by
  have h1' : keyLt b a = false := by
    simpa [keyLe, Bool.not_eq_true'] using h1
  have h2' : keyLt c b = false := by
    simpa [keyLe, Bool.not_eq_true'] using h2
  simp only [keyLe, Bool.not_eq_true']
  cases hca : keyLt c a with
  | false => rfl
  | true =>
    rcases keyLt_trichot a b with h | h | h
    · rw [keyLt_trans c a b hca h] at h2'; cases h2'
    · subst h; rw [hca] at h2'; cases h2'
    · rw [h] at h1'; cases h1'

theorem keyVal_foldl (ys : List Nat) : ∀ (a : Nat),
    ys.foldl (fun acc b => acc * 256 + b) a = a * 256 ^ ys.length + keyVal ys := by
  induction ys with
  | nil => intro a; simp [keyVal]
  | cons y ys ih =>
    intro a
    have h2 : keyVal (y :: ys) = y * 256 ^ ys.length + keyVal ys := by
      show List.foldl _ (0 * 256 + y) ys = _
      rw [ih (0 * 256 + y)]
      ring
    simp only [List.foldl_cons, List.length_cons]
    rw [ih (a * 256 + y), h2]
    ring

theorem keyVal_cons (b : Nat) (rest : List Nat) :
    keyVal (b :: rest) = b * 256 ^ rest.length + keyVal rest := by
  show List.foldl _ (0 * 256 + b) rest = _
  rw [keyVal_foldl rest (0 * 256 + b)]
  ring

theorem keyVal_lt_pow (k : List Nat) (h : ∀ b ∈ k, b < 256) :
    keyVal k < 256 ^ k.length := by
  induction k with
  | nil => simp [keyVal]
  | cons b rest ih =>
    have hb : b < 256 := h b (.head _)
    have hr := ih (fun x hx => h x (.tail _ hx))
    rw [keyVal_cons, List.length_cons]
    have h1 : b * 256 ^ rest.length + keyVal rest < (b + 1) * 256 ^ rest.length := by
      rw [Nat.succ_mul]
      exact Nat.add_lt_add_left hr _
    have h2 : (b + 1) * 256 ^ rest.length ≤ 256 ^ (rest.length + 1) := by
      rw [pow_succ, Nat.mul_comm (256 ^ rest.length) 256]
      exact Nat.mul_le_mul_right _ hb
    exact lt_of_lt_of_le h1 h2

theorem keyLt_eq_val_lt : ∀ (a b : Key), a.length = b.length →
    (∀ x ∈ a, x < 256) → (∀ x ∈ b, x < 256) →
    keyLt a b = decide (keyVal a < keyVal b) := by
  intro a
  induction a with
  | nil =>
    intro b hlen _ _
    cases b with
    | nil => simp [keyLt, keyVal]
    | cons y ys => simp at hlen
  | cons x xs ih =>
    intro b hlen ha hb
    cases b with
    | nil => simp at hlen
    | cons y ys =>
      have hl : xs.length = ys.length := by simpa using hlen
      simp only [keyLt]
      rw [keyVal_cons, keyVal_cons, hl]
      rcases Nat.lt_trichotomy x y with h | h | h
      · rw [if_pos h]
        have hxv := keyVal_lt_pow xs (fun z hz => ha z (.tail _ hz))
        rw [hl] at hxv
        have hlt : x * 256 ^ ys.length + keyVal xs <
            y * 256 ^ ys.length + keyVal ys := by
          have h1 : x * 256 ^ ys.length + keyVal xs <
              (x + 1) * 256 ^ ys.length := by
            rw [Nat.succ_mul]
            exact Nat.add_lt_add_left hxv _
          have h2 : (x + 1) * 256 ^ ys.length ≤ y * 256 ^ ys.length :=
            Nat.mul_le_mul_right _ h
          exact lt_of_lt_of_le h1 (le_trans h2 (Nat.le_add_right _ _))
        simp [hlt]
      · subst h
        rw [if_neg (lt_irrefl x), if_neg (lt_irrefl x)]
        rw [ih ys hl (fun z hz => ha z (.tail _ hz)) (fun z hz => hb z (.tail _ hz))]
        rw [decide_eq_decide]
        constructor
        · exact fun h2 => Nat.add_lt_add_left h2 _
        · exact fun h2 => Nat.lt_of_add_lt_add_left h2
      · rw [if_neg (Nat.lt_asymm h), if_pos h]
        have hyv := keyVal_lt_pow ys (fun z hz => hb z (.tail _ hz))
        have hge : y * 256 ^ ys.length + keyVal ys <
            x * 256 ^ ys.length + keyVal xs := by
          have h1 : y * 256 ^ ys.length + keyVal ys <
              (y + 1) * 256 ^ ys.length := by
            rw [Nat.succ_mul]
            exact Nat.add_lt_add_left hyv _
          have h2 : (y + 1) * 256 ^ ys.length ≤ x * 256 ^ ys.length :=
            Nat.mul_le_mul_right _ h
          exact lt_of_lt_of_le h1 (le_trans h2 (Nat.le_add_right _ _))
        have hno : ¬(x * 256 ^ ys.length + keyVal xs <
            y * 256 ^ ys.length + keyVal ys) :=
          fun hcon => absurd (Nat.lt_trans hcon hge) (lt_irrefl _)
        simp [hno]

theorem valLE_eq_keyVal_reverse : ∀ (rk : List Nat),
    valLE rk = keyVal rk.reverse := by
  intro rk
  induction rk with
  | nil => rfl
  | cons b rest ih =>
    have happ : keyVal (rest.reverse ++ [b]) = keyVal rest.reverse * 256 + b := by
      show List.foldl _ 0 (rest.reverse ++ [b]) = _
      rw [List.foldl_append]
      rfl
    simp only [valLE, List.reverse_cons, happ, ih]
    ring

theorem prefixNextAux_none : ∀ (rk : List Nat), (∀ b ∈ rk, b < 256) →
    prefixNextAux rk = none → ∀ b ∈ rk, b = 255 := by
  intro rk
  induction rk with
  | nil => intro _ _ b hb; cases hb
  | cons b rest ih =>
    intro hbd heq c hc
    have hblt : b < 256 := hbd b (.head _)
    simp only [prefixNextAux] at heq
    by_cases hz : (b + 1) % 256 = 0
    · rw [if_pos hz] at heq
      have hb255 : b = 255 := by omega
      rcases List.mem_cons.mp hc with h | h
      · rw [h]; exact hb255
      · have hrec : prefixNextAux rest = none := by
          cases hx : prefixNextAux rest with
          | none => rfl
          | some r => rw [hx] at heq; cases heq
        exact ih (fun x hx => hbd x (.tail _ hx)) hrec c h
    · rw [if_neg hz] at heq
      cases heq

theorem prefixNextAux_some : ∀ (rk r : List Nat), (∀ b ∈ rk, b < 256) →
    prefixNextAux rk = some r →
    r.length = rk.length ∧ valLE r = valLE rk + 1 ∧ ∀ b ∈ r, b < 256 := by
  intro rk
  induction rk with
  | nil => intro r _ heq; cases heq
  | cons b rest ih =>
    intro r hbd heq
    have hblt : b < 256 := hbd b (.head _)
    simp only [prefixNextAux] at heq
    by_cases hz : (b + 1) % 256 = 0
    · rw [if_pos hz] at heq
      have hb255 : b = 255 := by omega
      rcases Option.map_eq_some'.mp heq with ⟨r', hrec, hr⟩
      obtain ⟨hl, hv, hrb⟩ := ih r' (fun x hx => hbd x (.tail _ hx)) hrec
      subst hr
      refine ⟨by simp [hl], ?_, ?_⟩
      · simp only [valLE, hz, hv]
        omega
      · intro x hx
        rcases List.mem_cons.mp hx with h | h
        · omega
        · exact hrb x h
    · rw [if_neg hz] at heq
      cases heq
      have hmod : (b + 1) % 256 = b + 1 := by omega
      refine ⟨rfl, ?_, ?_⟩
      · simp only [valLE, hmod]
        omega
      · intro x hx
        rcases List.mem_cons.mp hx with h | h
        · omega
        · exact hbd x (.tail _ h)

theorem prefixPrevAux_none : ∀ (rk : List Nat), (∀ b ∈ rk, b < 256) →
    prefixPrevAux rk = none → ∀ b ∈ rk, b = 0 := by
  intro rk
  induction rk with
  | nil => intro _ _ b hb; cases hb
  | cons b rest ih =>
    intro hbd heq c hc
    have hblt : b < 256 := hbd b (.head _)
    simp only [prefixPrevAux] at heq
    by_cases hz : (b + 255) % 256 = 255
    · rw [if_pos hz] at heq
      have hb0 : b = 0 := by omega
      rcases List.mem_cons.mp hc with h | h
      · rw [h]; exact hb0
      · have hrec : prefixPrevAux rest = none := by
          cases hx : prefixPrevAux rest with
          | none => rfl
          | some r => rw [hx] at heq; cases heq
        exact ih (fun x hx => hbd x (.tail _ hx)) hrec c h
    · rw [if_neg hz] at heq
      cases heq

theorem prefixPrevAux_some : ∀ (rk r : List Nat), (∀ b ∈ rk, b < 256) →
    prefixPrevAux rk = some r →
    r.length = rk.length ∧ valLE r + 1 = valLE rk ∧ ∀ b ∈ r, b < 256 := by
  intro rk
  induction rk with
  | nil => intro r _ heq; cases heq
  | cons b rest ih =>
    intro r hbd heq
    have hblt : b < 256 := hbd b (.head _)
    simp only [prefixPrevAux] at heq
    by_cases hz : (b + 255) % 256 = 255
    · rw [if_pos hz] at heq
      have hb0 : b = 0 := by omega
      rcases Option.map_eq_some'.mp heq with ⟨r', hrec, hr⟩
      obtain ⟨hl, hv, hrb⟩ := ih r' (fun x hx => hbd x (.tail _ hx)) hrec
      subst hr
      refine ⟨by simp [hl], ?_, ?_⟩
      · simp only [valLE, hz, hb0]
        omega
      · intro x hx
        rcases List.mem_cons.mp hx with h | h
        · omega
        · exact hrb x h
    · rw [if_neg hz] at heq
      cases heq
      have hge1 : 1 ≤ b := by omega
      have hmod : (b + 255) % 256 = b - 1 := by omega
      refine ⟨rfl, ?_, ?_⟩
      · simp only [valLE, hmod]
        omega
      · intro x hx
        rcases List.mem_cons.mp hx with h | h
        · omega
        · exact hbd x (.tail _ h)

theorem prefixNext_spec (k : Key) (hk : ∀ b ∈ k, b < 256) :
    ((prefixNext k).length = k.length ∧ keyVal (prefixNext k) = keyVal k + 1 ∧
      (∀ b ∈ prefixNext k, b < 256)) ∨
    (prefixNext k = k ++ [0] ∧ ∀ b ∈ k, b = 255) := by
  have hkr : ∀ b ∈ k.reverse, b < 256 := by
    intro b hb
    exact hk b (List.mem_reverse.mp hb)
  simp only [prefixNext]
  cases hrec : prefixNextAux k.reverse with
  | some r =>
    obtain ⟨hl, hv, hbd⟩ := prefixNextAux_some k.reverse r hkr hrec
    left
    refine ⟨by simp [hl], ?_, ?_⟩
    · show keyVal r.reverse = keyVal k + 1
      rw [valLE_eq_keyVal_reverse r, valLE_eq_keyVal_reverse k.reverse,
        List.reverse_reverse] at hv
      exact hv
    · intro b hb
      exact hbd b (List.mem_reverse.mp hb)
  | none =>
    right
    refine ⟨rfl, ?_⟩
    intro b hb
    exact prefixNextAux_none k.reverse hkr hrec b (List.mem_reverse.mpr hb)

theorem prefixPrev_spec (k : Key) (hk : ∀ b ∈ k, b < 256) :
    (∃ p, prefixPrev k = some p ∧ p.length = k.length ∧
      keyVal p + 1 = keyVal k ∧ ∀ b ∈ p, b < 256) ∨
    (prefixPrev k = none ∧ ∀ b ∈ k, b = 0) := by
  have hkr : ∀ b ∈ k.reverse, b < 256 := by
    intro b hb
    exact hk b (List.mem_reverse.mp hb)
  simp only [prefixPrev]
  cases hrec : prefixPrevAux k.reverse with
  | some r =>
    obtain ⟨hl, hv, hbd⟩ := prefixPrevAux_some k.reverse r hkr hrec
    left
    refine ⟨r.reverse, rfl, by simp [hl], ?_, ?_⟩
    · rw [valLE_eq_keyVal_reverse r, valLE_eq_keyVal_reverse k.reverse,
        List.reverse_reverse] at hv
      exact hv
    · intro b hb
      exact hbd b (List.mem_reverse.mp hb)
  | none =>
    right
    refine ⟨rfl, ?_⟩
    intro b hb
    exact prefixPrevAux_none k.reverse hkr hrec b (List.mem_reverse.mpr hb)

theorem keyLt_append_zero : ∀ (k l : Key), k.length = l.length →
    keyLt k (l ++ [0]) = !(keyLt l k) := by
  intro k
  induction k with
  | nil =>
    intro l hlen
    cases l with
    | nil => rfl
    | cons y ys => simp at hlen
  | cons x xs ih =>
    intro l hlen
    cases l with
    | nil => simp at hlen
    | cons y ys =>
      have hl : xs.length = ys.length := by simpa using hlen
      simp only [List.cons_append, keyLt]
      rcases Nat.lt_trichotomy x y with h | h | h
      · rw [if_pos h, if_neg (Nat.lt_asymm h), if_pos h]
        rfl
      · subst h
        rw [if_neg (lt_irrefl x), if_neg (lt_irrefl x), if_neg (lt_irrefl x),
          if_neg (lt_irrefl x)]
        exact ih ys hl
      · rw [if_neg (Nat.lt_asymm h), if_pos h, if_pos h]
        rfl

theorem keyLt_prefixNext_eq (l k : Key) (hlen : k.length = l.length)
    (hbl : ∀ b ∈ l, b < 256) (hbk : ∀ b ∈ k, b < 256) :
    keyLt k (prefixNext l) = !(keyLt l k) := by
  rcases prefixNext_spec l hbl with ⟨hl, hv, hbd⟩ | ⟨heq, _⟩
  · rw [keyLt_eq_val_lt k (prefixNext l) (hlen.trans hl.symm) hbk hbd,
      keyLt_eq_val_lt l k hlen.symm hbl hbk, hv]
    by_cases h : keyVal k ≤ keyVal l
    · have h1 : keyVal k < keyVal l + 1 := Nat.lt_succ_of_le h
      have h2 : ¬(keyVal l < keyVal k) := Nat.not_lt.mpr h
      simp [h1, h2]
    · have h1 : ¬(keyVal k < keyVal l + 1) := by omega
      have h2 : keyVal l < keyVal k := by omega
      simp [h1, h2]
  · rw [heq, keyLt_append_zero k l hlen]

theorem keyLe_prefixNext_iff (l k : Key) (hlen : k.length = l.length)
    (hbl : ∀ b ∈ l, b < 256) (hbk : ∀ b ∈ k, b < 256) :
    keyLe (prefixNext l) k = keyLt l k := by
  simp only [keyLe]
  rw [keyLt_prefixNext_eq l k hlen hbl hbk, Bool.not_not]

theorem point_window_eq (s k : Key) (hlen : k.length = s.length)
    (hbs : ∀ b ∈ s, b < 256) (hbk : ∀ b ∈ k, b < 256) :
    (keyLe s k && keyLt k (prefixNext s)) = decide (k = s) := by
  rw [keyLt_prefixNext_eq s k hlen hbs hbk]
  simp only [keyLe]
  by_cases he : k = s
  · subst he
    simp [keyLt_irrefl]
  · have hor : keyLt k s = true ∨ keyLt s k = true := by
      rcases keyLt_trichot k s with h | h | h
      · exact Or.inl h
      · exact absurd h he
      · exact Or.inr h
    rcases hor with h | h <;> simp [h, he]

theorem filter_split {α : Type} (R : α → α → Prop) (p q : α → Bool) :
    ∀ (l : List α), l.Pairwise R →
    (∀ a ∈ l, p a = true → q a = false) →
    (∀ a ∈ l, ∀ b ∈ l, R a b → q a = true → p b = false) →
    l.filter (fun x => p x || q x) = l.filter p ++ l.filter q := by
  intro l
  induction l with
  | nil => intro _ _ _; rfl
  | cons x l' ih =>
    intro hpw hdisj hsep
    have hR : ∀ y ∈ l', R x y := (List.pairwise_cons.mp hpw).1
    have hpw' := (List.pairwise_cons.mp hpw).2
    have hdisj' : ∀ a ∈ l', p a = true → q a = false :=
      fun a ha => hdisj a (.tail _ ha)
    have hsep' : ∀ a ∈ l', ∀ b ∈ l', R a b → q a = true → p b = false :=
      fun a ha b hb => hsep a (.tail _ ha) b (.tail _ hb)
    cases hp : p x with
    | true =>
      have hq : q x = false := hdisj x (.head _) hp
      rw [List.filter_cons_of_pos (by simp [hp]), List.filter_cons_of_pos hp,
        List.filter_cons_of_neg (by simp [hq]), ih hpw' hdisj' hsep']
      rfl
    | false =>
      cases hq : q x with
      | true =>
        have hnil : l'.filter p = [] := by
          rw [List.filter_eq_nil_iff]
          intro b hb
          rw [hsep x (.head _) b (.tail _ hb) (hR b hb) hq]
          simp
        rw [List.filter_cons_of_pos (by simp [hq]),
          List.filter_cons_of_neg (by simp [hp]),
          List.filter_cons_of_pos hq, ih hpw' hdisj' hsep', hnil]
        rfl
      | false =>
        rw [List.filter_cons_of_neg (by simp [hp, hq]),
          List.filter_cons_of_neg (by simp [hp]),
          List.filter_cons_of_neg (by simp [hq])]
        exact ih hpw' hdisj' hsep'

theorem filter_filter_own {α : Type} (p q : α → Bool) :
    ∀ (l : List α), (l.filter p).filter q = l.filter (fun a => p a && q a) := by
  intro l
  induction l with
  | nil => rfl
  | cons x l' ih =>
    cases hp : p x <;> cases hq : q x <;>
      simp [List.filter_cons, hp, hq, ih]

theorem pendingPairs_none (env : TSEnv) (c : Nat) :
    pendingPairs env c none = tailPairs env.db env.desc (env.kvRanges.drop c) := by
  simp only [pendingPairs]
  cases hd : env.kvRanges.drop c with
  | nil => rfl
  | cons r rs =>
    simp only [tailPairs, windowPairs]

theorem tailPairs_asc (db : Store)
    (hs : db.Pairwise (fun a b => keyLt a.1 b.1 = true)) :
    ∀ (rs : List KeyRange),
    rs.Pairwise (fun r r' => keyLe r.endKey r'.startKey = true) →
    tailPairs db false rs = db.filter (fun kv => inRanges rs kv.1) := by
  intro rs
  induction rs with
  | nil =>
    intro _
    simp [tailPairs, inRanges]
  | cons r rs' ih =>
    intro hsep
    have hhead : ∀ r' ∈ rs', keyLe r.endKey r'.startKey = true :=
      (List.pairwise_cons.mp hsep).1
    have htail := (List.pairwise_cons.mp hsep).2
    simp only [tailPairs, Bool.false_eq_true, if_false]
    rw [ih htail]
    have hcong : db.filter (fun kv => inRanges (r :: rs') kv.1) =
        db.filter (fun kv =>
          (keyLe r.startKey kv.1 && keyLt kv.1 r.endKey) || inRanges rs' kv.1) := by
      apply List.filter_congr
      intro kv _
      simp [inRanges]
    rw [hcong]
    have hdisj : ∀ a ∈ db,
        (keyLe r.startKey a.1 && keyLt a.1 r.endKey) = true →
        inRanges rs' a.1 = false := by
      intro a _ hp2
      rw [Bool.and_eq_true] at hp2
      cases hq : inRanges rs' a.1 with
      | false => rfl
      | true =>
        simp only [inRanges, List.any_eq_true] at hq
        obtain ⟨r', hr', hcond⟩ := hq
        rw [Bool.and_eq_true] at hcond
        have h3 := keyLt_of_lt_of_le a.1 r.endKey r'.startKey hp2.2 (hhead r' hr')
        have h4 := keyLt_of_lt_of_le a.1 r'.startKey a.1 h3 hcond.1
        rw [keyLt_irrefl] at h4
        cases h4
    have hsep2 : ∀ a ∈ db, ∀ b ∈ db, keyLt a.1 b.1 = true →
        inRanges rs' a.1 = true →
        (keyLe r.startKey b.1 && keyLt b.1 r.endKey) = false := by
      intro a _ b _ hab hq
      simp only [inRanges, List.any_eq_true] at hq
      obtain ⟨r', hr', hcond⟩ := hq
      rw [Bool.and_eq_true] at hcond
      cases hp : (keyLe r.startKey b.1 && keyLt b.1 r.endKey) with
      | false => rfl
      | true =>
        rw [Bool.and_eq_true] at hp
        have h3 := keyLt_of_lt_of_le b.1 r.endKey r'.startKey hp.2 (hhead r' hr')
        have h4 := keyLt_of_lt_of_le b.1 r'.startKey a.1 h3 hcond.1
        have h5 := keyLt_trans b.1 a.1 b.1 h4 hab
        rw [keyLt_irrefl] at h5
        cases h5
    exact (filter_split (fun a b => keyLt a.1 b.1 = true) _ _ db hs hdisj hsep2).symm

theorem tailPairs_desc (db : Store)
    (hs : db.Pairwise (fun a b => keyLt a.1 b.1 = true)) :
    ∀ (rs : List KeyRange),
    rs.Pairwise (fun r r' => keyLe r'.endKey r.startKey = true) →
    tailPairs db true rs = (db.filter (fun kv => inRanges rs kv.1)).reverse := by
  intro rs
  induction rs with
  | nil =>
    intro _
    simp [tailPairs, inRanges]
  | cons r rs' ih =>
    intro hsep
    have hhead : ∀ r' ∈ rs', keyLe r'.endKey r.startKey = true :=
      (List.pairwise_cons.mp hsep).1
    have htail := (List.pairwise_cons.mp hsep).2
    simp only [tailPairs, if_true]
    rw [ih htail]
    have hcong : db.filter (fun kv => inRanges (r :: rs') kv.1) =
        db.filter (fun kv =>
          inRanges rs' kv.1 || (keyLe r.startKey kv.1 && keyLt kv.1 r.endKey)) := by
      apply List.filter_congr
      intro kv _
      simp only [inRanges, List.any_cons]
      rw [Bool.or_comm]
    rw [hcong]
    have hdisj : ∀ a ∈ db, inRanges rs' a.1 = true →
        (keyLe r.startKey a.1 && keyLt a.1 r.endKey) = false := by
      intro a _ hq
      simp only [inRanges, List.any_eq_true] at hq
      obtain ⟨r', hr', hcond⟩ := hq
      rw [Bool.and_eq_true] at hcond
      cases hp : (keyLe r.startKey a.1 && keyLt a.1 r.endKey) with
      | false => rfl
      | true =>
        rw [Bool.and_eq_true] at hp
        have h3 := keyLt_of_lt_of_le a.1 r'.endKey r.startKey hcond.2 (hhead r' hr')
        have h4 := keyLt_of_lt_of_le a.1 r.startKey a.1 h3 hp.1
        rw [keyLt_irrefl] at h4
        cases h4
    have hsep2 : ∀ a ∈ db, ∀ b ∈ db, keyLt a.1 b.1 = true →
        (keyLe r.startKey a.1 && keyLt a.1 r.endKey) = true →
        inRanges rs' b.1 = false := by
      intro a _ b _ hab hp
      rw [Bool.and_eq_true] at hp
      cases hq : inRanges rs' b.1 with
      | false => rfl
      | true =>
        simp only [inRanges, List.any_eq_true] at hq
        obtain ⟨r', hr', hcond⟩ := hq
        rw [Bool.and_eq_true] at hcond
        have h3 := keyLt_of_lt_of_le b.1 r'.endKey r.startKey hcond.2 (hhead r' hr')
        have h4 := keyLt_of_lt_of_le b.1 r.startKey a.1 h3 hp.1
        have h5 := keyLt_trans b.1 a.1 b.1 h4 hab
        rw [keyLt_irrefl] at h5
        cases h5
    rw [filter_split (fun a b => keyLt a.1 b.1 = true) _ _ db hs hdisj hsep2,
      List.reverse_append]
    rfl

theorem filter_eq_key_of_find (db : Store)
    (hs : db.Pairwise (fun a b => keyLt a.1 b.1 = true)) (k : Key) :
    ∀ kv0, db.find? (fun p => p.1 == k) = some kv0 →
    db.filter (fun kv => decide (kv.1 = k)) = [kv0] := by
  induction db with
  | nil => intro kv0 h; cases h
  | cons x rest ih =>
    intro kv0 hfind
    have hR : ∀ y ∈ rest, keyLt x.1 y.1 = true := (List.pairwise_cons.mp hs).1
    have hs' := (List.pairwise_cons.mp hs).2
    by_cases hx : x.1 = k
    · have hxk : (x.1 == k) = true := by simp [hx]
      simp only [List.find?, hxk, cond_true] at hfind
      cases hfind
      rw [List.filter_cons_of_pos (by simp [hx])]
      have hnil : rest.filter (fun kv => decide (kv.1 = k)) = [] := by
        rw [List.filter_eq_nil_iff]
        intro b hb
        simp only [decide_eq_true_eq]
        intro hbk
        have := hR b hb
        rw [hx, ← hbk] at this
        rw [keyLt_irrefl] at this
        cases this
      rw [hnil]
    · have hxk : (x.1 == k) = false := by simp [hx]
      simp only [List.find?, hxk, cond_false] at hfind
      rw [List.filter_cons_of_neg (by simp [hx])]
      exact ih hs' kv0 hfind

theorem getLast_mem_own {α : Type} : ∀ (l : List α) (a : α),
    l.getLast? = some a → a ∈ l := by
  intro l
  induction l with
  | nil => intro a h; cases h
  | cons x l' ih =>
    intro a h
    cases l' with
    | nil => cases h; exact .head _
    | cons y l'' =>
      rw [List.getLast?_cons_cons] at h
      exact .tail _ (ih a h)

theorem getLast_split_own {α : Type} : ∀ (l : List α) (a : α),
    l.getLast? = some a → l = l.dropLast ++ [a] := by
  intro l
  induction l with
  | nil => intro a h; cases h
  | cons x l' ih =>
    intro a h
    cases l' with
    | nil => cases h; rfl
    | cons y l'' =>
      rw [List.getLast?_cons_cons] at h
      have h2 : (x :: y :: l'').dropLast = x :: (y :: l'').dropLast := rfl
      rw [h2, List.cons_append]
      exact congrArg (x :: ·) (ih a h)

theorem window_continuation_asc (db : Store)
    (hs : db.Pairwise (fun a b => keyLt a.1 b.1 = true))
    (hbytes : ∀ kv ∈ db, ∀ b ∈ kv.1, b < 256)
    (L : Nat) (hlen : ∀ kv ∈ db, kv.1.length = L)
    (sk stop : Key) (n : Nat) (last : Key × Val)
    (hlast : ((db.filter (fun kv => keyLe sk kv.1 && keyLt kv.1 stop)).take n).getLast?
      = some last) :
    db.filter (fun kv => keyLe (prefixNext last.1) kv.1 && keyLt kv.1 stop) =
      (db.filter (fun kv => keyLe sk kv.1 && keyLt kv.1 stop)).drop n := by
  have hlast_take : last ∈
      (db.filter (fun kv => keyLe sk kv.1 && keyLt kv.1 stop)).take n :=
    getLast_mem_own _ _ hlast
  have hmemW : last ∈ db.filter (fun kv => keyLe sk kv.1 && keyLt kv.1 stop) :=
    (List.take_subset n _) hlast_take
  have hmemdb : last ∈ db := List.mem_of_mem_filter hmemW
  have hcondlast : (keyLe sk last.1 && keyLt last.1 stop) = true :=
    (List.mem_filter.mp hmemW).2
  rw [Bool.and_eq_true] at hcondlast
  have hstep1 : db.filter
      (fun kv => keyLe (prefixNext last.1) kv.1 && keyLt kv.1 stop) =
      db.filter (fun kv =>
        (keyLe sk kv.1 && keyLt kv.1 stop) && keyLt last.1 kv.1) := by
    apply List.filter_congr
    intro kv hkv
    have h1 : keyLe (prefixNext last.1) kv.1 = keyLt last.1 kv.1 :=
      keyLe_prefixNext_iff last.1 kv.1
        ((hlen kv hkv).trans (hlen last hmemdb).symm)
        (hbytes last hmemdb) (hbytes kv hkv)
    rw [h1]
    cases h2 : keyLt last.1 kv.1 with
    | false => simp [h2]
    | true =>
      have h3 : keyLe sk kv.1 = true :=
        keyLe_of_lt sk kv.1 (keyLt_of_le_of_lt sk last.1 kv.1 hcondlast.1 h2)
      simp [h2, h3]
  rw [hstep1,
    ← filter_filter_own (fun kv => keyLe sk kv.1 && keyLt kv.1 stop)
      (fun kv => keyLt last.1 kv.1) db]
  have hWsorted : (db.filter (fun kv => keyLe sk kv.1 && keyLt kv.1 stop)).Pairwise
      (fun a b => keyLt a.1 b.1 = true) := hs.filter _
  have hsplit : db.filter (fun kv => keyLe sk kv.1 && keyLt kv.1 stop) =
      (db.filter (fun kv => keyLe sk kv.1 && keyLt kv.1 stop)).take n ++
        (db.filter (fun kv => keyLe sk kv.1 && keyLt kv.1 stop)).drop n :=
    (List.take_append_drop n _).symm
  have hpw2 := hsplit ▸ hWsorted
  rw [List.pairwise_append] at hpw2
  obtain ⟨hpwB, hpwD, hcross⟩ := hpw2
  have hBsplit := getLast_split_own _ _ hlast
  have hfilterB : ((db.filter (fun kv => keyLe sk kv.1 && keyLt kv.1 stop)).take n).filter
      (fun kv => keyLt last.1 kv.1) = [] := by
    rw [List.filter_eq_nil_iff]
    intro b hb
    rw [hBsplit] at hb
    rcases List.mem_append.mp hb with h | h
    · rw [hBsplit, List.pairwise_append] at hpwB
      have h2 := hpwB.2.2 b h last (.head _)
      rw [keyLt_asymm b.1 last.1 h2]
      simp
    · rcases List.mem_cons.mp h with h' | h'
      · rw [h', keyLt_irrefl]
        simp
      · cases h'
  have hfilterD : ((db.filter (fun kv => keyLe sk kv.1 && keyLt kv.1 stop)).drop n).filter
      (fun kv => keyLt last.1 kv.1) =
      (db.filter (fun kv => keyLe sk kv.1 && keyLt kv.1 stop)).drop n := by
    rw [List.filter_eq_self]
    intro b hb
    exact hcross last hlast_take b hb
  conv_lhs => rw [hsplit]
  rw [List.filter_append, hfilterB, hfilterD, List.nil_append]

theorem window_desc_drained (db : Store)
    (hs : db.Pairwise (fun a b => keyLt a.1 b.1 = true))
    (hbytes : ∀ kv ∈ db, ∀ b ∈ kv.1, b < 256)
    (L : Nat) (hlen : ∀ kv ∈ db, kv.1.length = L)
    (start stop : Key) (m : Key × Val) (p : Key)
    (hhead : (db.filter (fun kv => keyLe start kv.1 && keyLt kv.1 stop)).head?
      = some m)
    (hp : prefixPrev m.1 = some p) :
    db.filter (fun kv => keyLe start kv.1 && keyLt kv.1 p) = [] := by
  cases hF : db.filter (fun kv => keyLe start kv.1 && keyLt kv.1 stop) with
  | nil => rw [hF] at hhead; cases hhead
  | cons m0 rest =>
    rw [hF] at hhead
    simp only [List.head?_cons, Option.some_inj] at hhead
    subst hhead
    have hmemF : m0 ∈ db.filter (fun kv => keyLe start kv.1 && keyLt kv.1 stop) := by
      rw [hF]
      exact .head _
    have hmdb : m0 ∈ db := List.mem_of_mem_filter hmemF
    have hmcond : (keyLe start m0.1 && keyLt m0.1 stop) = true :=
      (List.mem_filter.mp hmemF).2
    rw [Bool.and_eq_true] at hmcond
    have hmb : ∀ b ∈ m0.1, b < 256 := hbytes m0 hmdb
    rcases prefixPrev_spec m0.1 hmb with ⟨p', hp', hpl, hpv, hpb⟩ | ⟨hnone, _⟩
    · rw [hp'] at hp
      cases hp
      rw [List.filter_eq_nil_iff]
      intro kv hkv
      simp only [Bool.and_eq_true, not_and]
      intro hc1 hc2
      have hkvb := hbytes kv hkv
      have hkvlen := hlen kv hkv
      have hmlen := hlen m0 hmdb
      have hplen : p.length = L := hpl.trans hmlen
      rw [keyLt_eq_val_lt kv.1 p (by rw [hkvlen, hplen]) hkvb hpb] at hc2
      have h1' : keyVal kv.1 < keyVal p := of_decide_eq_true hc2
      have h2 : keyVal kv.1 < keyVal m0.1 := by omega
      have h3 : keyLt kv.1 m0.1 = true := by
        rw [keyLt_eq_val_lt kv.1 m0.1 (by rw [hkvlen, hmlen]) hkvb hmb]
        exact decide_eq_true h2
      have h4 : keyLt kv.1 stop = true := keyLt_trans kv.1 m0.1 stop h3 hmcond.2
      have hkvF : kv ∈ db.filter (fun kv => keyLe start kv.1 && keyLt kv.1 stop) :=
        List.mem_filter.mpr ⟨hkv, by simp [hc1, h4]⟩
      rw [hF] at hkvF
      rcases List.mem_cons.mp hkvF with heq | hmem
      · rw [heq, keyLt_irrefl] at h3
        cases h3
      · have hFs : (m0 :: rest).Pairwise (fun a b => keyLt a.1 b.1 = true) :=
          hF ▸ hs.filter _
        have h5 : keyLt m0.1 kv.1 = true := (List.pairwise_cons.mp hFs).1 kv hmem
        have h6 := keyLt_trans kv.1 m0.1 kv.1 h3 h5
        rw [keyLt_irrefl] at h6
        cases h6
    · rw [hnone] at hp
      cases hp

theorem getLast_or_shift {α : Type} (a : α) (l : List α) (x : Option α) :
    (a :: l).getLast?.or x = l.getLast?.or (some a) := by
  cases l with
  | nil => rfl
  | cons b l' =>
    rw [List.getLast?_cons_cons]
    cases hgl : (b :: l').getLast? with
    | none =>
      rw [List.getLast?_eq_none_iff] at hgl
      cases hgl
    | some y => rfl

theorem tsFeedPairs_ok (env : TSEnv) (rowOf : Key → Val → Row)
    (hdec : ∀ kv ∈ env.db, tsDecodeRow env kv.1 kv.2 = .ok (rowOf kv.1 kv.2)) :
    ∀ (pairs : List (Key × Val)), (∀ kv ∈ pairs, kv ∈ env.db) →
    ∀ (rows0 : List Row) (lk0 : Option Key),
    tsFeedPairs env pairs rows0 lk0 =
      (rows0 ++ pairs.map (fun kv => rowOf kv.1 kv.2),
        ((pairs.map Prod.fst).getLast?).or lk0, none) := by
  intro pairs
  induction pairs with
  | nil =>
    intro _ rows0 lk0
    simp [tsFeedPairs]
  | cons kv rest ih =>
    intro hmem rows0 lk0
    simp only [tsFeedPairs, hdec kv (hmem kv (.head _))]
    rw [ih (fun x hx => hmem x (.tail _ hx)) (rows0 ++ [rowOf kv.1 kv.2]) (some kv.1)]
    simp only [List.map_cons]
    rw [getLast_or_shift]
    simp [List.append_assoc]

theorem windowPairs_mem_db (db : Store) (ran : KeyRange) (desc : Bool)
    (seek : Option Key) :
    ∀ kv ∈ (windowPairs db ran desc seek).take scanLimit, kv ∈ db := by
  intro kv hkv
  have h1 : kv ∈ windowPairs db ran desc seek := List.mem_of_mem_take hkv
  cases seek with
  | none =>
    simp only [windowPairs] at h1
    cases desc with
    | true =>
      rw [if_pos rfl] at h1
      exact List.mem_of_mem_filter (List.mem_reverse.mp h1)
    | false =>
      rw [if_neg (by simp)] at h1
      exact List.mem_of_mem_filter h1
  | some sk =>
    simp only [windowPairs] at h1
    cases desc with
    | true =>
      rw [if_pos rfl] at h1
      exact List.mem_of_mem_filter (List.mem_reverse.mp h1)
    | false =>
      rw [if_neg (by simp)] at h1
      exact List.mem_of_mem_filter h1

theorem ite_bool_false {α : Sort 1} (a b : α) : (if false = true then a else b) = b := rfl

theorem ite_bool_true {α : Sort 1} (a b : α) : (if true = true then a else b) = a := rfl

theorem tsFillRowsFromRange_spec (env : TSEnv) (rowOf : Key → Val → Row)
    (hdec : ∀ kv ∈ env.db, tsDecodeRow env kv.1 kv.2 = .ok (rowOf kv.1 kv.2))
    (s : TSState) (hrows : s.rows = []) (ran : KeyRange) :
    ((windowPairs env.db ran env.desc s.seekKey).take scanLimit = [] →
      ∃ sk2 tr, tsFillRowsFromRange env s ran =
        (none, { s with seekKey := some sk2, rows := [] }, tr)) ∧
    ((windowPairs env.db ran env.desc s.seekKey).take scanLimit ≠ [] →
      ∃ lk tr,
        (((windowPairs env.db ran env.desc s.seekKey).take scanLimit).map
          Prod.fst).getLast? = some lk ∧
        tsFillRowsFromRange env s ran =
          (none, { s with
            seekKey := if env.desc then prefixPrev lk else some (prefixNext lk),
            rows := ((windowPairs env.db ran env.desc s.seekKey).take
              scanLimit).map (fun kv => rowOf kv.1 kv.2) }, tr)) := by
  rcases hsk : s.seekKey with _ | sk <;> cases hd : env.desc
  case none.false =>
    have hwin : windowPairs env.db ran false none = rangePairs env.db ran := by
      simp [windowPairs]
    rw [hwin]
    have hmem2 : ∀ kv ∈ (rangePairs env.db ran).take scanLimit, kv ∈ env.db :=
      fun kv hkv => List.mem_of_mem_filter (List.mem_of_mem_take hkv)
    have hfeed := tsFeedPairs_ok env rowOf hdec
      ((rangePairs env.db ran).take scanLimit) hmem2 [] none
    have hpairs : scanPairs env.db ran.startKey ran.endKey scanLimit =
        (rangePairs env.db ran).take scanLimit := rfl
    constructor
    · intro hb
      refine ⟨ran.startKey, [StoreOp.scanOp ran.startKey ran.endKey scanLimit], ?_⟩
      simp only [tsFillRowsFromRange, hsk, hd, ite_bool_false]
      rw [hrows, hpairs, hfeed, hb]
      rfl
    · intro hb
      cases hgl : (((rangePairs env.db ran).take scanLimit).map Prod.fst).getLast? with
      | none =>
        rw [List.getLast?_eq_none_iff] at hgl
        simp only [List.map_eq_nil_iff] at hgl
        exact absurd hgl hb
      | some lk =>
        refine ⟨lk, [StoreOp.scanOp ran.startKey ran.endKey scanLimit], rfl, ?_⟩
        simp only [tsFillRowsFromRange, hsk, hd, ite_bool_false]
        rw [hrows, hpairs, hfeed, hgl]
        rfl
  case none.true =>
    have hwin : windowPairs env.db ran true none = (rangePairs env.db ran).reverse := by
      simp [windowPairs]
    rw [hwin]
    have hmem2 : ∀ kv ∈ ((rangePairs env.db ran).reverse).take scanLimit, kv ∈ env.db :=
      fun kv hkv =>
        List.mem_of_mem_filter (List.mem_reverse.mp (List.mem_of_mem_take hkv))
    have hfeed := tsFeedPairs_ok env rowOf hdec
      (((rangePairs env.db ran).reverse).take scanLimit) hmem2 [] none
    have hpairs : reverseScanPairs env.db ran.startKey ran.endKey scanLimit =
        ((rangePairs env.db ran).reverse).take scanLimit := rfl
    constructor
    · intro hb
      refine ⟨ran.endKey, [StoreOp.revScanOp ran.startKey ran.endKey scanLimit], ?_⟩
      simp only [tsFillRowsFromRange, hsk, hd, eq_self_iff_true, if_true]
      rw [hrows, hpairs, hfeed, hb]
      rfl
    · intro hb
      cases hgl : ((((rangePairs env.db ran).reverse).take scanLimit).map
          Prod.fst).getLast? with
      | none =>
        rw [List.getLast?_eq_none_iff] at hgl
        simp only [List.map_eq_nil_iff] at hgl
        exact absurd hgl hb
      | some lk =>
        refine ⟨lk, [StoreOp.revScanOp ran.startKey ran.endKey scanLimit], rfl, ?_⟩
        simp only [tsFillRowsFromRange, hsk, hd, eq_self_iff_true, if_true]
        rw [hrows, hpairs, hfeed, hgl]
        rfl
  case some.false =>
    have hwin : windowPairs env.db ran false (some sk) =
        env.db.filter (fun kv => keyLe sk kv.1 && keyLt kv.1 ran.endKey) := by
      simp [windowPairs]
    rw [hwin]
    have hmem2 : ∀ kv ∈ (env.db.filter
        (fun kv => keyLe sk kv.1 && keyLt kv.1 ran.endKey)).take scanLimit,
        kv ∈ env.db :=
      fun kv hkv => List.mem_of_mem_filter (List.mem_of_mem_take hkv)
    have hfeed := tsFeedPairs_ok env rowOf hdec
      ((env.db.filter (fun kv => keyLe sk kv.1 && keyLt kv.1 ran.endKey)).take
        scanLimit) hmem2 [] none
    have hpairs : scanPairs env.db sk ran.endKey scanLimit =
        (env.db.filter (fun kv => keyLe sk kv.1 && keyLt kv.1 ran.endKey)).take
          scanLimit := rfl
    constructor
    · intro hb
      refine ⟨sk, [StoreOp.scanOp sk ran.endKey scanLimit], ?_⟩
      simp only [tsFillRowsFromRange, hsk, hd, ite_bool_false]
      rw [hrows, hpairs, hfeed, hb]
      rfl
    · intro hb
      cases hgl : (((env.db.filter
          (fun kv => keyLe sk kv.1 && keyLt kv.1 ran.endKey)).take
          scanLimit).map Prod.fst).getLast? with
      | none =>
        rw [List.getLast?_eq_none_iff] at hgl
        simp only [List.map_eq_nil_iff] at hgl
        exact absurd hgl hb
      | some lk =>
        refine ⟨lk, [StoreOp.scanOp sk ran.endKey scanLimit], rfl, ?_⟩
        simp only [tsFillRowsFromRange, hsk, hd, ite_bool_false]
        rw [hrows, hpairs, hfeed, hgl]
        rfl
  case some.true =>
    have hwin : windowPairs env.db ran true (some sk) =
        (env.db.filter (fun kv => keyLe ran.startKey kv.1 && keyLt kv.1 sk)).reverse := by
      simp [windowPairs]
    rw [hwin]
    have hmem2 : ∀ kv ∈ ((env.db.filter
        (fun kv => keyLe ran.startKey kv.1 && keyLt kv.1 sk)).reverse).take scanLimit,
        kv ∈ env.db :=
      fun kv hkv =>
        List.mem_of_mem_filter (List.mem_reverse.mp (List.mem_of_mem_take hkv))
    have hfeed := tsFeedPairs_ok env rowOf hdec
      (((env.db.filter
        (fun kv => keyLe ran.startKey kv.1 && keyLt kv.1 sk)).reverse).take
        scanLimit) hmem2 [] none
    have hpairs : reverseScanPairs env.db ran.startKey sk scanLimit =
        ((env.db.filter
          (fun kv => keyLe ran.startKey kv.1 && keyLt kv.1 sk)).reverse).take
          scanLimit := rfl
    constructor
    · intro hb
      refine ⟨sk, [StoreOp.revScanOp ran.startKey sk scanLimit], ?_⟩
      simp only [tsFillRowsFromRange, hsk, hd, eq_self_iff_true, if_true]
      rw [hrows, hpairs, hfeed, hb]
      rfl
    · intro hb
      cases hgl : ((((env.db.filter
          (fun kv => keyLe ran.startKey kv.1 && keyLt kv.1 sk)).reverse).take
          scanLimit).map Prod.fst).getLast? with
      | none =>
        rw [List.getLast?_eq_none_iff] at hgl
        simp only [List.map_eq_nil_iff] at hgl
        exact absurd hgl hb
      | some lk =>
        refine ⟨lk, [StoreOp.revScanOp ran.startKey sk scanLimit], rfl, ?_⟩
        simp only [tsFillRowsFromRange, hsk, hd, eq_self_iff_true, if_true]
        rw [hrows, hpairs, hfeed, hgl]
        rfl

theorem head_mem_own {α : Type} (l : List α) (a : α) (h : l.head? = some a) :
    a ∈ l := by
  cases l with
  | nil => cases h
  | cons x xs =>
    rw [List.head?_cons] at h
    cases h
    exact .head _

theorem windowPairs_asc_none (db : Store) (ran : KeyRange) :
    windowPairs db ran false none =
      db.filter (fun kv => keyLe ran.startKey kv.1 && keyLt kv.1 ran.endKey) := by
  simp only [windowPairs, ite_bool_false]
  rfl

theorem windowPairs_asc_some (db : Store) (ran : KeyRange) (sk : Key) :
    windowPairs db ran false (some sk) =
      db.filter (fun kv => keyLe sk kv.1 && keyLt kv.1 ran.endKey) := by
  simp only [windowPairs, ite_bool_false]

theorem tsFillRows_refill (env : TSEnv) (rowOf : Key → Val → Row) (L : Nat)
    (hpg : env.pointGet = fun k => .ok (storeGet env.db k))
    (hdec : ∀ kv ∈ env.db, tsDecodeRow env kv.1 kv.2 = .ok (rowOf kv.1 kv.2))
    (hs : env.db.Pairwise (fun a b => keyLt a.1 b.1 = true))
    (hbytes : ∀ kv ∈ env.db, ∀ b ∈ kv.1, b < 256)
    (hlen : ∀ kv ∈ env.db, kv.1.length = L)
    (hvals : ∀ kv ∈ env.db, kv.2 ≠ [])
    (hrpt : ∀ r ∈ env.kvRanges, r.isPoint = true →
      r.startKey.length = L ∧ ∀ b ∈ r.startKey, b < 256)
    (hdsc : env.desc = true →
      (∀ r ∈ env.kvRanges, (rangePairs env.db r).length ≤ scanLimit) ∧
      (∀ kv ∈ env.db, ∃ b ∈ kv.1, b ≠ 0)) :
    ∀ (fuelF tc : Nat) (tseek : Option Key) (tst : Nat)
      (tct : Option (List Int)) (tlc : Bool),
      env.kvRanges.length - tc < fuelF →
      (∀ sk, tseek = some sk →
        (env.kvRanges.getD tc ⟨[], []⟩).isPoint = false ∧
        (env.desc = true →
          windowPairs env.db (env.kvRanges.getD tc ⟨[], []⟩) true (some sk) = [])) →
      ∃ BP t' tr,
        tsFillRows env fuelF ⟨tc, 0, [], tseek, tst, tct, true, tlc⟩ =
          (none, t', tr) ∧
        (∀ kv ∈ BP, kv ∈ env.db) ∧
        t'.rows = BP.map (fun kv => rowOf kv.1 kv.2) ∧
        t'.rowCursor = 0 ∧ t'.ignoreLock = true ∧
        pendingPairs env tc tseek =
          BP ++ pendingPairs env t'.rangeCursor t'.seekKey ∧
        (BP = [] → pendingPairs env t'.rangeCursor t'.seekKey = []) ∧
        (∀ sk, t'.seekKey = some sk →
          (env.kvRanges.getD t'.rangeCursor ⟨[], []⟩).isPoint = false ∧
          (env.desc = true →
            windowPairs env.db (env.kvRanges.getD t'.rangeCursor ⟨[], []⟩) true
              (some sk) = [])) := by
  intro fuelF
  induction fuelF with
  | zero =>
    intro tc tseek tst tct tlc hfuel _
    omega
  | succ fuelF ih =>
    intro tc tseek tst tct tlc hfuel hseek
    by_cases hc : tc < env.kvRanges.length
    case neg =>
      have hfill : tsFillRows env (fuelF + 1) ⟨tc, 0, [], tseek, tst, tct, true, tlc⟩ =
          (none, ⟨tc, 0, [], tseek, tst, tct, true, tlc⟩, []) := by
        simp only [tsFillRows]
        rw [if_neg (by simpa using hc)]
      have hdrop : env.kvRanges.drop tc = [] :=
        List.drop_eq_nil_of_le (Nat.le_of_not_lt hc)
      have hpend : pendingPairs env tc tseek = [] := by
        simp [pendingPairs, hdrop]
      refine ⟨[], _, [], hfill, by simp, rfl, rfl, rfl, ?_, fun _ => hpend, hseek⟩
      rw [hpend]
      simp [hpend]
    case pos =>
      have hdropc : env.kvRanges.drop tc =
          (env.kvRanges.getD tc ⟨[], []⟩) :: env.kvRanges.drop (tc + 1) := by
        rw [List.getD_eq_getElem _ _ hc]
        exact List.drop_eq_getElem_cons hc
      have hranmem : env.kvRanges.getD tc ⟨[], []⟩ ∈ env.kvRanges := by
        rw [List.getD_eq_getElem _ _ hc]
        exact List.getElem_mem _
      have hpendc : pendingPairs env tc tseek =
          windowPairs env.db (env.kvRanges.getD tc ⟨[], []⟩) env.desc tseek ++
            tailPairs env.db env.desc (env.kvRanges.drop (tc + 1)) := by
        simp only [pendingPairs, hdropc]
      by_cases hpt : (env.kvRanges.getD tc ⟨[], []⟩).isPoint = true
      · -- point fast path
        have hseeknone : tseek = none := by
          cases hskv : tseek with
          | none => rfl
          | some sk =>
            have h2 := (hseek sk hskv).1
            rw [hpt] at h2
            cases h2
        subst hseeknone
        obtain ⟨hstl, hstb⟩ := hrpt _ hranmem hpt
        have hend : (env.kvRanges.getD tc ⟨[], []⟩).endKey =
            prefixNext (env.kvRanges.getD tc ⟨[], []⟩).startKey := by
          simpa [KeyRange.isPoint] using hpt
        have hrp : rangePairs env.db (env.kvRanges.getD tc ⟨[], []⟩) =
            env.db.filter (fun kv =>
              decide (kv.1 = (env.kvRanges.getD tc ⟨[], []⟩).startKey)) := by
          simp only [rangePairs]
          apply List.filter_congr
          intro kv hkv
          rw [hend]
          exact point_window_eq _ kv.1 ((hlen kv hkv).trans hstl.symm) hstb
            (hbytes kv hkv)
        cases hfind : env.db.find?
            (fun q => q.1 == (env.kvRanges.getD tc ⟨[], []⟩).startKey) with
        | some kv0 =>
          have hprop := List.find?_some hfind
          have hkey : kv0.1 = (env.kvRanges.getD tc ⟨[], []⟩).startKey := by
            simpa using hprop
          have hkv0mem : kv0 ∈ env.db := List.mem_of_find?_eq_some hfind
          have hsg : storeGet env.db (env.kvRanges.getD tc ⟨[], []⟩).startKey =
              kv0.2 := by
            simp only [storeGet, hfind]
          have hvne : ¬(kv0.2.length = 0) := by
            simpa using hvals kv0 hkv0mem
          have hdecode : tsDecodeRow env (env.kvRanges.getD tc ⟨[], []⟩).startKey
              kv0.2 = .ok (rowOf kv0.1 kv0.2) := by
            rw [← hkey]
            exact hdec kv0 hkv0mem
          have hfp : tsFillRowsFromPoint env ⟨tc, 0, [], none, tst, tct, true, tlc⟩
              (env.kvRanges.getD tc ⟨[], []⟩) =
              (none, ⟨tc, 0, [rowOf kv0.1 kv0.2], none, tst, tct, true, tlc⟩,
                [StoreOp.getOp (env.kvRanges.getD tc ⟨[], []⟩).startKey]) := by
            simp only [tsFillRowsFromPoint, hpg, hsg, if_neg hvne, hdecode]
            rfl
          have hfill : tsFillRows env (fuelF + 1)
              ⟨tc, 0, [], none, tst, tct, true, tlc⟩ =
              (none, ⟨tc + 1, 0, [rowOf kv0.1 kv0.2], none, tst, tct, true, tlc⟩,
                [StoreOp.getOp (env.kvRanges.getD tc ⟨[], []⟩).startKey]) := by
            simp only [tsFillRows, if_pos hc, if_pos hpt, hfp]
            rfl
          have hBP : rangePairs env.db (env.kvRanges.getD tc ⟨[], []⟩) = [kv0] := by
            rw [hrp]
            exact filter_eq_key_of_find env.db hs _ kv0 hfind
          have hwin1 : windowPairs env.db (env.kvRanges.getD tc ⟨[], []⟩)
              env.desc none = [kv0] := by
            cases hd : env.desc
            · simp only [windowPairs, ite_bool_false]
              exact hBP
            · simp only [windowPairs, ite_bool_true]
              rw [hBP]
              rfl
          refine ⟨[kv0], _, _, hfill, ?_, rfl, rfl, rfl, ?_, ?_, ?_⟩
          · intro kv hkv
            rw [List.mem_singleton] at hkv
            rw [hkv]
            exact hkv0mem
          · rw [hpendc, hwin1, pendingPairs_none]
          · intro h
            cases h
          · intro sk hsk2
            cases hsk2
        | none =>
          have hsg : storeGet env.db (env.kvRanges.getD tc ⟨[], []⟩).startKey
              = [] := by
            simp only [storeGet, hfind]
          have hfp : tsFillRowsFromPoint env ⟨tc, 0, [], none, tst, tct, true, tlc⟩
              (env.kvRanges.getD tc ⟨[], []⟩) =
              (none, ⟨tc, 0, [], none, tst, tct, true, tlc⟩,
                [StoreOp.getOp (env.kvRanges.getD tc ⟨[], []⟩).startKey]) := by
            simp only [tsFillRowsFromPoint, hpg, hsg]
            rfl
          have hrp_nil : rangePairs env.db (env.kvRanges.getD tc ⟨[], []⟩) = [] := by
            rw [hrp, List.filter_eq_nil_iff]
            intro kv hkv
            simp only [decide_eq_true_eq]
            intro heq
            have h2 := List.find?_eq_none.mp hfind kv hkv
            simp [heq] at h2
          obtain ⟨BP, t', tr', hfill', hmem', hrows', hrc', hig', hpend', hemp', hseek'⟩ :=
            ih (tc + 1) none tst tct tlc (by omega) (fun sk h => by cases h)
          have hfill : tsFillRows env (fuelF + 1)
              ⟨tc, 0, [], none, tst, tct, true, tlc⟩ =
              (none, t',
                [StoreOp.getOp (env.kvRanges.getD tc ⟨[], []⟩).startKey] ++ tr') := by
            simp only [tsFillRows, if_pos hc, if_pos hpt, hfp, List.length_nil,
              gt_iff_lt, lt_self_iff_false, if_false, hfill']
          refine ⟨BP, t', _, hfill, hmem', hrows', hrc', hig', ?_, hemp', hseek'⟩
          have hwin0 : windowPairs env.db (env.kvRanges.getD tc ⟨[], []⟩)
              env.desc none = [] := by
            cases hd : env.desc
            · simp only [windowPairs, ite_bool_false]
              exact hrp_nil
            · simp only [windowPairs, ite_bool_true]
              rw [hrp_nil]
              rfl
          rw [hpendc, hwin0, List.nil_append, ← pendingPairs_none]
          exact hpend'
      · -- scan path
        have hptf : (env.kvRanges.getD tc ⟨[], []⟩).isPoint = false := by
          cases h : (env.kvRanges.getD tc ⟨[], []⟩).isPoint
          · rfl
          · exact absurd h hpt
        obtain ⟨hspec1, hspec2⟩ := tsFillRowsFromRange_spec env rowOf hdec
          ⟨tc, 0, [], tseek, tst, tct, true, tlc⟩ rfl
          (env.kvRanges.getD tc ⟨[], []⟩)
        by_cases hbatch : (windowPairs env.db (env.kvRanges.getD tc ⟨[], []⟩)
            env.desc tseek).take scanLimit = []
        · obtain ⟨sk2, tr2, hfr⟩ := hspec1 hbatch
          obtain ⟨BP, t', tr', hfill', hmem', hrows', hrc', hig', hpend', hemp', hseek'⟩ :=
            ih (tc + 1) none tst tct tlc (by omega) (fun sk h => by cases h)
          have hfill : tsFillRows env (fuelF + 1)
              ⟨tc, 0, [], tseek, tst, tct, true, tlc⟩ =
              (none, t', tr2 ++ tr') := by
            simp only [tsFillRows, if_pos hc, hptf, Bool.false_eq_true, if_false,
              hfr, List.length_nil, eq_self_iff_true, if_true, gt_iff_lt,
              lt_self_iff_false, hfill']
          refine ⟨BP, t', _, hfill, hmem', hrows', hrc', hig', ?_, hemp', hseek'⟩
          have hwin0 : windowPairs env.db (env.kvRanges.getD tc ⟨[], []⟩)
              env.desc tseek = [] := by
            rcases List.take_eq_nil_iff.mp hbatch with h | h
            · exact absurd h (by simp [scanLimit])
            · exact h
          rw [hpendc, hwin0, List.nil_append, ← pendingPairs_none]
          exact hpend'
        · obtain ⟨lk, tr2, hgl, hfr⟩ := hspec2 hbatch
          have hmaplen : ¬(((windowPairs env.db (env.kvRanges.getD tc ⟨[], []⟩)
              env.desc tseek).take scanLimit).map
              (fun kv => rowOf kv.1 kv.2)).length = 0 := by
            simp only [List.length_map, List.length_eq_zero]
            exact hbatch
          cases hd : env.desc with
          | false =>
            rw [hd] at hmaplen
            have hfill : tsFillRows env (fuelF + 1)
                ⟨tc, 0, [], tseek, tst, tct, true, tlc⟩ =
                (none, ⟨tc, 0,
                  ((windowPairs env.db (env.kvRanges.getD tc ⟨[], []⟩) env.desc
                    tseek).take scanLimit).map (fun kv => rowOf kv.1 kv.2),
                  some (prefixNext lk), tst, tct, true, tlc⟩, tr2) := by
              simp only [tsFillRows, if_pos hc, hptf, Bool.false_eq_true, if_false,
                hfr, if_neg hmaplen, if_pos (Nat.pos_of_ne_zero hmaplen),
                gt_iff_lt, hd]
            refine ⟨(windowPairs env.db (env.kvRanges.getD tc ⟨[], []⟩) env.desc
              tseek).take scanLimit, _, tr2, hfill,
              windowPairs_mem_db env.db _ env.desc tseek, rfl, rfl, rfl,
              ?_, ?_, ?_⟩
            · -- pending: ascending continuation
              obtain ⟨skE, hwa⟩ : ∃ skE,
                  windowPairs env.db (env.kvRanges.getD tc ⟨[], []⟩) false tseek =
                  env.db.filter (fun kv => keyLe skE kv.1 &&
                    keyLt kv.1 (env.kvRanges.getD tc ⟨[], []⟩).endKey) := by
                cases tseek with
                | none => exact ⟨_, windowPairs_asc_none _ _⟩
                | some sk => exact ⟨sk, windowPairs_asc_some _ _ _⟩
              rw [hd] at hgl
              rw [hwa, List.getLast?_map] at hgl
              obtain ⟨lastp, hlastp, hlk⟩ := Option.map_eq_some'.mp hgl
              have hcont := window_continuation_asc env.db hs hbytes L hlen
                skE (env.kvRanges.getD tc ⟨[], []⟩).endKey scanLimit lastp hlastp
              rw [hlk] at hcont
              rw [hpendc]
              simp only [pendingPairs, hdropc]
              rw [hd, hwa, windowPairs_asc_some, hcont, ← List.append_assoc,
                List.take_append_drop]
            · intro h
              exact absurd h hbatch
            · intro sk hsk2
              simp only [Option.some_inj] at hsk2
              refine ⟨hptf, ?_⟩
              intro hdt
              exact Bool.noConfusion hdt
          | true =>
            have hseeknone : tseek = none := by
              cases hskv : tseek with
              | none => rfl
              | some sk =>
                have hw := (hseek sk hskv).2 hd
                rw [hskv, hd, hw] at hbatch
                exact absurd (by simp) hbatch
            subst hseeknone
            obtain ⟨hbound, hnz⟩ := hdsc hd
            have hwin : windowPairs env.db (env.kvRanges.getD tc ⟨[], []⟩) true
                none =
                (rangePairs env.db (env.kvRanges.getD tc ⟨[], []⟩)).reverse := by
              simp only [windowPairs, ite_bool_true]
              rfl
            have hlenW : ((rangePairs env.db
                (env.kvRanges.getD tc ⟨[], []⟩)).reverse).length ≤ scanLimit := by
              rw [List.length_reverse]
              exact hbound _ hranmem
            have hwfull : ((rangePairs env.db
                (env.kvRanges.getD tc ⟨[], []⟩)).reverse).take scanLimit =
                (rangePairs env.db (env.kvRanges.getD tc ⟨[], []⟩)).reverse :=
              List.take_of_length_le hlenW
            rw [hd, hwin, hwfull] at hgl hfr hbatch hmaplen
            have hglkey : ((rangePairs env.db
                (env.kvRanges.getD tc ⟨[], []⟩)).map Prod.fst).head? = some lk := by
              rw [← List.getLast?_reverse, ← List.map_reverse]
              exact hgl
            rw [List.head?_map] at hglkey
            obtain ⟨m, hm, hmfst⟩ := Option.map_eq_some'.mp hglkey
            have hmmemF : m ∈ rangePairs env.db (env.kvRanges.getD tc ⟨[], []⟩) :=
              head_mem_own _ _ hm
            have hmdb : m ∈ env.db := List.mem_of_mem_filter hmmemF
            rcases prefixPrev_spec m.1 (hbytes m hmdb) with
              ⟨p, hp, hpl, hpv, hpb⟩ | ⟨hpn, hz⟩
            · have hdrained := window_desc_drained env.db hs hbytes L hlen
                (env.kvRanges.getD tc ⟨[], []⟩).startKey
                (env.kvRanges.getD tc ⟨[], []⟩).endKey m p hm hp
              have hwin2 : windowPairs env.db (env.kvRanges.getD tc ⟨[], []⟩)
                  true (some p) = [] := by
                simp only [windowPairs, hdrained]
                rfl
              have hpplk : prefixPrev lk = some p := by
                rw [← hmfst]
                exact hp
              have hfill : tsFillRows env (fuelF + 1)
                  ⟨tc, 0, [], none, tst, tct, true, tlc⟩ =
                  (none, ⟨tc, 0,
                    ((rangePairs env.db
                      (env.kvRanges.getD tc ⟨[], []⟩)).reverse).map
                      (fun kv => rowOf kv.1 kv.2),
                    some p, tst, tct, true, tlc⟩, tr2) := by
                simp only [tsFillRows, if_pos hc, hptf, Bool.false_eq_true,
                  if_false, hfr, if_neg hmaplen,
                  if_pos (Nat.pos_of_ne_zero hmaplen), gt_iff_lt, hpplk,
                  eq_self_iff_true, if_true, hd]
              refine ⟨(rangePairs env.db
                  (env.kvRanges.getD tc ⟨[], []⟩)).reverse, _, tr2, hfill,
                ?_, rfl, rfl, rfl, ?_, ?_, ?_⟩
              · intro kv hkv
                exact List.mem_of_mem_filter (List.mem_reverse.mp hkv)
              · rw [hpendc, hd, hwin]
                simp only [pendingPairs, hdropc]
                rw [hd, hwin2, List.nil_append]
              · intro h
                exact absurd h hbatch
              · intro sk hsk2
                simp only [Option.some_inj] at hsk2
                subst hsk2
                exact ⟨hptf, fun _ => hwin2⟩
            · obtain ⟨b, hbm, hbne⟩ := hnz m hmdb
              exact absurd (hz b hbm) hbne

theorem tsNext_step (env : TSEnv) (rowOf : Key → Val → Row) (L : Nat)
    (hpg : env.pointGet = fun k => .ok (storeGet env.db k))
    (hdec : ∀ kv ∈ env.db, tsDecodeRow env kv.1 kv.2 = .ok (rowOf kv.1 kv.2))
    (hs : env.db.Pairwise (fun a b => keyLt a.1 b.1 = true))
    (hbytes : ∀ kv ∈ env.db, ∀ b ∈ kv.1, b < 256)
    (hlen : ∀ kv ∈ env.db, kv.1.length = L)
    (hvals : ∀ kv ∈ env.db, kv.2 ≠ [])
    (hrpt : ∀ r ∈ env.kvRanges, r.isPoint = true →
      r.startKey.length = L ∧ ∀ b ∈ r.startKey, b < 256)
    (hdsc : env.desc = true →
      (∀ r ∈ env.kvRanges, (rangePairs env.db r).length ≤ scanLimit) ∧
      (∀ kv ∈ env.db, ∃ b ∈ kv.1, b ≠ 0))
    (s : TSState) (P : List (Key × Val)) (hinv : tsInv env rowOf s P) :
    (P = [] → (tsNext env s).1 = .ok none) ∧
    (∀ kv P', P = kv :: P' →
      (tsNext env s).1 = .ok (some (rowOf kv.1 kv.2)) ∧
      tsInv env rowOf (tsNext env s).2.1 P') := by
  obtain ⟨hig, ⟨B, hBdb, hBrows, hBP⟩, hseekv⟩ := hinv
  have hck : tsCheckRangeLock env s = (none, s, []) := by
    simp [tsCheckRangeLock, hig]
  by_cases hlt : s.rowCursor < s.rows.length
  · -- buffered row available
    have hdropne : s.rows.drop s.rowCursor ≠ [] := by
      rw [ne_eq, List.drop_eq_nil_iff]
      omega
    cases hB : B with
    | nil =>
      rw [hB] at hBrows
      simp only [List.map_nil] at hBrows
      exact absurd hBrows hdropne
    | cons kv0 B' =>
      rw [hB] at hBrows hBP hBdb
      have hhead : s.rows[s.rowCursor]? = some (rowOf kv0.1 kv0.2) := by
        rw [← List.head?_drop, hBrows]
        rfl
      have hget : s.rows[s.rowCursor] = rowOf kv0.1 kv0.2 := by
        have h2 : s.rows[s.rowCursor]? = some s.rows[s.rowCursor] :=
          List.getElem?_eq_getElem hlt
        rw [h2] at hhead
        exact Option.some_inj.mp hhead
      have hone : tsGetOneRow s = (some (rowOf kv0.1 kv0.2),
          { s with rowCursor := s.rowCursor + 1 }) := by
        simp only [tsGetOneRow, dif_pos hlt]
        rw [List.get_eq_getElem, hget]
      have hnx : tsNext env s = (.ok (some (rowOf kv0.1 kv0.2)),
          { s with rowCursor := s.rowCursor + 1 }, []) := by
        simp only [tsNext, hck, hone]
      constructor
      · intro hP
        rw [hP] at hBP
        cases hBP
      · intro kv P' hP
        rw [hP] at hBP
        rw [List.cons_append] at hBP
        injection hBP with hkv hrest
        subst hkv
        refine ⟨by rw [hnx], ?_⟩
        rw [hnx]
        refine ⟨hig, ⟨B', fun x hx => hBdb x (.tail _ hx), ?_, hrest.symm ▸ rfl⟩, hseekv⟩
        show s.rows.drop (s.rowCursor + 1) = _
        have hdd : s.rows.drop (s.rowCursor + 1) =
            (s.rows.drop s.rowCursor).tail := by
          rw [← List.drop_drop, List.drop_one]
        rw [hdd, hBrows]
        rfl
  · -- refill
    have hBnil : B = [] := by
      have h2 : s.rows.drop s.rowCursor = [] := by
        rw [List.drop_eq_nil_iff]
        omega
      rw [h2] at hBrows
      cases hB : B with
      | nil => rfl
      | cons x xs =>
        rw [hB] at hBrows
        cases hBrows
    rw [hBnil, List.nil_append] at hBP
    have hone : tsGetOneRow s = (none, s) := by
      simp only [tsGetOneRow, dif_neg hlt]
    have hs3 : ({ s with rowCursor := 0, rows := [] } : TSState) =
        ⟨s.rangeCursor, 0, [], s.seekKey, s.start, s.counts, true, s.lockChecked⟩ := by
      rw [← hig]
    obtain ⟨BP, t', tr', hfill', hmem', hrows', hrc', hig', hpend', hemp', hseek'⟩ :=
      tsFillRows_refill env rowOf L hpg hdec hs hbytes hlen hvals hrpt hdsc
        (env.kvRanges.length + 1) s.rangeCursor s.seekKey s.start s.counts
        s.lockChecked (by omega) hseekv
    constructor
    · intro hP
      rw [hP] at hBP
      have hBPnil : BP = [] ∧
          pendingPairs env t'.rangeCursor t'.seekKey = [] := by
        have h2 : BP ++ pendingPairs env t'.rangeCursor t'.seekKey = [] :=
          hpend'.symm.trans hBP.symm
        exact List.append_eq_nil.mp h2
      have hrows0 : t'.rows = [] := by
        rw [hrows', hBPnil.1]
        rfl
      have hnx : (tsNext env s).1 = .ok none := by
        simp only [tsNext, hck, hone, hs3, hfill']
        rw [dif_neg (by rw [hrows0]; simp)]
      exact hnx
    · intro kv P' hP
      rw [hP] at hBP
      have hpend2 : kv :: P' = BP ++ pendingPairs env t'.rangeCursor t'.seekKey := by
        rw [hBP]
        exact hpend'
      cases hBPc : BP with
      | nil =>
        rw [hBPc] at hpend2
        rw [List.nil_append] at hpend2
        have := hemp' hBPc
        rw [this] at hpend2
        cases hpend2
      | cons kv0 BP' =>
        rw [hBPc] at hpend2 hmem'
        rw [List.cons_append] at hpend2
        injection hpend2 with hkv hrest
        subst hkv
        have hrowsc : t'.rows = rowOf kv.1 kv.2 ::
            BP'.map (fun x => rowOf x.1 x.2) := by
          rw [hrows', hBPc]
          rfl
        have hpos : 0 < t'.rows.length := by
          rw [hrowsc]
          simp
        have hget0 : t'.rows[0] = rowOf kv.1 kv.2 := by
          have h2 : t'.rows[0]? = some (rowOf kv.1 kv.2) := by
            rw [hrowsc]
            simp
          have h3 : t'.rows[0]? = some t'.rows[0] := List.getElem?_eq_getElem hpos
          rw [h3] at h2
          exact Option.some_inj.mp h2
        have hnx : tsNext env s = (.ok (some (rowOf kv.1 kv.2)),
            { t' with rowCursor := 1 }, [] ++ tr') := by
          simp only [tsNext, hck, hone, hs3, hfill']
          rw [dif_pos hpos]
          rw [List.get_eq_getElem, hget0]
        refine ⟨by rw [hnx], ?_⟩
        rw [hnx]
        refine ⟨hig', ⟨BP', fun x hx => hmem' x (.tail _ hx), ?_, ?_⟩, ?_⟩
        · show ({ t' with rowCursor := 1 } : TSState).rows.drop 1 = _
          simp only
          rw [hrowsc]
          rfl
        · exact hrest
        · exact hseek'

theorem tsDrain_spec (env : TSEnv) (rowOf : Key → Val → Row) (L : Nat)
    (hpg : env.pointGet = fun k => .ok (storeGet env.db k))
    (hdec : ∀ kv ∈ env.db, tsDecodeRow env kv.1 kv.2 = .ok (rowOf kv.1 kv.2))
    (hs : env.db.Pairwise (fun a b => keyLt a.1 b.1 = true))
    (hbytes : ∀ kv ∈ env.db, ∀ b ∈ kv.1, b < 256)
    (hlen : ∀ kv ∈ env.db, kv.1.length = L)
    (hvals : ∀ kv ∈ env.db, kv.2 ≠ [])
    (hrpt : ∀ r ∈ env.kvRanges, r.isPoint = true →
      r.startKey.length = L ∧ ∀ b ∈ r.startKey, b < 256)
    (hdsc : env.desc = true →
      (∀ r ∈ env.kvRanges, (rangePairs env.db r).length ≤ scanLimit) ∧
      (∀ kv ∈ env.db, ∃ b ∈ kv.1, b ≠ 0)) :
    ∀ (P : List (Key × Val)) (fuel : Nat) (s : TSState),
      tsInv env rowOf s P → P.length + 1 ≤ fuel →
      (tsDrain env fuel s).1 = .ok (P.map (fun kv => rowOf kv.1 kv.2), true) := by
  intro P
  induction P with
  | nil =>
    intro fuel s hinv hfuel
    cases fuel with
    | zero => omega
    | succ fuel =>
      have h1 := (tsNext_step env rowOf L hpg hdec hs hbytes hlen hvals hrpt hdsc
        s [] hinv).1 rfl
      rcases hnx : tsNext env s with ⟨res, s1, tr⟩
      rw [hnx] at h1
      simp only at h1
      subst h1
      simp [tsDrain, hnx]
  | cons kv P' ih =>
    intro fuel s hinv hfuel
    cases fuel with
    | zero => omega
    | succ fuel =>
      obtain ⟨hfst, hinv'⟩ := (tsNext_step env rowOf L hpg hdec hs hbytes hlen
        hvals hrpt hdsc s (kv :: P') hinv).2 kv P' rfl
      rcases hnx : tsNext env s with ⟨res, s1, tr⟩
      rw [hnx] at hfst hinv'
      simp only at hfst hinv'
      subst hfst
      have hdr := ih fuel s1 hinv' (by simpa using Nat.le_of_succ_le_succ hfuel)
      rcases hdr2 : tsDrain env fuel s1 with ⟨res2, s2, tr2⟩
      rw [hdr2] at hdr
      simp only at hdr
      subst hdr
      simp [tsDrain, hnx, hdr2]

/-- C1 (amended): with locks ignored, a total row codec, a store of
uniform-length, bounded-byte, nonempty-value rows sorted by key, and point
ranges of matching key length, repeatedly calling tableScanExec.Next yields
exactly the decoded rows whose keys fall in the union of the (pre-sorted,
non-overlapping) ranges, each exactly once: in ascending key order when Desc
is false, and in descending key order when Desc is true PROVIDED each range
holds at most scanLimit (128) matching keys and keys are not all-zero.  (The
original unconditional descending claim fails: a descending range needing a
second batch seeks to prefixPrev(lastKey) as an exclusive bound and skips
that key; see the counterexample.) -/
theorem tableScan_coverage_amended (env : TSEnv) (rowOf : Key → Val → Row)
    (L fuel : Nat) (s0 : TSState)
    (hpg : env.pointGet = fun k => .ok (storeGet env.db k))
    (hdec : ∀ kv ∈ env.db, tsDecodeRow env kv.1 kv.2 = .ok (rowOf kv.1 kv.2))
    (hs : env.db.Pairwise (fun a b => keyLt a.1 b.1 = true))
    (hbytes : ∀ kv ∈ env.db, ∀ b ∈ kv.1, b < 256)
    (hlen : ∀ kv ∈ env.db, kv.1.length = L)
    (hvals : ∀ kv ∈ env.db, kv.2 ≠ [])
    (hrpt : ∀ r ∈ env.kvRanges, r.isPoint = true →
      r.startKey.length = L ∧ ∀ b ∈ r.startKey, b < 256)
    (h0c : s0.rangeCursor = 0) (h0rc : s0.rowCursor = 0) (h0r : s0.rows = [])
    (h0sk : s0.seekKey = none) (h0ig : s0.ignoreLock = true)
    (hfuel : (env.db.filter (fun kv => inRanges env.kvRanges kv.1)).length + 1 ≤
      fuel) :
    (env.desc = false →
      env.kvRanges.Pairwise (fun r r' => keyLe r.endKey r'.startKey = true) →
      (tsDrain env fuel s0).1 =
        .ok ((env.db.filter (fun kv => inRanges env.kvRanges kv.1)).map
          (fun kv => rowOf kv.1 kv.2), true)) ∧
    (env.desc = true →
      env.kvRanges.Pairwise (fun r r' => keyLe r'.endKey r.startKey = true) →
      (∀ r ∈ env.kvRanges, (rangePairs env.db r).length ≤ scanLimit) →
      (∀ kv ∈ env.db, ∃ b ∈ kv.1, b ≠ 0) →
      (tsDrain env fuel s0).1 =
        .ok (((env.db.filter (fun kv => inRanges env.kvRanges kv.1)).reverse).map
          (fun kv => rowOf kv.1 kv.2), true)) := by
  have hinv : tsInv env rowOf s0 (tailPairs env.db env.desc env.kvRanges) := by
    refine ⟨h0ig, ⟨[], by simp, ?_, ?_⟩, ?_⟩
    · rw [h0r]
      simp
    · rw [h0c, h0sk, pendingPairs_none, List.drop_zero, List.nil_append]
    · intro sk h
      rw [h0sk] at h
      cases h
  constructor
  · intro hdf hsep
    have htp : tailPairs env.db env.desc env.kvRanges =
        env.db.filter (fun kv => inRanges env.kvRanges kv.1) := by
      rw [hdf]
      exact tailPairs_asc env.db hs env.kvRanges hsep
    have hdsc2 : env.desc = true →
        (∀ r ∈ env.kvRanges, (rangePairs env.db r).length ≤ scanLimit) ∧
        (∀ kv ∈ env.db, ∃ b ∈ kv.1, b ≠ 0) := by
      intro h
      rw [hdf] at h
      exact Bool.noConfusion h
    have hdrain := tsDrain_spec env rowOf L hpg hdec hs hbytes hlen hvals hrpt
      hdsc2 (tailPairs env.db env.desc env.kvRanges) fuel s0 hinv
      (by rw [htp]; exact hfuel)
    rw [hdrain, htp]
  · intro hdt hsep hbound hnz
    have htp : tailPairs env.db env.desc env.kvRanges =
        (env.db.filter (fun kv => inRanges env.kvRanges kv.1)).reverse := by
      rw [hdt]
      exact tailPairs_desc env.db hs env.kvRanges hsep
    have hdsc2 : env.desc = true →
        (∀ r ∈ env.kvRanges, (rangePairs env.db r).length ≤ scanLimit) ∧
        (∀ kv ∈ env.db, ∃ b ∈ kv.1, b ≠ 0) := fun _ => ⟨hbound, hnz⟩
    have hdrain := tsDrain_spec env rowOf L hpg hdec hs hbytes hlen hvals hrpt
      hdsc2 (tailPairs env.db env.desc env.kvRanges) fuel s0 hinv
      (by rw [htp, List.length_reverse]; exact hfuel)
    rw [hdrain, htp]

theorem tableScan_coverage_amended_witness :
    (tsDrain c1wEnv 3 c1wState).1 = .ok ([[some [7]], [some [8]]], true) := by
  have hdec : ∀ kv ∈ c1wEnv.db, tsDecodeRow c1wEnv kv.1 kv.2 =
      .ok ((fun _ v => ([some v] : Row)) kv.1 kv.2) := by
    intro kv hkv
    have hkv2 : kv ∈ [(([1] : Key), ([7] : Val)), ([2], [8])] := hkv
    fin_cases hkv2 <;> rfl
  have h := (tableScan_coverage_amended c1wEnv (fun _ v => [some v]) 1 3 c1wState
    rfl hdec (by decide) (by decide) (by decide) (by decide) (by decide)
    rfl rfl rfl rfl rfl (by decide)).1 rfl (by decide)
  exact h

set_option maxRecDepth 100000 in
/-- C1 counterexample: a single descending range over 130 one-byte keys needs
two reverse-scan batches; the continuation seeks to prefixPrev of the last
key seen ([3] -> [2]) and uses it as an exclusive upper bound, so the row of
key [2] — in the store and in the range — is never emitted even though the
scan completes normally. -/
theorem tableScan_desc_skips_key_counterexample :
    (tsDrain c1Env 132 c1State).1 = .ok (c1Rows, true) ∧
    ([some ([2] : List Nat)] : Row) ∉ c1Rows ∧
    (([2], [2]) : Key × Val) ∈ c1Env.db ∧
    inRanges c1Env.kvRanges [2] = true ∧
    tsDecodeRow c1Env [2] [2] = .ok [some [2]] :=
  ⟨rfl, by decide, by decide, by decide, rfl⟩

end Unistore
